import Mathlib

/-!
Signal, connection and intrusive list: a shallow embedding.

The C++ sources `intrusive_list.h` and `signals.h` are embedded over an explicit
memory: signals, connections and dispatch cursors (`iterator_holder`) live in
tables indexed by their address, pointers are optional addresses, and every
dereference of a null or dangling pointer is an explicit fault.  Callables are
small programs over the public operations of the library, so that a callable can
disconnect, move, connect, dispatch again or destroy the signal while a
dispatch is walking the list.
-/

namespace signals

/-! ## Memory -/

/-- Address of a `list_base` object: the sentinel `fake_` of the list owned by
signal `s`, or the link embedded in connection `c`. -/
inductive Ptr
  | fake (s : Nat)
  | conn (c : Nat)
  deriving DecidableEq, Repr

/-- The two neighbour references of `intrusive::list_base`; both are null after

default construction. -/
structure list_base where
  prev : Option Ptr
  next : Option Ptr
  deriving DecidableEq, Repr

/-- A `signal::connection`: the `list_element` base, the back-reference `sig`
and the stored callable `func` (a callable is named by its index in the program
table; `none` is an empty `std::function`). -/
structure connection where
  base : list_base
  sig : Option Nat
  func : Option Nat
  deriving DecidableEq, Repr

/-- A `signal::iterator_holder`, the cursor of one dispatch in progress. -/
structure iterator_holder where
  sig : Option Nat
  current : Option Ptr
  prev : Option Nat
  deriving DecidableEq, Repr

/-- A `signal` object: the sentinel of `connections`, the head `tail` of the
cursor chain, and whether the object's lifetime has not ended yet. -/
structure signal where
  fake_ : list_base
  tail : Option Nat
  alive : Bool
  deriving DecidableEq, Repr

/-- What an observer sees: a callable `f` run through connection `c` (by a
dispatch of signal `s`, or by a direct call of the handle when `s` is `none`),
and the end of a signal's destructor body. -/
inductive Event
  | invoked (s : Option Nat) (c f : Nat)
  | destroyed (s : Nat)
  deriving DecidableEq, Repr

/-- The whole memory, with the log of observed events and the set of one-shot
guards already consumed by callables. -/
structure State where
  sigs : List signal
  conns : List connection
  holders : List iterator_holder
  fired : List Nat
  trace : List Event
  deriving DecidableEq, Repr

/-- Ways in which an execution leaves defined behaviour or does not return. -/
inductive Err
  | null_deref
  | dangling
  | not_a_connection
  | bad_function_call
  | out_of_fuel
  deriving DecidableEq, Repr

/-- A failed execution: what went wrong, and the events observed up to then. -/
structure Fault where
  err : Err
  trace : List Event
  deriving DecidableEq, Repr

abbrev Res (α : Type) := Except Fault α

instance {α : Type} [DecidableEq α] : DecidableEq (Res α) := fun a b =>
  match a, b with
  | .ok x, .ok y => if h : x = y then isTrue (by rw [h]) else isFalse (by intro e; cases e; exact h rfl)
  | .error x, .error y =>
    if h : x = y then isTrue (by rw [h]) else isFalse (by intro e; cases e; exact h rfl)
  | .ok _, .error _ => isFalse (by intro e; cases e)
  | .error _, .ok _ => isFalse (by intro e; cases e)

def fail {α : Type} (e : Err) (st : State) : Res α := .error ⟨e, st.trace⟩

/-- Read the `list_base` object at a non-null address. -/
def State.base (st : State) : Ptr → Option list_base
  | .fake s => (st.sigs[s]?).bind fun sg => if sg.alive then some sg.fake_ else none
  | .conn c => (st.conns[c]?).map fun cn => cn.base

/-- Update the object stored at index `i` of a table, when there is one. -/
def upd {α : Type} (l : List α) (i : Nat) (f : α → α) : List α :=
  match l[i]? with
  | some x => l.set i (f x)
  | none => l

def State.setConn (st : State) (c : Nat) (f : connection → connection) : State :=
  { st with conns := upd st.conns c f }

def State.setSig (st : State) (s : Nat) (f : signal → signal) : State :=
  { st with sigs := upd st.sigs s f }

def State.setHolder (st : State) (h : Nat) (f : iterator_holder → iterator_holder) : State :=
  { st with holders := upd st.holders h f }

def State.log (st : State) (e : Event) : State :=
  { st with trace := st.trace ++ [e] }

/-- Overwrite the `list_base` object at an address. -/
def State.setBase (st : State) (p : Ptr) (f : list_base → list_base) : State :=
  match p with
  | .fake s => st.setSig s fun sg => { sg with fake_ := f sg.fake_ }
  | .conn c => st.setConn c fun cn => { cn with base := f cn.base }

/-- Dereference a `list_base*`. -/
def deref (st : State) : Option Ptr → Res (Ptr × list_base)
  | none => fail .null_deref st
  | some p =>
    match st.base p with
    | none => fail .dangling st
    | some b => pure (p, b)

/-- The statement `p->prev = v`. -/
def setPrev (p : Option Ptr) (v : Option Ptr) (st : State) : Res State := do
  let (q, _) ← deref st p
  pure (st.setBase q fun b => { b with prev := v })

/-- The statement `p->next = v`. -/
def setNext (p : Option Ptr) (v : Option Ptr) (st : State) : Res State := do
  let (q, _) ← deref st p
  pure (st.setBase q fun b => { b with next := v })

/-- Read `p->prev`. -/
def getPrev (p : Option Ptr) (st : State) : Res (Option Ptr) := do
  let (_, b) ← deref st p
  pure b.prev

/-- Read `p->next`. -/
def getNext (p : Option Ptr) (st : State) : Res (Option Ptr) := do
  let (_, b) ← deref st p
  pure b.next

/-- Dereference a `connection*` obtained from a list position. -/
def derefConn (st : State) : Option Ptr → Res (Nat × connection)
  | none => fail .null_deref st
  | some (.fake _) => fail .not_a_connection st
  | some (.conn c) =>
    match st.conns[c]? with
    | none => fail .dangling st
    | some cn => pure (c, cn)

/-- Dereference a `signal*`. -/
def derefSig (st : State) : Option Nat → Res (Nat × signal)
  | none => fail .null_deref st
  | some s =>
    match st.sigs[s]? with
    | none => fail .dangling st
    | some sg => if sg.alive then pure (s, sg) else fail .dangling st

/-- Dereference an `iterator_holder*`. -/
def derefHolder (st : State) (h : Nat) : Res iterator_holder :=
  match st.holders[h]? with
  | none => fail .dangling st
  | some hd => pure hd

/-! ## `intrusive::list_base` -/

/-- The member `list_base::unlink` of the object at `p`. -/
def list_base.unlink (p : Ptr) (st : State) : Res State := do
  let pv ← getPrev (some p) st
  let nx ← getNext (some p) st
  if pv ≠ none ∧ nx ≠ none then
    -- prev->next = next;
    let st ← setNext pv nx st
    -- next->prev = prev;
    let nx ← getNext (some p) st
    let pv ← getPrev (some p) st
    let st ← setPrev nx pv st
    -- next = prev = nullptr;
    let st ← setPrev (some p) none st
    setNext (some p) none st
  else
    pure st

/-- The member `list_base::is_linked` of the object at `p`. -/
def list_base.is_linked (p : Ptr) (st : State) : Res Bool := do
  let pv ← getPrev (some p) st
  let nx ← getNext (some p) st
  pure (!(pv == none && nx == none))

/-- The member `list_base::link`: `this->link(x)` with `this` possibly null. -/
def list_base.link (this : Option Ptr) (x : Option Ptr) (st : State) : Res State := do
  -- next = x;
  let st ← setNext this x st
  -- x->prev = this;
  setPrev x this st

/-- The call `std::swap(p->prev, q->prev)`: the two references are designated
first, then their contents are exchanged. -/
def swap_prev (p q : Option Ptr) (st : State) : Res State := do
  let a ← getPrev p st
  let b ← getPrev q st
  let st ← setPrev p b st
  setPrev q a st

/-- The call `std::swap(p->next, q->next)`. -/
def swap_next (p q : Option Ptr) (st : State) : Res State := do
  let a ← getNext p st
  let b ← getNext q st
  let st ← setNext p b st
  setNext q a st

/-- The member `list_base::swap`. -/
def list_base.swap (this other : Ptr) (st : State) : Res State := do
  -- std::swap(prev, other.prev);
  let st ← swap_prev (some this) (some other) st
  -- std::swap(next, other.next);
  swap_next (some this) (some other) st

/-- The move constructor `list_base(list_base&&)` of the object at `this`, whose
two references are null when the body starts. -/
def list_base.move_ctor (this other : Ptr) (st : State) : Res State := do
  -- prev = other.prev;
  let pv ← getPrev (some other) st
  let st ← setPrev (some this) pv st
  -- next = other.next;
  let nx ← getNext (some other) st
  let st ← setNext (some this) nx st
  -- if (other.prev != nullptr) other.prev->next = this;
  let opv ← getPrev (some other) st
  let st ← if opv ≠ none then setNext opv (some this) st else pure st
  -- if (other.next != nullptr) other.next->prev = this;
  let onx ← getNext (some other) st
  let st ← if onx ≠ none then setPrev onx (some this) st else pure st
  -- other.prev = other.next = nullptr;
  let st ← setNext (some other) none st
  setPrev (some other) none st

/-- The destructor `~list_base`. -/
def list_base.dtor (this : Ptr) (st : State) : Res State :=
  list_base.unlink this st

/-- The move assignment `list_base::operator=(list_base&&)`.  The temporary
`list_base(std::move(other))` is an object of its own: it takes the next free
address of the table of link-bearing objects, and is destroyed at the end of the
statement. -/
def list_base.move_assign (this other : Ptr) (st : State) : Res State :=
  if this ≠ other then do
    let tmp := Ptr.conn st.conns.length
    let st : State := { st with conns := st.conns ++ [connection.mk ⟨none, none⟩ none none] }
    let st ← list_base.move_ctor tmp other st
    let st ← list_base.swap tmp this st
    list_base.dtor tmp st
  else pure st

/-! ## `intrusive::list`, the list of signal `s` -/

/-- The iterator `list::begin`. -/
def list.begin (s : Nat) (st : State) : Res (Option Ptr) :=
  getNext (some (.fake s)) st

/-- The iterator `list::end`: the address of the sentinel. -/
def list.end (s : Nat) : Option Ptr := some (.fake s)

/-- The test `list::empty`. -/
def list.empty (s : Nat) (st : State) : Res Bool := do
  let nx ← getNext (some (.fake s)) st
  pure (some (Ptr.fake s) == nx)

/-- The member `list::erase`; returns the following position. -/
def list.erase (pos : Option Ptr) (st : State) : Res (Option Ptr × State) := do
  let tmp ← getNext pos st
  let (p, _) ← deref st pos
  let st ← list_base.unlink p st
  pure (tmp, st)

/-- The member `list::insert`; returns the position of `val`. -/
def list.insert (pos : Option Ptr) (val : Ptr) (st : State) : Res (Option Ptr × State) := do
  let tmp := val
  if pos ≠ some tmp then
    let st ← list_base.unlink tmp st
    let pv ← getPrev pos st
    let st ← list_base.link pv (some tmp) st
    let st ← list_base.link (some tmp) pos st
    pure (some tmp, st)
  else
    pure (some tmp, st)

/-- The member `list::push_front`. -/
def list.push_front (s : Nat) (x : Ptr) (st : State) : Res State := do
  let b ← list.begin s st
  let (_, st) ← list.insert b x st
  pure st

/-- The member `list::pop_front`. -/
def list.pop_front (s : Nat) (st : State) : Res State := do
  let b ← list.begin s st
  let (_, st) ← list.erase b st
  pure st

/-- The loop of `list::clear`, bounded by `fuel` iterations. -/
def list.clear (s : Nat) : Nat → State → Res State
  | 0, st => do
    if ← list.empty s st then pure st else fail .out_of_fuel st
  | fuel + 1, st => do
    if ← list.empty s st then pure st
    else
      let st ← list.pop_front s st
      list.clear s fuel st

/-- The member `list::splice`; its list argument is not used by the body. -/
def list.splice (pos first last : Option Ptr) (st : State) : Res State := do
  if first ≠ last then
    let cur := pos
    let prev ← getPrev cur st
    let pr ← getPrev first st
    let tr := last
    -- prev->link(first.get_ptr());
    let st ← list_base.link prev first st
    -- static_cast<list_element<Tag>*>(last->prev)->link(cur);
    let lp ← getPrev last st
    let st ← list_base.link lp cur st
    -- pr->link(tr);
    list_base.link pr tr st
  else
    pure st

/-- The member `list::swap`, on the lists of signals `this` and `other`. -/
def list.swap (this other : Nat) (st : State) : Res State := do
  -- std::swap(fake_.next->prev, other.fake_.next->prev);
  let p ← getNext (some (.fake this)) st
  let q ← getNext (some (.fake other)) st
  let st ← swap_prev p q st
  -- std::swap(fake_.next, other.fake_.next);
  let st ← swap_next (some (.fake this)) (some (.fake other)) st
  -- std::swap(fake_.prev->next, other.fake_.prev->next);
  let p ← getPrev (some (.fake this)) st
  let q ← getPrev (some (.fake other)) st
  let st ← swap_next p q st
  -- std::swap(fake_.prev, other.fake_.prev);
  swap_prev (some (.fake this)) (some (.fake other)) st

/-- The member `list::get_iterator`. -/
def list.get_iterator (c : Nat) : Option Ptr := some (.conn c)

/-! ## `signal::connection` -/

/-- The loop of `connection::replace_connections_by_iterator`, started at
`it = sig->tail`: every cursor whose position is `it_replace` is set to the
position of `this`. -/
def connection.replace_loop (this : Nat) (it_replace : Ptr) :
    Nat → Option Nat → State → Res State
  | _, none, st => pure st
  | 0, some _, st => fail .out_of_fuel st
  | fuel + 1, some it, st => do
    let hd ← derefHolder st it
    let st :=
      if hd.current = some it_replace then
        st.setHolder it fun h => { h with current := list.get_iterator this }
      else st
    connection.replace_loop this it_replace fuel hd.prev st

/-- The member `connection::replace_connections_by_iterator`. -/
def connection.replace_connections_by_iterator (this : Nat) (it_replace : Ptr)
    (st : State) : Res State := do
  let (_, cn) ← derefConn st (some (.conn this))
  let (_, sg) ← derefSig st cn.sig
  connection.replace_loop this it_replace st.holders.length sg.tail st

/-- The member `connection::disconnect`. -/
def connection.disconnect (this : Nat) (st : State) : Res State := do
  if ← list_base.is_linked (.conn this) st then
    let st ← list_base.unlink (.conn this) st
    let st ← connection.replace_connections_by_iterator this (.conn this) st
    -- sig = nullptr;
    pure (st.setConn this fun cn => { cn with sig := none })
  else
    pure st

/-- The member `connection::replace_connection`; the moved-from `std::function`
of `other` is left empty. -/
def connection.replace_connection (this other : Nat) (st : State) : Res State := do
  let (_, o) ← derefConn st (some (.conn other))
  let (_, _) ← derefConn st (some (.conn this))
  -- func = std::move(other.func);
  let st := st.setConn this fun cn => { cn with func := o.func }
  let st := st.setConn other fun cn => { cn with func := none }
  -- sig = other.sig;
  let (_, o) ← derefConn st (some (.conn other))
  let st := st.setConn this fun cn => { cn with sig := o.sig }
  if ← list_base.is_linked (.conn other) st then
    let other_it := list.get_iterator other
    let (_, cn) ← derefConn st (some (.conn this))
    let (_, _) ← derefSig st cn.sig
    let (_, st) ← list.insert other_it (.conn this) st
    let st ← connection.replace_connections_by_iterator this (.conn other) st
    let (_, st) ← list.erase other_it st
    pure st
  else
    pure st

/-- The private constructor `connection(signal*, slot)`: the new object is
placed at the next free address. -/
def connection.ctor (sig_ : Nat) (func_ : Nat) (st : State) : Res (Nat × State) := do
  let this := st.conns.length
  let st : State := { st with conns := st.conns ++ [connection.mk ⟨none, none⟩ (some sig_) (some func_)] }
  let (s, _) ← derefSig st (some sig_)
  let st ← list.push_front s (.conn this) st
  pure (this, st)

/-- The move constructor `connection(connection&&)`: the new object is placed at
the next free address. -/
def connection.move_ctor (other : Nat) (st : State) : Res (Nat × State) := do
  let this := st.conns.length
  let st : State := { st with conns := st.conns ++ [connection.mk ⟨none, none⟩ none none] }
  let st ← connection.replace_connection this other st
  pure (this, st)

/-- The move assignment `connection::operator=(connection&&)`. -/
def connection.move_assign (this other : Nat) (st : State) : Res State :=
  if this ≠ other then connection.replace_connection this other st else pure st

/-! ## `signal::iterator_holder` -/

/-- The constructor `iterator_holder(const signal*)`: the cursor is placed on top
of the stack of cursors. -/
def iterator_holder.ctor (sig_ : Nat) (st : State) : Res (Nat × State) := do
  let this := st.holders.length
  let (s, sg) ← derefSig st (some sig_)
  let b ← list.begin s st
  let st : State := { st with holders := st.holders ++ [iterator_holder.mk (some sig_) b sg.tail] }
  -- sig->tail = this;
  pure (this, st.setSig s fun sg => { sg with tail := some this })

/-- The destructor `~iterator_holder`, after which the cursor's storage is
released. -/
def iterator_holder.dtor (this : Nat) (st : State) : Res State := do
  let hd ← derefHolder st this
  match hd.sig with
  | some s0 =>
    let (s, sg) ← derefSig st (some s0)
    -- sig->tail = sig->tail->prev;
    match sg.tail with
    | none => fail .null_deref st
    | some t => do
      let th ← derefHolder st t
      let st := st.setSig s fun sg => { sg with tail := th.prev }
      pure { st with holders := st.holders.dropLast }
  | none => pure { st with holders := st.holders.dropLast }

/-! ## `signal` -/

/-- The constructor `signal()`: an empty list whose sentinel designates itself,
and no cursor. -/
def signal.ctor (st : State) : Nat × State :=
  let this := st.sigs.length
  (this, { st with sigs := st.sigs ++
    [signal.mk ⟨some (.fake this), some (.fake this)⟩ none true] })

/-- The loop of the body of `~signal`, started at `it = tail`. -/
def signal.dtor_loop : Nat → Option Nat → State → Res State
  | _, none, st => pure st
  | 0, some _, st => fail .out_of_fuel st
  | fuel + 1, some it, st => do
    let hd ← derefHolder st it
    -- it->sig = nullptr;
    let st := st.setHolder it fun h => { h with sig := none }
    -- (*it->current).func = {};
    let hd0 ← derefHolder st it
    let (c, _) ← derefConn st hd0.current
    let st := st.setConn c fun cn => { cn with func := none }
    signal.dtor_loop fuel hd.prev st

/-- The destructor `~signal`: its body, then the destruction of the member
`connections` (`~list`, which clears the list, and the sentinel's `~list_base`),
after which the object is dead. -/
def signal.dtor (this : Nat) (st : State) : Res State := do
  let (s, sg) ← derefSig st (some this)
  let st ← signal.dtor_loop st.holders.length sg.tail st
  let st := st.log (.destroyed s)
  let st ← list.clear s st.conns.length st
  let st ← list_base.unlink (.fake s) st
  pure (st.setSig s fun sg => { sg with alive := false })

/-- The member `signal::connect`. -/
def signal.connect (this : Nat) (func : Nat) (st : State) : Res (Nat × State) := do
  let (s, _) ← derefSig st (some this)
  connection.ctor s func st

/-! ## Callables -/

/-- What a callable may do: the public operations of the library, on objects
named by their address.  A guarded action `once g a` runs `a` the first time it
is reached and nothing afterwards. -/
inductive Action
  | disconnect (c : Nat)
  | emit (s : Nat)
  | destroy (s : Nat)
  | move (b : Nat)
  | move_assign (a b : Nat)
  | connect (s f : Nat)
  | once (g : Nat) (a : Action)
  deriving DecidableEq, Repr

/-- The program table: the body of each callable. -/
abbrev Prog := Nat → List Action

/-- Run one action; `emit` is the dispatch operation available to it. -/
def Action.run (emit : Nat → State → Res State) : Action → State → Res State
  | .disconnect c, st => connection.disconnect c st
  | .emit s, st => emit s st
  | .destroy s, st => signal.dtor s st
  | .move b, st => do
    let (_, st) ← connection.move_ctor b st
    pure st
  | .move_assign a b, st => connection.move_assign a b st
  | .connect s f, st => do
    let (_, st) ← signal.connect s f st
    pure st
  | .once g a, st =>
    if g ∈ st.fired then pure st
    else Action.run emit a { st with fired := g :: st.fired }

/-- Run the body of a callable. -/
def runBody (emit : Nat → State → Res State) : List Action → State → Res State
  | [], st => pure st
  | a :: as, st => do
    let st ← a.run emit st
    runBody emit as st

/-- The call `connection::operator()` on the connection at `copy`, on behalf of
a dispatch of `by_sig` (or of a direct call of the handle). -/
def connection.call (prog : Prog) (emit : Nat → State → Res State) (by_sig : Option Nat)
    (copy : Option Ptr) (st : State) : Res State := do
  let (c, cn) ← derefConn st copy
  match cn.func with
  | none => fail .bad_function_call st
  | some f => runBody emit (prog f) (st.log (.invoked by_sig c f))

/-- The `while` loop of `signal::operator()`, with its cursor `holder`. -/
def signal.loop (prog : Prog) (emit : Nat → State → Res State) (this holder : Nat) :
    Nat → State → Res State
  | 0, st => fail .out_of_fuel st
  | fuel + 1, st => do
    let hd ← derefHolder st holder
    if hd.current ≠ list.end this then
      let copy := hd.current
      -- holder.current++;
      let nx ← getNext hd.current st
      let st := st.setHolder holder fun h => { h with current := nx }
      -- (*copy)(args...);
      let st ← connection.call prog emit (some this) copy st
      let hd ← derefHolder st holder
      if hd.sig = none then
        iterator_holder.dtor holder st
      else
        signal.loop prog emit this holder fuel st
    else
      iterator_holder.dtor holder st

/-- The dispatch `signal::operator()`; `fuel` bounds both the depth of nested
dispatches and the number of iterations of each loop. -/
def signal.call (prog : Prog) : Nat → Nat → State → Res State
  | 0, _, st => fail .out_of_fuel st
  | fuel + 1, this, st => do
    let (holder, st) ← iterator_holder.ctor this st
    signal.loop prog (signal.call prog fuel) this holder fuel st

/-- The memory before anything is constructed. -/
def State.init : State := ⟨[], [], [], [], []⟩

/-! ## Vocabulary of the statements -/

/-- Everything in the memory but the neighbour references. -/
def State.rest (st : State) : State :=
  { st with
    sigs := st.sigs.map fun sg => { sg with fake_ := ⟨none, none⟩ }
    conns := st.conns.map fun cn => { cn with base := ⟨none, none⟩ } }

/-- The memory after `unlink` of `x`, whose neighbours were `a` and `b`. -/
def State.unlinked (st : State) (x a b : Ptr) : State :=
  (((st.setBase a fun b0 => { b0 with next := some b }).setBase b
    fun b0 => { b0 with prev := some a }).setBase x
    fun b0 => { b0 with prev := none }).setBase x fun b0 => { b0 with next := none }

def State.nextOf (st : State) (p : Ptr) : Option Ptr := (st.base p).bind fun b => b.next

def State.prevOf (st : State) (p : Ptr) : Option Ptr := (st.base p).bind fun b => b.prev

/-- Node `b` follows node `a`, and both know it. -/
def Link (st : State) (a b : Ptr) : Prop := st.nextOf a = some b ∧ st.prevOf b = some a

instance (st : State) (a b : Ptr) : Decidable (Link st a b) := by
  unfold Link; infer_instance

/-- The connections `xs` are doubly linked, in this order, between `p` and `q`. -/
def Seg (st : State) : Ptr → List Nat → Ptr → Prop
  | p, [], q => Link st p q
  | p, x :: xs, q => Link st p (.conn x) ∧ Seg st (.conn x) xs q

instance Seg.decide (st : State) : (p : Ptr) → (xs : List Nat) → (q : Ptr) →
    Decidable (Seg st p xs q)
  | p, [], q => by unfold Seg; infer_instance
  | p, x :: xs, q => by
    unfold Seg
    have := Seg.decide st (.conn x) xs q
    infer_instance

/-- The list of signal `s` is a well-formed ring holding exactly the connections
`xs`, first to last. -/
def Ring (st : State) (s : Nat) (xs : List Nat) : Prop :=
  Seg st (.fake s) xs (.fake s) ∧ xs.Nodup

instance (st : State) (s : Nat) (xs : List Nat) : Decidable (Ring st s xs) := by
  unfold Ring; infer_instance

/-- First node of `xs` followed by `q`. -/
def hd (xs : List Nat) (q : Ptr) : Ptr :=
  match xs with
  | [] => q
  | x :: _ => .conn x

/-- Last node of `p` followed by `xs`. -/
def lst (p : Ptr) : List Nat → Ptr
  | [] => p
  | x :: xs => lst (.conn x) xs

/-- The memory after `insert` of the unlinked node `c` before `pos`, whose
predecessor was `a`. -/
def State.inserted (st : State) (pos c a : Ptr) : State :=
  (((st.setBase a fun b0 => { b0 with next := some c }).setBase c
    fun b0 => { b0 with prev := some a }).setBase c
    fun b0 => { b0 with next := some pos }).setBase pos fun b0 => { b0 with prev := some c }

/-- The memory after the cursor `h` has moved to `q` and the events `evs` were
observed. -/
def State.visit (st : State) (h : Nat) (q : Option Ptr) (evs : List Event) : State :=
  { st with
    holders := upd st.holders h fun hd => { hd with current := q }
    trace := st.trace ++ evs }

/-- An action that does nothing: a guarded action whose guard is consumed. -/
def Action.idle (fired : List Nat) : Action → Prop
  | .once g _ => g ∈ fired
  | _ => False

instance (fired : List Nat) (a : Action) : Decidable (a.idle fired) := by
  cases a <;> unfold Action.idle <;> infer_instance

/-- The callable stored in connection `x`, when the connection exists and holds
one. -/
def State.funcOf (st : State) (x : Nat) : Option Nat := (st.conns[x]?).bind fun cn => cn.func

/-- The events of a dispatch of `s` that runs, in this order, the connections
`xs` holding the callables `F`. -/
def invokedAll (s : Nat) (F : Nat → Nat) (xs : List Nat) : List Event :=
  xs.map fun x => Event.invoked (some s) x (F x)

/-- The memory after a dispatch of `s` has pushed its cursor, placed on `q`, on
top of the cursor `t`. -/
def State.enter (st : State) (s : Nat) (q : Option Ptr) (t : Option Nat) : State :=
  State.setSig { st with holders := st.holders ++ [iterator_holder.mk (some s) q t] } s
    fun sg => { sg with tail := some st.holders.length }

/-- The memory with a new connection object at the next free address. -/
def State.alloc (st : State) (cn : connection) : State :=
  { st with conns := st.conns ++ [cn] }

/-- The memory after `connect` of callable `f` to signal `s`, whose list began
with `q`. -/
def State.connected (st : State) (s f : Nat) (q : Ptr) : State :=
  (st.alloc ⟨⟨none, none⟩, some s, some f⟩).inserted q (.conn st.conns.length) (.fake s)

/-- Connect the callables `fs`, one after the other, to signal `s`. -/
def connectAll (s : Nat) : List Nat → State → Res State
  | [], st => pure st
  | f :: fs, st => do
    let (_, st) ← signal.connect s f st
    connectAll s fs st

/-- The connections created by `connectAll` from address `n` on, each with the
callable it runs, in creation order. -/
def subscriptions (n : Nat) (fs : List Nat) : List (Nat × Nat) :=
  (List.range' n fs.length).zip fs

/-- The cursors `hs` are those reached from `t` by following `prev`, in this
order. -/
def Chain (st : State) : Option Nat → List Nat → Prop
  | none, [] => True
  | some h, h' :: hs =>
    h = h' ∧
      match st.holders[h]? with
      | some hd => Chain st hd.prev hs
      | none => False
  | _, _ => False

instance Chain.decide (st : State) : (t : Option Nat) → (hs : List Nat) →
    Decidable (Chain st t hs)
  | none, [] => by unfold Chain; infer_instance
  | none, _ :: _ => by unfold Chain; infer_instance
  | some _, [] => by unfold Chain; infer_instance
  | some h, h' :: hs => by
    unfold Chain
    cases hh : st.holders[h]? with
    | none => exact isFalse (by simp)
    | some hd =>
      have := Chain.decide st hd.prev hs
      simp only
      infer_instance

/-- Redirect one cursor from `old` to `new`. -/
def iterator_holder.repoint (old : Ptr) (new : Option Ptr) (hd : iterator_holder) :
    iterator_holder :=
  if hd.current = some old then { hd with current := new } else hd

/-- The memory after the cursors `hs` that were on `old` have been set to `new`. -/
def State.repoint (st : State) (old : Ptr) (new : Option Ptr) (hs : List Nat) : State :=
  { st with
    holders := hs.foldl (fun l h => upd l h (iterator_holder.repoint old new)) st.holders }

/-- The memory after `disconnect` of connection `k`, whose neighbours were `a`
and `b`. -/
def State.disconnected (st : State) (k : Nat) (a b : Ptr) : State :=
  (st.unlinked (.conn k) a b).setConn k fun cn => { cn with sig := none }

/-- The memory after `A`, `B`, `C` (callables 10, 11, 12) were connected in this
order to a fresh signal 0: the ring is `C, B, A`, that is connections 2, 1, 0. -/
def abc : State :=
  { sigs := [⟨⟨some (.conn 0), some (.conn 2)⟩, none, true⟩]
    conns := [⟨⟨some (.conn 1), some (.fake 0)⟩, some 0, some 10⟩,
      ⟨⟨some (.conn 2), some (.conn 0)⟩, some 0, some 11⟩,
      ⟨⟨some (.fake 0), some (.conn 1)⟩, some 0, some 12⟩]
    holders := []
    fired := []
    trace := [] }

/-- The memory after the move constructor has built a new connection from the
linked connection `b` (callable `fb`, back-reference `sb`, neighbours `p` and
`n`), the cursors of the signal being `hs`. -/
def State.moved (st : State) (b : Nat) (fb sb : Option Nat) (p n : Ptr) (hs : List Nat) :
    State :=
  (((((((st.alloc ⟨⟨none, none⟩, none, none⟩).setConn st.conns.length
    fun cn => { cn with func := fb }).setConn b
    fun cn => { cn with func := none }).setConn st.conns.length
    fun cn => { cn with sig := sb }).inserted (.conn b) (.conn st.conns.length) p).repoint
    (.conn b) (some (.conn st.conns.length)) hs).unlinked (.conn b) (.conn st.conns.length) n)

/-- The memory `abc` while two dispatches of signal 0 are in progress: the outer
cursor (0) is about to visit `B` (connection 1), the inner one (1) is about to
visit `A` (connection 0). -/
def abc_nested : State :=
  { abc with
    sigs := [⟨⟨some (.conn 0), some (.conn 2)⟩, some 1, true⟩]
    holders := [⟨some 0, some (.conn 1), none⟩, ⟨some 0, some (.conn 0), some 0⟩] }

/-- The connection a cursor designates, when it designates one. -/
def iterator_holder.target (hd : iterator_holder) : Option Nat :=
  match hd.current with
  | some (.conn c) => some c
  | _ => none

/-- The memory after the body of `~signal` has handled the cursor `h`: its signal
reference is cleared, and so is the callable of the connection it designates. -/
def State.invalidate (st : State) (h : Nat) : State :=
  match (st.holders[h]?).bind iterator_holder.target with
  | some c =>
    (st.setHolder h fun hd => { hd with sig := none }).setConn c fun cn => { cn with func := none }
  | none => st

/-- The memory after the body of `~signal` has handled the cursors `hs`. -/
def State.invalidated (st : State) (hs : List Nat) : State := hs.foldl State.invalidate st

/-- Cursor `h` designates an existing connection. -/
def State.onConn (st : State) (h : Nat) : Prop :=
  match (st.holders[h]?).bind iterator_holder.target with
  | some c => c < st.conns.length
  | none => False

instance (st : State) (h : Nat) : Decidable (st.onConn h) := by
  unfold State.onConn
  cases (st.holders[h]?).bind iterator_holder.target <;> simp only <;> infer_instance

/-- Some cursor among `hs` designates connection `x`. -/
def State.designated (st : State) (hs : List Nat) (x : Nat) : Prop :=
  ∃ h ∈ hs, (st.holders[h]?).bind iterator_holder.target = some x

instance (st : State) (hs : List Nat) (x : Nat) : Decidable (st.designated hs x) := by
  unfold State.designated; infer_instance

/-- What the dispatch machinery of a memory consists of: for each cursor its
signal reference and its link to the cursor below, for each signal the head of
its cursor chain and whether it is alive, and the log. -/
def State.skel (st : State) :
    List (Option Nat × Option Nat) × List (Option Nat × Bool) × List Event :=
  (st.holders.map fun h => (h.sig, h.prev), st.sigs.map fun g => (g.tail, g.alive), st.trace)

/-- In a log, no callable is run by a dispatch of a signal after the entry of
that signal's destruction. -/
def Quiescent (tr : List Event) : Prop :=
  ∀ pre post s c f, tr = pre ++ Event.destroyed s :: post →
    Event.invoked (some s) c f ∉ post

/-- The invariant of the dispatch machinery: every cursor that still refers to
a signal refers to a live one; the chain of a live signal consists of exactly the
cursors that refer to it, the most recent first; a signal whose destruction is
logged is dead; and the log is quiescent. -/
structure Coherent (st : State) : Prop where
  live : ∀ (i : Nat) (hd : iterator_holder) (s : Nat), st.holders[i]? = some hd →
    hd.sig = some s →
    ∃ sg, st.sigs[s]? = some sg ∧ sg.alive = true
  chain : ∀ (s : Nat) (sg : signal), st.sigs[s]? = some sg → sg.alive = true →
    ∃ hs : List Nat, Chain st sg.tail hs ∧ hs.Sorted (fun a b => b < a) ∧
      ∀ i : Nat, i ∈ hs ↔ ∃ hd : iterator_holder, st.holders[i]? = some hd ∧ hd.sig = some s
  dead : ∀ (s : Nat) (sg : signal), Event.destroyed s ∈ st.trace → st.sigs[s]? = some sg →
    sg.alive = false
  quiet : Quiescent st.trace

/-- From one memory to a later one the stack of cursors keeps its height, and a
cursor keeps its signal reference or loses it. -/
def Mono (st st' : State) : Prop :=
  st'.holders.length = st.holders.length ∧
    ∀ (i : Nat) (hd : iterator_holder), st.holders[i]? = some hd →
      ∃ hd' : iterator_holder, st'.holders[i]? = some hd' ∧ (hd'.sig = hd.sig ∨ hd'.sig = none)

/-- A dispatch operation that keeps the machinery coherent whenever it returns. -/
def GoodEmit (emit : Nat → State → Res State) : Prop :=
  ∀ (s : Nat) (st st' : State), Coherent st → emit s st = .ok st' → Coherent st' ∧ Mono st st'

/-- From a memory to the one after its top cursor was popped: the cursors below
keep their place, and keep their signal reference or lose it. -/
def PopMono (st st' : State) : Prop :=
  st'.holders.length + 1 = st.holders.length ∧
    ∀ (i : Nat) (hd : iterator_holder), i < st'.holders.length → st.holders[i]? = some hd →
      ∃ hd' : iterator_holder, st'.holders[i]? = some hd' ∧ (hd'.sig = hd.sig ∨ hd'.sig = none)

/-- The memory `abc` with one more connection object `D` (address 3), default
constructed: unlinked, no signal, no callable. -/
def abc_d : State := abc.alloc ⟨⟨none, none⟩, none, none⟩

/-- Two default-constructed links (addresses 0 and 1) and nothing else. -/
def two_links : State :=
  (State.init.alloc ⟨⟨none, none⟩, none, none⟩).alloc ⟨⟨none, none⟩, none, none⟩

/-- From one memory to a later one, every signal that is alive in the end was
alive before, and each of its cursors that is still on the stack still refers to
it. -/
def Keeps (st st' : State) : Prop :=
  ∀ (z : Nat) (sg' : signal), st'.sigs[z]? = some sg' → sg'.alive = true →
    (∃ sg : signal, st.sigs[z]? = some sg ∧ sg.alive = true) ∧
    ∀ (i : Nat) (hd : iterator_holder), i < st'.holders.length →
      st.holders[i]? = some hd → hd.sig = some z →
      ∃ hd' : iterator_holder, st'.holders[i]? = some hd' ∧ hd'.sig = some z

/-- The memory `abc` with a second signal (1) whose list holds one connection `D`
(address 3, callable 13). -/
def two_rings : State :=
  { abc with
    sigs := abc.sigs ++ [⟨⟨some (.conn 3), some (.conn 3)⟩, none, true⟩]
    conns := abc.conns ++ [⟨⟨some (.fake 1), some (.fake 1)⟩, some 1, some 13⟩] }

/-- The memory after one callable (10) was connected to a fresh signal 0: the
list holds the single connection 0. -/
def solo : State :=
  { sigs := [⟨⟨some (.conn 0), some (.conn 0)⟩, none, true⟩]
    conns := [⟨⟨some (.fake 0), some (.fake 0)⟩, some 0, some 10⟩]
    holders := []
    fired := []
    trace := [] }

/-- `Action.run`, with the dispatch operation `emitH` also reporting the points
it went through: the public operations other than a dispatch report none. -/
def Action.runH (emitH : Nat → State → List (Nat × State) × Res State) :
    Action → State → List (Nat × State) × Res State
  | .disconnect c, st => ([], connection.disconnect c st)
  | .emit s, st => emitH s st
  | .destroy s, st => ([], signal.dtor s st)
  | .move b, st => ([], do
    let (_, st) ← connection.move_ctor b st
    pure st)
  | .move_assign a b, st => ([], connection.move_assign a b st)
  | .connect s f, st => ([], do
    let (_, st) ← signal.connect s f st
    pure st)
  | .once g a, st =>
    if g ∈ st.fired then ([], pure st)
    else Action.runH emitH a { st with fired := g :: st.fired }

/-- `runBody`, reporting the points of the execution: the memory in which each
action of the body starts and the memory in which the body returns, each with the
number `d` of dispatches in progress, and in between the points of the dispatches
that the actions start. -/
def runBodyH (emitH : Nat → State → List (Nat × State) × Res State) (d : Nat) :
    List Action → State → List (Nat × State) × Res State
  | [], st => ([(d, st)], pure st)
  | a :: as, st =>
    match (Action.runH emitH a st).2 with
    | .ok st' =>
      ((d, st) :: (Action.runH emitH a st).1 ++ (runBodyH emitH d as st').1,
        (runBodyH emitH d as st').2)
    | .error e => ((d, st) :: (Action.runH emitH a st).1, .error e)

/-- `connection::operator()`, reporting the points of the callable's body. -/
def connection.callH (prog : Prog) (emitH : Nat → State → List (Nat × State) × Res State)
    (d : Nat) (by_sig : Option Nat) (copy : Option Ptr) (st : State) :
    List (Nat × State) × Res State :=
  match derefConn st copy with
  | .error e => ([], .error e)
  | .ok (c, cn) =>
    match cn.func with
    | none => ([], fail .bad_function_call st)
    | some f => runBodyH emitH d (prog f) (st.log (.invoked by_sig c f))

/-- The loop of `signal::operator()`, reporting the points of the callables it
calls. -/
def signal.loopH (prog : Prog) (emitH : Nat → State → List (Nat × State) × Res State)
    (d this holder : Nat) : Nat → State → List (Nat × State) × Res State
  | 0, st => ([], fail .out_of_fuel st)
  | fuel + 1, st =>
    match derefHolder st holder with
    | .error e => ([], .error e)
    | .ok hd =>
      if hd.current ≠ list.end this then
        match getNext hd.current st with
        | .error e => ([], .error e)
        | .ok nx =>
          let r := connection.callH prog emitH d (some this) hd.current
            (st.setHolder holder fun h => { h with current := nx })
          match r.2 with
          | .error e => (r.1, .error e)
          | .ok st' =>
            match derefHolder st' holder with
            | .error e => (r.1, .error e)
            | .ok hd' =>
              if hd'.sig = none then (r.1, iterator_holder.dtor holder st')
              else
                let r' := signal.loopH prog emitH d this holder fuel st'
                (r.1 ++ r'.1, r'.2)
      else ([], iterator_holder.dtor holder st)

/-- The dispatch `signal::operator()`, entered with `d` dispatches in progress,
together with the points it goes through: every memory in which an action of a
callable starts or a callable returns, in this dispatch and in the dispatches
nested in it, each with the number of dispatches in progress at that point. -/
def signal.callH (prog : Prog) : Nat → Nat → Nat → State → List (Nat × State) × Res State
  | 0, _, _, st => ([], fail .out_of_fuel st)
  | fuel + 1, d, this, st =>
    match iterator_holder.ctor this st with
    | .error e => ([], .error e)
    | .ok (holder, st') =>
      signal.loopH prog (signal.callH prog fuel (d + 1)) (d + 1) this holder fuel st'

/-- From a memory to a later one of the same execution: every cursor that was on
the stack is still there, and refers to the signal it referred to or, once that
signal is destroyed, to none; and a cursor of a signal that is still alive still
refers to it. -/
def Later (st σ : State) : Prop :=
  (∀ (i : Nat) (hd : iterator_holder), st.holders[i]? = some hd →
    ∃ hd' : iterator_holder, σ.holders[i]? = some hd' ∧ (hd'.sig = hd.sig ∨ hd'.sig = none)) ∧
  Keeps st σ

/-- The point `p` belongs to an execution that went through the memory `st` with
`d` dispatches in progress: the machinery is coherent at `p`, `p` is later than
`st`, and the stack of cursors has grown by exactly the number of dispatches
entered since. -/
def Within (st : State) (d : Nat) (p : Nat × State) : Prop :=
  Coherent p.2 ∧ Later st p.2 ∧
    ∃ k : Nat, p.1 = d + k ∧ p.2.holders.length = st.holders.length + k

/-- The number of cursors on the stack that refer to signal `z`: the frames of the
dispatches of `z` in progress. -/
def State.frames (σ : State) (z : Nat) : Nat :=
  σ.holders.countP fun h => h.sig == some z

/-! # Theorems -/

/-! ## Tables -/

theorem getElem?_upd {α : Type} (l : List α) (i j : Nat) (f : α → α) :
    (upd l i f)[j]? = if i = j then (l[j]?).map f else l[j]? := by
  unfold upd
  by_cases h : i = j
  · subst h
    cases hx : l[i]? with
    | none => simp [hx]
    | some x => simp [hx, List.getElem?_set]; exact (List.getElem?_eq_some.mp hx).1
  · cases hx : l[i]? with
    | none => simp [h]
    | some x => simp [h, List.getElem?_set_ne h]

@[simp] theorem length_upd {α : Type} (l : List α) (i : Nat) (f : α → α) :
    (upd l i f).length = l.length := by
  unfold upd
  cases l[i]? <;> simp

/-- The `list_base` memory after an update at `z`. -/
theorem base_setBase (st : State) (z p : Ptr) (f : list_base → list_base) :
    (st.setBase z f).base p = if z = p then (st.base p).map f else st.base p := by
  cases z with
  | fake s =>
    cases p with
    | fake t =>
      simp only [State.setBase, State.base, State.setSig, getElem?_upd, Ptr.fake.injEq]
      split
      · cases st.sigs[t]? with
        | none => rfl
        | some sg => cases h : sg.alive <;> simp [h]
      · rfl
    | conn c => simp [State.setBase, State.base, State.setSig]
  | conn d =>
    cases p with
    | fake t => simp [State.setBase, State.base, State.setConn]
    | conn c =>
      simp only [State.setBase, State.base, State.setConn, getElem?_upd, Ptr.conn.injEq]
      split
      · cases st.conns[c]? <;> rfl
      · rfl

theorem map_upd_eq {α β : Type} (l : List α) (i : Nat) (f : α → α) (g : α → β)
    (h : ∀ x, g (f x) = g x) : (upd l i f).map g = l.map g := by
  apply List.ext_getElem?
  intro j
  simp only [List.getElem?_map, getElem?_upd]
  split
  · cases l[j]? <;> simp [h]
  · rfl

@[simp] theorem rest_setBase (st : State) (z : Ptr) (f : list_base → list_base) :
    (st.setBase z f).rest = st.rest := by
  cases z <;> simp [State.setBase, State.rest, State.setSig, State.setConn] <;>
    exact map_upd_eq _ _ _ _ (fun _ => rfl)

theorem deref_ok {st : State} {p : Ptr} {b : list_base} (h : st.base p = some b) :
    deref st (some p) = .ok (p, b) := by
  simp [deref, h, pure, Except.pure]

theorem getNext_ok {st : State} {p : Ptr} {b : list_base} (h : st.base p = some b) :
    getNext (some p) st = .ok b.next := by
  simp [getNext, deref_ok h, bind, Except.bind, pure, Except.pure]

theorem getPrev_ok {st : State} {p : Ptr} {b : list_base} (h : st.base p = some b) :
    getPrev (some p) st = .ok b.prev := by
  simp [getPrev, deref_ok h, bind, Except.bind, pure, Except.pure]

theorem setNext_ok {st : State} {p : Ptr} {b : list_base} (h : st.base p = some b)
    (v : Option Ptr) :
    setNext (some p) v st = .ok (st.setBase p fun b => { b with next := v }) := by
  simp [setNext, deref_ok h, bind, Except.bind, pure, Except.pure]

theorem setPrev_ok {st : State} {p : Ptr} {b : list_base} (h : st.base p = some b)
    (v : Option Ptr) :
    setPrev (some p) v st = .ok (st.setBase p fun b => { b with prev := v }) := by
  simp [setPrev, deref_ok h, bind, Except.bind, pure, Except.pure]

@[simp] theorem holders_setBase (st : State) (z : Ptr) (f : list_base → list_base) :
    (st.setBase z f).holders = st.holders := by
  cases z <;> rfl

theorem base_unlinked {st : State} {x a b : Ptr}
    (hx : st.base x = some ⟨some a, some b⟩) (u : Ptr) :
    (st.unlinked x a b).base u =
      if u = x then some ⟨none, none⟩
      else (st.base u).map fun b0 =>
        ⟨if u = b then some a else b0.prev, if u = a then some b else b0.next⟩ := by
  simp only [State.unlinked, base_setBase]
  by_cases h1 : x = u
  · subst h1
    by_cases h2 : b = x <;> by_cases h3 : a = x <;> simp [h2, h3, hx]
  · have h1' : ¬ u = x := fun h => h1 h.symm
    by_cases h2 : b = u <;> by_cases h3 : a = u <;>
      simp [h1, h1', h2, h3, eq_comm] <;> cases st.base u <;> simp

/-- The effect of `unlink` on a node whose two neighbours exist. -/
theorem unlink_ok {st : State} {x a b : Ptr} {ba bb : list_base}
    (hx : st.base x = some ⟨some a, some b⟩) (ha : st.base a = some ba)
    (hb : st.base b = some bb) :
    list_base.unlink x st = .ok (st.unlinked x a b) := by
  have h1 : (st.setBase a fun b0 => { b0 with next := some b }).base x =
      some ⟨some a, some b⟩ := by
    rw [base_setBase]; split <;> simp [hx]
  have h2 : ∃ bb', (st.setBase a fun b0 => { b0 with next := some b }).base b = some bb' := by
    rw [base_setBase]; split <;> simp [hb]
  obtain ⟨bb', h2⟩ := h2
  have h3 : ∃ bx, ((st.setBase a fun b0 => { b0 with next := some b }).setBase b
      fun b0 => { b0 with prev := some a }).base x = some bx := by
    rw [base_setBase]; split <;> simp [h1]
  obtain ⟨bx, h3⟩ := h3
  have h4 : ∃ bx, ((((st.setBase a fun b0 => { b0 with next := some b }).setBase b
      fun b0 => { b0 with prev := some a })).setBase x
      fun b0 => { b0 with prev := none }).base x = some bx := by
    rw [base_setBase]; simp [h3]
  obtain ⟨bx', h4⟩ := h4
  simp only [list_base.unlink, getPrev_ok hx, getNext_ok hx, bind, Except.bind,
    setNext_ok ha, getNext_ok h1, getPrev_ok h1, setPrev_ok h2, setPrev_ok h3, setNext_ok h4]
  simp [State.unlinked]

/-! ## Rings -/

theorem lst_mem (p : Ptr) (xs : List Nat) (h : xs ≠ []) : lst p xs ∈ xs.map Ptr.conn := by
  induction xs generalizing p with
  | nil => exact absurd rfl h
  | cons x xs ih =>
    cases xs with
    | nil => simp [lst]
    | cons y ys =>
      have := ih (.conn x) (by simp)
      simp only [lst] at this ⊢
      simp only [List.map_cons, List.mem_cons] at this ⊢
      right; exact this

theorem lst_append (p : Ptr) (xs : List Nat) (y : Nat) (ys : List Nat) :
    lst p (xs ++ y :: ys) = lst (.conn y) ys := by
  induction xs generalizing p with
  | nil => rfl
  | cons x xs ih => simpa [lst] using ih (.conn x)

theorem seg_append (st : State) (p q : Ptr) (xs : List Nat) (y : Nat) (ys : List Nat) :
    Seg st p (xs ++ y :: ys) q ↔ Seg st p xs (.conn y) ∧ Seg st (.conn y) ys q := by
  induction xs generalizing p with
  | nil => simp [Seg]
  | cons x xs ih => simp [Seg, ih, and_assoc]

theorem Seg.link_first {st : State} {p q : Ptr} {xs : List Nat} (h : Seg st p xs q) :
    Link st p (hd xs q) := by
  cases xs with
  | nil => exact h
  | cons x xs => exact h.1

theorem Seg.link_last {st : State} {p q : Ptr} {xs : List Nat} (h : Seg st p xs q) :
    Link st (lst p xs) q := by
  induction xs generalizing p with
  | nil => exact h
  | cons x xs ih => exact ih h.2

/-- A segment survives any change that leaves the `next` of its sources and the
`prev` of its targets alone. -/
theorem Seg.frame {st st' : State} {p q : Ptr} {xs : List Nat} (h : Seg st p xs q)
    (hn : ∀ u ∈ p :: xs.map Ptr.conn, st'.nextOf u = st.nextOf u)
    (hp : ∀ v ∈ xs.map Ptr.conn ++ [q], st'.prevOf v = st.prevOf v) : Seg st' p xs q := by
  induction xs generalizing p with
  | nil =>
    refine ⟨?_, ?_⟩
    · rw [hn p (by simp)]; exact h.1
    · rw [hp q (by simp)]; exact h.2
  | cons x xs ih =>
    refine ⟨⟨?_, ?_⟩, ih h.2 ?_ ?_⟩
    · rw [hn p (by simp)]; exact h.1.1
    · rw [hp (.conn x) (by simp)]; exact h.1.2
    · intro u hu; exact hn u (by simp at hu ⊢; right; exact hu)
    · intro v hv; exact hp v (by simp at hv ⊢; right; exact hv)

/-- A segment whose last source is redirected from `q` to `q'`. -/
theorem Seg.retarget {st st' : State} {p q q' : Ptr} {xs : List Nat} (h : Seg st p xs q)
    (hnd : (p :: xs.map Ptr.conn).Nodup)
    (hn : ∀ u ∈ p :: xs.map Ptr.conn,
      st'.nextOf u = if u = lst p xs then some q' else st.nextOf u)
    (hp : ∀ v ∈ xs.map Ptr.conn, st'.prevOf v = st.prevOf v)
    (hq : st'.prevOf q' = some (lst p xs)) : Seg st' p xs q' := by
  induction xs generalizing p with
  | nil =>
    refine ⟨?_, hq⟩
    rw [hn p (by simp)]; simp [lst]
  | cons x xs ih =>
    have hpx : p ≠ lst (.conn x) xs := by
      intro e
      have hm : lst (.conn x) xs ∈ (x :: xs).map Ptr.conn := by
        cases xs with
        | nil => simp [lst]
        | cons y ys =>
          have := lst_mem (.conn x) (y :: ys) (by simp)
          simp only [List.map_cons, List.mem_cons] at this ⊢
          right; exact this
      rw [← e] at hm
      exact (List.nodup_cons.mp hnd).1 hm
    refine ⟨⟨?_, ?_⟩, ih h.2 (List.nodup_cons.mp hnd).2 ?_ ?_ hq⟩
    · rw [hn p (by simp)]; simp only [lst, hpx, if_false]; exact h.1.1
    · rw [hp (.conn x) (by simp)]; exact h.1.2
    · intro u hu; exact hn u (by simp at hu ⊢; right; exact hu)
    · intro v hv; exact hp v (by simp at hv ⊢; right; exact hv)

theorem lst_mem_cons (p : Ptr) (xs : List Nat) : lst p xs ∈ p :: xs.map Ptr.conn := by
  cases xs with
  | nil => simp [lst]
  | cons x xs => exact List.mem_cons_of_mem _ (lst_mem p (x :: xs) (by simp))

theorem hd_mem_append (xs : List Nat) (q : Ptr) : hd xs q ∈ xs.map Ptr.conn ++ [q] := by
  cases xs <;> simp [hd]

theorem base_of_links {st : State} {x a b : Ptr} (hp : st.prevOf x = some a)
    (hn : st.nextOf x = some b) : st.base x = some ⟨some a, some b⟩ := by
  unfold State.prevOf at hp
  unfold State.nextOf at hn
  cases h : st.base x with
  | none => simp [h] at hp
  | some bx =>
    obtain ⟨bp, bn⟩ := bx
    simp [h] at hp hn
    simp [hp, hn]

theorem base_isSome_of_nextOf {st : State} {a b : Ptr} (h : st.nextOf a = some b) :
    ∃ ba, st.base a = some ba := by
  unfold State.nextOf at h
  cases hb : st.base a with
  | none => simp [hb] at h
  | some ba => exact ⟨ba, rfl⟩

theorem base_isSome_of_prevOf {st : State} {a b : Ptr} (h : st.prevOf a = some b) :
    ∃ ba, st.base a = some ba := by
  unfold State.prevOf at h
  cases hb : st.base a with
  | none => simp [hb] at h
  | some ba => exact ⟨ba, rfl⟩

theorem nextOf_unlinked {st : State} {x a b : Ptr}
    (hx : st.base x = some ⟨some a, some b⟩) (ha : st.nextOf a = some x) (u : Ptr) :
    (st.unlinked x a b).nextOf u =
      if u = x then none else if u = a then some b else st.nextOf u := by
  obtain ⟨ba, hba⟩ := base_isSome_of_nextOf ha
  simp only [State.nextOf, base_unlinked hx]
  by_cases h1 : u = x
  · simp [h1]
  · by_cases h2 : u = a
    · subst h2; simp [h1, hba]
    · simp [h1, h2]; cases st.base u <;> simp

theorem prevOf_unlinked {st : State} {x a b : Ptr}
    (hx : st.base x = some ⟨some a, some b⟩) (hb : st.prevOf b = some x) (v : Ptr) :
    (st.unlinked x a b).prevOf v =
      if v = x then none else if v = b then some a else st.prevOf v := by
  obtain ⟨bb, hbb⟩ := base_isSome_of_prevOf hb
  simp only [State.prevOf, base_unlinked hx]
  by_cases h1 : v = x
  · simp [h1]
  · by_cases h2 : v = b
    · subst h2; simp [h1, hbb]
    · simp [h1, h2]; cases st.base v <;> simp

/-- Unlinking an element of a ring: the call succeeds and the ring closes over
the gap. -/
theorem Ring.unlink {st : State} {s x : Nat} {pre post : List Nat}
    (h : Ring st s (pre ++ x :: post)) :
    list_base.unlink (.conn x) st =
      .ok (st.unlinked (.conn x) (lst (.fake s) pre) (hd post (.fake s))) ∧
    Ring (st.unlinked (.conn x) (lst (.fake s) pre) (hd post (.fake s))) s (pre ++ post) := by
  obtain ⟨hseg, hnd⟩ := h
  obtain ⟨h1, h2⟩ := (seg_append _ _ _ _ _ _).mp hseg
  have hl1 := h1.link_last
  have hl2 := h2.link_first
  have hx := base_of_links hl1.2 hl2.1
  obtain ⟨ba, hba⟩ := base_isSome_of_nextOf hl1.1
  obtain ⟨bb, hbb⟩ := base_isSome_of_prevOf hl2.2
  refine ⟨unlink_ok hx hba hbb, ?_, ?_⟩
  swap
  · exact (List.nodup_append.mp hnd).1.append (List.nodup_cons.mp (List.nodup_append.mp hnd).2.1).2
      (fun y hy hy' => (List.nodup_append.mp hnd).2.2 hy (List.mem_cons_of_mem _ hy'))
  have hxpre : x ∉ pre := fun hm => (List.nodup_append.mp hnd).2.2 hm (List.mem_cons_self _ _)
  have hxpost : x ∉ post := (List.nodup_cons.mp (List.nodup_append.mp hnd).2.1).1
  have hprend : (Ptr.fake s :: pre.map Ptr.conn).Nodup := by
    refine List.nodup_cons.mpr ⟨by simp, ?_⟩
    exact (List.nodup_append.mp hnd).1.map (fun _ _ e => Ptr.conn.inj e)
  have hdisj : ∀ y, y ∈ pre → y ∉ post := fun y hy hy' =>
    (List.nodup_append.mp hnd).2.2 hy (List.mem_cons_of_mem _ hy')
  have hN := nextOf_unlinked hx hl1.1
  have hP := prevOf_unlinked hx hl2.2
  have hleft : ∀ q', q' = hd post (.fake s) →
      Seg (st.unlinked (.conn x) (lst (.fake s) pre) (hd post (.fake s))) (.fake s) pre q' := by
    intro q' hq'
    subst hq'
    refine h1.retarget hprend ?_ ?_ ?_
    · intro u hu
      rw [hN]
      have : u ≠ .conn x := by
        rintro rfl
        simp at hu
        exact hxpre hu
      simp [this]
    · intro v hv
      rw [hP]
      have h1 : v ≠ .conn x := by
        rintro rfl
        simp at hv
        exact hxpre hv
      have h2 : v ≠ hd post (.fake s) := by
        rintro rfl
        cases post with
        | nil => simp [hd] at hv
        | cons y ys =>
          simp [hd] at hv
          exact hdisj y hv (by simp)
      simp [h1, h2]
    · rw [hP]
      have : hd post (.fake s) ≠ .conn x := by
        cases post with
        | nil => simp [hd]
        | cons y ys =>
          simp [hd]
          rintro rfl
          exact hxpost (by simp)
      simp [this]
  cases post with
  | nil => simpa using hleft _ rfl
  | cons y ys =>
    refine (seg_append _ _ _ _ _ _).mpr ⟨hleft _ rfl, h2.2.frame ?_ ?_⟩
    · intro u hu
      rw [hN]
      have h1 : u ≠ .conn x := by
        rintro rfl
        simp at hu
        exact hxpost (by simpa using hu)
      have h2 : u ≠ lst (.fake s) pre := by
        intro e
        have hm := lst_mem_cons (.fake s) pre
        rw [← e] at hm
        rcases List.mem_cons.mp hm with rfl | hm'
        · simp at hu
        · obtain ⟨z, hz, rfl⟩ := List.mem_map.mp hm'
          have : z ∈ y :: ys := by simpa using hu
          exact hdisj z hz this
      simp [h1, h2]
    · intro v hv
      rw [hP]
      have hnd' := List.nodup_cons.mp (List.nodup_append.mp hnd).2.1
      have h1 : v ≠ .conn x := by
        rintro rfl
        simp at hv
        exact hxpost (by simp [hv])
      have h2 : v ≠ hd (y :: ys) (.fake s) := by
        rintro rfl
        simp [hd] at hv
        exact (List.nodup_cons.mp hnd'.2).1 hv
      simp [h1, h2]

theorem base_inserted {st : State} {pos c a : Ptr}
    (hc : st.base c = some ⟨none, none⟩) (hpc : pos ≠ c) (hac : a ≠ c) (u : Ptr) :
    (st.inserted pos c a).base u =
      if u = c then some ⟨some a, some pos⟩
      else (st.base u).map fun b0 =>
        ⟨if u = pos then some c else b0.prev, if u = a then some c else b0.next⟩ := by
  simp only [State.inserted, base_setBase]
  by_cases h1 : c = u
  · subst h1
    simp [hpc, hac, hc]
  · have h1' : ¬ u = c := fun h => h1 h.symm
    by_cases h2 : pos = u <;> by_cases h3 : a = u <;>
      simp [h1, h1', h2, h3, eq_comm] <;> cases st.base u <;> simp

theorem unlink_unlinked {st : State} {c : Ptr} {n : Option Ptr}
    (hc : st.base c = some ⟨none, n⟩) : list_base.unlink c st = .ok st := by
  simp [list_base.unlink, getPrev_ok hc, getNext_ok hc, bind, Except.bind, pure, Except.pure]

/-- The effect of `insert` of an unlinked node before a linked position. -/
theorem insert_ok {st : State} {pos c a : Ptr} {bp ba : list_base}
    (hc : st.base c = some ⟨none, none⟩) (hp : st.base pos = some bp)
    (hpa : bp.prev = some a) (ha : st.base a = some ba) (hpc : pos ≠ c) :
    list.insert (some pos) c st = .ok (some c, st.inserted pos c a) := by
  have h1 : ∃ b1, (st.setBase a fun b0 => { b0 with next := some c }).base c = some b1 := by
    rw [base_setBase]; split <;> simp [hc]
  obtain ⟨b1, h1⟩ := h1
  have h2 : ∃ b2, ((st.setBase a fun b0 => { b0 with next := some c }).setBase c
      fun b0 => { b0 with prev := some a }).base c = some b2 := by
    rw [base_setBase]; simp [h1]
  obtain ⟨b2, h2⟩ := h2
  have h3 : ∃ b3, (((st.setBase a fun b0 => { b0 with next := some c }).setBase c
      fun b0 => { b0 with prev := some a }).setBase c
      fun b0 => { b0 with next := some pos }).base pos = some b3 := by
    simp only [base_setBase]
    by_cases e1 : c = pos
    · exact absurd e1.symm hpc
    · by_cases e2 : a = pos <;> simp [e1, e2, hp]
  obtain ⟨b3, h3⟩ := h3
  have hne : ¬ (some pos = some c) := by simpa using hpc
  simp only [list.insert, ne_eq, hne, not_false_eq_true, if_true, unlink_unlinked hc,
    getPrev_ok hp, hpa, list_base.link, bind, Except.bind, setNext_ok ha, setPrev_ok h1,
    setNext_ok h2, setPrev_ok h3]
  simp [State.inserted, pure, Except.pure]

theorem nextOf_inserted {st : State} {pos c a : Ptr} {ba : list_base}
    (hc : st.base c = some ⟨none, none⟩) (hpc : pos ≠ c) (hac : a ≠ c)
    (ha : st.base a = some ba) (u : Ptr) :
    (st.inserted pos c a).nextOf u =
      if u = c then some pos else if u = a then some c else st.nextOf u := by
  simp only [State.nextOf, base_inserted hc hpc hac]
  by_cases h1 : u = c
  · simp [h1]
  · by_cases h2 : u = a
    · subst h2; simp [h1, ha]
    · simp [h1, h2]; cases st.base u <;> simp

theorem prevOf_inserted {st : State} {pos c a : Ptr} {bp : list_base}
    (hc : st.base c = some ⟨none, none⟩) (hpc : pos ≠ c) (hac : a ≠ c)
    (hp : st.base pos = some bp) (v : Ptr) :
    (st.inserted pos c a).prevOf v =
      if v = c then some a else if v = pos then some c else st.prevOf v := by
  simp only [State.prevOf, base_inserted hc hpc hac]
  by_cases h1 : v = c
  · simp [h1]
  · by_cases h2 : v = pos
    · subst h2; simp [h1, hp]
    · simp [h1, h2]; cases st.base v <;> simp

/-- The junction of a segment cut in two. -/
theorem Seg.split {st : State} {p q : Ptr} {pre post : List Nat}
    (h : Seg st p (pre ++ post) q) :
    Seg st p pre (hd post q) ∧ Link st (lst p pre) (hd post q) ∧
      ∀ y ys, post = y :: ys → Seg st (.conn y) ys q := by
  cases post with
  | nil =>
    simp only [List.append_nil] at h
    exact ⟨h, h.link_last, fun _ _ e => by cases e⟩
  | cons y ys =>
    obtain ⟨h1, h2⟩ := (seg_append _ _ _ _ _ _).mp h
    exact ⟨h1, h1.link_last, fun _ _ e => by cases e; exact h2⟩

/-- Every element of a segment has both neighbours, those the segment gives it. -/
theorem Seg.base_mem {st : State} {p q : Ptr} {pre post : List Nat} {x : Nat}
    (h : Seg st p (pre ++ x :: post) q) :
    st.base (.conn x) = some ⟨some (lst p pre), some (hd post q)⟩ := by
  obtain ⟨h1, h2⟩ := (seg_append _ _ _ _ _ _).mp h
  exact base_of_links h1.link_last.2 h2.link_first.1

theorem Seg.linked_of_mem {st : State} {p q : Ptr} {xs : List Nat} {x : Nat}
    (h : Seg st p xs q) (hx : x ∈ xs) :
    ∃ a b, st.base (.conn x) = some ⟨some a, some b⟩ := by
  obtain ⟨pre, post, rfl⟩ := List.append_of_mem hx
  exact ⟨_, _, h.base_mem⟩

/-- Inserting an unlinked connection into a ring, before the first node of
`post`. -/
theorem Ring.insert {st : State} {s c : Nat} (pre post : List Nat)
    (h : Ring st s (pre ++ post)) (hc : st.base (.conn c) = some ⟨none, none⟩) :
    list.insert (some (hd post (.fake s))) (.conn c) st =
      .ok (some (.conn c), st.inserted (hd post (.fake s)) (.conn c) (lst (.fake s) pre)) ∧
    Ring (st.inserted (hd post (.fake s)) (.conn c) (lst (.fake s) pre)) s
      (pre ++ c :: post) := by
  obtain ⟨hseg, hnd⟩ := h
  obtain ⟨h1, hl, h2⟩ := hseg.split
  obtain ⟨ba, hba⟩ := base_isSome_of_nextOf hl.1
  have hbp := hl.2
  obtain ⟨bp, hbp'⟩ := base_isSome_of_prevOf hl.2
  have hpa : bp.prev = some (lst (.fake s) pre) := by
    simpa [State.prevOf, hbp'] using hbp
  have hpc : hd post (.fake s) ≠ .conn c := by
    intro e
    rw [e, State.prevOf, hc] at hbp
    simp at hbp
  have hac : lst (.fake s) pre ≠ .conn c := by
    intro e
    have := hl.1
    rw [e, State.nextOf, hc] at this
    simp at this
  have hcx : c ∉ pre ++ post := by
    intro hm
    obtain ⟨a, b, hab⟩ := hseg.linked_of_mem hm
    rw [hc] at hab
    simp at hab
  have hcpre : c ∉ pre := fun hm => hcx (List.mem_append_left _ hm)
  have hcpost : c ∉ post := fun hm => hcx (List.mem_append_right _ hm)
  have hdisj : ∀ y, y ∈ pre → y ∉ post := fun y hy hy' =>
    (List.nodup_append.mp hnd).2.2 hy hy'
  refine ⟨insert_ok hc hbp' hpa hba hpc, ?_, ?_⟩
  swap
  · refine (List.nodup_append.mp hnd).1.append
      (List.nodup_cons.mpr ⟨hcpost, (List.nodup_append.mp hnd).2.1⟩) ?_
    intro y hy hy'
    rcases List.mem_cons.mp hy' with rfl | hy'
    · exact hcpre hy
    · exact hdisj y hy hy'
  have hprend : (Ptr.fake s :: pre.map Ptr.conn).Nodup := by
    refine List.nodup_cons.mpr ⟨by simp, ?_⟩
    exact (List.nodup_append.mp hnd).1.map (fun _ _ e => Ptr.conn.inj e)
  have hN := nextOf_inserted hc hpc hac hba
  have hP := prevOf_inserted hc hpc hac hbp'
  have hne_pre : ∀ u, u ∈ Ptr.fake s :: pre.map Ptr.conn → u ≠ .conn c := by
    intro u hu e
    subst e
    simp at hu
    exact hcpre hu
  have hne_post : ∀ u, u ∈ post.map Ptr.conn ++ [Ptr.fake s] → u ≠ .conn c := by
    intro u hu e
    subst e
    simp at hu
    exact hcpost hu
  refine (seg_append _ _ _ _ _ _).mpr ⟨?_, ?_⟩
  · refine h1.retarget hprend ?_ ?_ ?_
    · intro u hu
      rw [hN]
      simp [hne_pre u hu]
    · intro v hv
      rw [hP]
      have h1 : v ≠ .conn c := hne_pre v (List.mem_cons_of_mem _ hv)
      have h2 : v ≠ hd post (.fake s) := by
        rintro rfl
        cases post with
        | nil => simp [hd] at hv
        | cons y ys =>
          simp [hd] at hv
          exact hdisj y hv (by simp)
      simp [h1, h2]
    · rw [hP]; simp
  · cases post with
    | nil =>
      refine ⟨?_, ?_⟩
      · rw [hN]; simp [hd]
      · rw [hP]; simp [hd]
    | cons y ys =>
      have hynd := List.nodup_cons.mp (List.nodup_append.mp hnd).2.1
      refine ⟨⟨?_, ?_⟩, (h2 y ys rfl).frame ?_ ?_⟩
      · rw [hN]; simp [hd]
      · rw [hP]
        have : y ≠ c := fun e => hcpost (by simp [e])
        simp [hd, this]
      · intro u hu
        rw [hN]
        have h1 : u ≠ .conn c := hne_post u (List.mem_append_left _ hu)
        have h2 : u ≠ lst (.fake s) pre := by
          intro e
          have hm := lst_mem_cons (.fake s) pre
          rw [← e] at hm
          rcases List.mem_cons.mp hm with rfl | hm'
          · simp at hu
          · obtain ⟨z, hz, rfl⟩ := List.mem_map.mp hm'
            have : z ∈ y :: ys := by simpa using hu
            exact hdisj z hz this
        simp [h1, h2]
      · intro v hv
        rw [hP]
        have h1 : v ≠ .conn c := hne_post v (by
          simp only [List.map_cons, List.cons_append]
          exact List.mem_cons_of_mem _ hv)
        have h2 : v ≠ hd (y :: ys) (.fake s) := by
          rintro rfl
          simp [hd] at hv
          exact hynd.1 hv
        simp [h1, h2]

/-! ## One dispatch, step by step -/

theorem runBody_idle (emit : Nat → State → Res State) (body : List Action) (st : State)
    (h : ∀ a ∈ body, a.idle st.fired) : runBody emit body st = .ok st := by
  induction body with
  | nil => rfl
  | cons a as ih =>
    have ha := h a (by simp)
    cases a with
    | once g a' =>
      simp only [Action.idle] at ha
      simp only [runBody, Action.run, ha, if_true, bind, Except.bind, pure, Except.pure]
      exact ih fun a hm => h a (List.mem_cons_of_mem _ hm)
    | _ => exact absurd ha (by simp [Action.idle])

theorem upd_upd {α : Type} (l : List α) (i : Nat) (f g : α → α) :
    upd (upd l i f) i g = upd l i (g ∘ f) := by
  apply List.ext_getElem?
  intro j
  simp only [getElem?_upd]
  split <;> simp

@[simp] theorem base_visit (st : State) (h : Nat) (q : Option Ptr) (evs : List Event)
    (p : Ptr) : (st.visit h q evs).base p = st.base p := by
  cases p <;> rfl

theorem visit_visit (st : State) (h : Nat) (q q' : Option Ptr) (evs evs' : List Event) :
    (st.visit h q evs).visit h q' evs' = st.visit h q' (evs ++ evs') := by
  simp only [State.visit, upd_upd, List.append_assoc]
  congr

theorem loop_step (prog : Prog) (emit : Nat → State → Res State) (s h k : Nat) {st : State}
    {hd : iterator_holder} {x f : Nat} {b : list_base} {cn : connection}
    (hh : st.holders[h]? = some hd) (hcur : hd.current = some (.conn x))
    (hb : st.base (.conn x) = some b) (hcn : st.conns[x]? = some cn)
    (hf : cn.func = some f) :
    signal.loop prog emit s h (k + 1) st =
      (runBody emit (prog f) (st.visit h b.next [.invoked (some s) x f])) >>= fun st' =>
        (derefHolder st' h) >>= fun hd' =>
          if hd'.sig = none then iterator_holder.dtor h st'
          else signal.loop prog emit s h k st' := by
  rw [signal.loop]
  simp only [derefHolder, hh, hcur, list.end, bind, Except.bind, pure, Except.pure,
    getNext_ok hb, connection.call, derefConn, State.setHolder, hcn, hf]
  simp
  rfl

theorem loop_end (prog : Prog) (emit : Nat → State → Res State) (s h k : Nat) {st : State}
    (hd : iterator_holder)
    (hh : st.holders[h]? = some hd) (hcur : hd.current = some (.fake s)) :
    signal.loop prog emit s h (k + 1) st = iterator_holder.dtor h st := by
  rw [signal.loop]
  simp [derefHolder, hh, hcur, list.end, bind, Except.bind, pure, Except.pure]

@[simp] theorem conns_visit (st : State) (h : Nat) (q : Option Ptr) (evs : List Event) :
    (st.visit h q evs).conns = st.conns := rfl

@[simp] theorem sigs_visit (st : State) (h : Nat) (q : Option Ptr) (evs : List Event) :
    (st.visit h q evs).sigs = st.sigs := rfl

@[simp] theorem fired_visit (st : State) (h : Nat) (q : Option Ptr) (evs : List Event) :
    (st.visit h q evs).fired = st.fired := rfl

@[simp] theorem trace_visit (st : State) (h : Nat) (q : Option Ptr) (evs : List Event) :
    (st.visit h q evs).trace = st.trace ++ evs := rfl

@[simp] theorem funcOf_visit (st : State) (h : Nat) (q : Option Ptr) (evs : List Event)
    (x : Nat) : (st.visit h q evs).funcOf x = st.funcOf x := rfl

theorem holders_visit {st : State} {h : Nat} {hd : iterator_holder}
    (hh : st.holders[h]? = some hd) (q : Option Ptr) (evs : List Event) :
    (st.visit h q evs).holders[h]? = some { hd with current := q } := by
  simp [State.visit, getElem?_upd, hh]

theorem Seg.same {st st' : State} {p q : Ptr} {xs : List Nat} (h : Seg st p xs q)
    (hb : ∀ u, st'.base u = st.base u) : Seg st' p xs q :=
  h.frame (fun u _ => by simp [State.nextOf, hb]) (fun v _ => by simp [State.prevOf, hb])

theorem Ring.same_base {st st' : State} {s : Nat} {xs : List Nat} (h : Ring st s xs)
    (hb : ∀ u, st'.base u = st.base u) : Ring st' s xs :=
  ⟨h.1.same hb, h.2⟩

/-- A stretch of the loop over connections whose callables do nothing: the
cursor ends on the node after the stretch and each callable has run once. -/
theorem loop_quiet (prog : Prog) (emit : Nat → State → Res State) (s h k : Nat)
    (F : Nat → Nat) (mid : List Nat) :
    ∀ (x : Nat) (q : Ptr) (st : State) (hd : iterator_holder),
      st.holders[h]? = some hd → hd.current = some (.conn x) → hd.sig ≠ none →
      Seg st (.conn x) mid q →
      (∀ y ∈ x :: mid, st.funcOf y = some (F y) ∧ ∀ a ∈ prog (F y), a.idle st.fired) →
      signal.loop prog emit s h (k + mid.length + 1) st =
        signal.loop prog emit s h k (st.visit h (some q) (invokedAll s F (x :: mid))) := by
  induction mid with
  | nil =>
    intro x q st hd hh hcur hsig hseg hfun
    obtain ⟨hf, hidle⟩ := hfun x (by simp)
    obtain ⟨b, hb⟩ := base_isSome_of_nextOf hseg.1
    have hbn : b.next = some q := by simpa [State.nextOf, hb] using hseg.1
    cases hcn : st.conns[x]? with
    | none => simp [State.funcOf, hcn] at hf
    | some cn =>
      have hcf : cn.func = some (F x) := by simpa [State.funcOf, hcn] using hf
      rw [List.length_nil, Nat.add_zero, loop_step prog emit s h k hh hcur hb hcn hcf,
        runBody_idle _ _ _ (by simpa using hidle)]
      simp only [bind, Except.bind, derefHolder, holders_visit hh, hbn, pure, Except.pure]
      simp [hsig, invokedAll]
  | cons y ys ih =>
    intro x q st hd hh hcur hsig hseg hfun
    obtain ⟨hf, hidle⟩ := hfun x (by simp)
    obtain ⟨b, hb⟩ := base_isSome_of_nextOf hseg.1.1
    have hbn : b.next = some (.conn y) := by simpa [State.nextOf, hb] using hseg.1.1
    cases hcn : st.conns[x]? with
    | none => simp [State.funcOf, hcn] at hf
    | some cn =>
      have hcf : cn.func = some (F x) := by simpa [State.funcOf, hcn] using hf
      have e : k + (y :: ys).length + 1 = (k + ys.length + 1) + 1 := by simp; omega
      rw [e, loop_step prog emit s h _ hh hcur hb hcn hcf,
        runBody_idle _ _ _ (by simpa using hidle)]
      simp only [bind, Except.bind, derefHolder, holders_visit hh, hbn, pure, Except.pure]
      simp only [hsig, if_false]
      rw [ih y q _ _ (holders_visit hh _ _) rfl hsig (hseg.2.same (by simp))
        (fun z hz => by simpa using hfun z (List.mem_cons_of_mem _ hz)), visit_visit]
      rfl

theorem derefSig_ok {st : State} {s : Nat} {sg : signal} (hs : st.sigs[s]? = some sg)
    (ha : sg.alive = true) : derefSig st (some s) = .ok (s, sg) := by
  simp [derefSig, hs, ha, pure, Except.pure]

theorem base_fake {st : State} {s : Nat} {sg : signal} (hs : st.sigs[s]? = some sg)
    (ha : sg.alive = true) : st.base (.fake s) = some sg.fake_ := by
  simp [State.base, hs, ha]

theorem ctor_ok {st : State} {s : Nat} {sg : signal} (hs : st.sigs[s]? = some sg)
    (ha : sg.alive = true) :
    iterator_holder.ctor s st = .ok (st.holders.length, st.enter s sg.fake_.next sg.tail) := by
  simp [iterator_holder.ctor, derefSig_ok hs ha, list.begin, getNext_ok (base_fake hs ha),
    bind, Except.bind, pure, Except.pure, State.enter]

@[simp] theorem base_enter (st : State) (s : Nat) (q : Option Ptr) (t : Option Nat) (p : Ptr) :
    (st.enter s q t).base p = st.base p := by
  cases p with
  | conn c => rfl
  | fake r =>
    simp only [State.enter, State.base, State.setSig, getElem?_upd]
    split
    · cases st.sigs[r]? <;> simp
    · rfl

@[simp] theorem conns_enter (st : State) (s : Nat) (q : Option Ptr) (t : Option Nat) :
    (st.enter s q t).conns = st.conns := rfl

@[simp] theorem fired_enter (st : State) (s : Nat) (q : Option Ptr) (t : Option Nat) :
    (st.enter s q t).fired = st.fired := rfl

@[simp] theorem trace_enter (st : State) (s : Nat) (q : Option Ptr) (t : Option Nat) :
    (st.enter s q t).trace = st.trace := rfl

@[simp] theorem funcOf_enter (st : State) (s : Nat) (q : Option Ptr) (t : Option Nat)
    (x : Nat) : (st.enter s q t).funcOf x = st.funcOf x := rfl

@[simp] theorem holders_enter (st : State) (s : Nat) (q : Option Ptr) (t : Option Nat) :
    (st.enter s q t).holders = st.holders ++ [iterator_holder.mk (some s) q t] := rfl

theorem sigs_enter {st : State} {s : Nat} {sg : signal} (hs : st.sigs[s]? = some sg)
    (q : Option Ptr) (t : Option Nat) :
    (st.enter s q t).sigs[s]? = some { sg with tail := some st.holders.length } := by
  simp [State.enter, State.setSig, getElem?_upd, hs]

theorem upd_append_last {α : Type} (l : List α) (a : α) (f : α → α) :
    upd (l ++ [a]) l.length f = l ++ [f a] := by
  apply List.ext_getElem?
  intro j
  simp only [getElem?_upd]
  split
  · subst_vars; simp
  · rename_i hne
    rcases Nat.lt_or_gt_of_ne hne with hlt | hgt
    · rw [List.getElem?_eq_none (by simp; omega), List.getElem?_eq_none (by simp; omega)]
    · rw [List.getElem?_append_left hgt, List.getElem?_append_left hgt]

/-- The cursor on top of the stack is popped: the chain of its signal loses its
head and the storage of the cursor is released. -/
theorem dtor_top {st : State} {s : Nat} (sg : signal) (hs : List iterator_holder)
    (hd : iterator_holder) (hh : st.holders = hs ++ [hd]) (hsig : hd.sig = some s)
    (hsg : st.sigs[s]? = some sg) (ha : sg.alive = true) (ht : sg.tail = some hs.length) :
    iterator_holder.dtor hs.length st =
      .ok { st with holders := hs, sigs := upd st.sigs s fun g => { g with tail := hd.prev } } := by
  have h1 : st.holders[hs.length]? = some hd := by simp [hh]
  simp [iterator_holder.dtor, derefHolder, h1, hsig, derefSig_ok hsg ha, ht, bind, Except.bind,
    pure, Except.pure, State.setSig, hh]

/-- A dispatch over a ring whose callables all do nothing runs each of them once,
first to last, and leaves the memory as it found it. -/
theorem call_quiet (prog : Prog) (F : Nat → Nat) {st : State} {s : Nat} {sg : signal}
    {xs : List Nat} (hs : st.sigs[s]? = some sg) (ha : sg.alive = true) (hr : Ring st s xs)
    (hfun : ∀ y ∈ xs, st.funcOf y = some (F y) ∧ ∀ a ∈ prog (F y), a.idle st.fired)
    (fuel : Nat) (hfuel : xs.length + 2 ≤ fuel) :
    signal.call prog fuel s st = .ok { st with trace := st.trace ++ invokedAll s F xs } := by
  obtain ⟨n, rfl⟩ : ∃ n, fuel = n + 1 := ⟨fuel - 1, by omega⟩
  rw [signal.call]
  simp only [ctor_ok hs ha, bind, Except.bind]
  have hnext : sg.fake_.next = some (hd xs (.fake s)) := by
    have := hr.1.link_first.1
    simpa [State.nextOf, base_fake hs ha] using this
  rw [hnext]
  have hfin : ∀ (q : Option Ptr) (evs : List Event),
      iterator_holder.dtor st.holders.length
        ((st.enter s (some (hd xs (.fake s))) sg.tail).visit st.holders.length q evs) =
      .ok { st with trace := st.trace ++ evs } := by
    intro q evs
    rw [dtor_top { sg with tail := some st.holders.length } st.holders ⟨some s, q, sg.tail⟩
      (by simp [State.visit, upd_append_last]) rfl
      (by simpa using sigs_enter hs _ _) ha rfl]
    congr 1
    simp only [State.visit, State.enter, State.setSig, upd_upd]
    congr 1
    apply List.ext_getElem?
    intro j
    simp only [getElem?_upd]
    split
    · subst_vars; simp [hs]
    · rfl
  have hvis : st.enter s (some (hd xs (.fake s))) sg.tail =
      (st.enter s (some (hd xs (.fake s))) sg.tail).visit st.holders.length
        (some (hd xs (.fake s))) [] := by
    simp [State.visit, upd_append_last]
    rfl
  cases xs with
  | nil =>
    obtain ⟨k, rfl⟩ : ∃ k, n = k + 1 := ⟨n - 1, by simp at hfuel; omega⟩
    rw [loop_end prog _ s _ k ⟨some s, some (.fake s), sg.tail⟩ (by simp [hd]) rfl,
      hvis, hfin]
    simp [invokedAll]
  | cons x mid =>
    obtain ⟨k, rfl⟩ : ∃ k, n = (k + 1) + mid.length + 1 :=
      ⟨n - mid.length - 2, by simp at hfuel; omega⟩
    rw [loop_quiet prog _ s _ (k + 1) F mid x (.fake s) _ ⟨some s, some (.conn x), sg.tail⟩
      (by simp [hd]) rfl (by simp) (hr.1.2.same (by simp)) (by simpa using hfun),
      loop_end prog _ s _ k ⟨some s, some (.fake s), sg.tail⟩
        (by simp [State.visit, upd_append_last]) rfl, hfin]

/-! ## What the neighbour updates leave alone -/

theorem rest_sigs {st st' : State} (h : st'.rest = st.rest) {s : Nat} {sg : signal}
    (hs : st.sigs[s]? = some sg) :
    ∃ sg', st'.sigs[s]? = some sg' ∧ sg'.alive = sg.alive ∧ sg'.tail = sg.tail := by
  have h1 : st'.rest.sigs[s]? = st.rest.sigs[s]? := by rw [h]
  simp only [State.rest, List.getElem?_map, hs, Option.map_some'] at h1
  cases h2 : st'.sigs[s]? with
  | none => simp [h2] at h1
  | some sg' =>
    simp only [h2, Option.map_some', Option.some.injEq, signal.mk.injEq] at h1
    exact ⟨sg', rfl, h1.2.2, h1.2.1⟩

theorem rest_conns {st st' : State} (h : st'.rest = st.rest) {c : Nat} {cn : connection}
    (hc : st.conns[c]? = some cn) :
    ∃ cn', st'.conns[c]? = some cn' ∧ cn'.sig = cn.sig ∧ cn'.func = cn.func := by
  have h1 : st'.rest.conns[c]? = st.rest.conns[c]? := by rw [h]
  simp only [State.rest, List.getElem?_map, hc, Option.map_some'] at h1
  cases h2 : st'.conns[c]? with
  | none => simp [h2] at h1
  | some cn' =>
    simp only [h2, Option.map_some', Option.some.injEq, connection.mk.injEq] at h1
    exact ⟨cn', rfl, h1.2.1, h1.2.2⟩

theorem rest_funcOf {st st' : State} (h : st'.rest = st.rest) (c : Nat) :
    st'.funcOf c = st.funcOf c := by
  have h1 : st'.rest.conns[c]? = st.rest.conns[c]? := by rw [h]
  simp only [State.rest, List.getElem?_map] at h1
  unfold State.funcOf
  cases h2 : st'.conns[c]? <;> cases h3 : st.conns[c]? <;> simp [h2, h3] at h1 ⊢
  exact h1.2

theorem rest_holders {st st' : State} (h : st'.rest = st.rest) : st'.holders = st.holders := by
  have : st'.rest.holders = st.rest.holders := by rw [h]
  exact this

theorem rest_fired {st st' : State} (h : st'.rest = st.rest) : st'.fired = st.fired := by
  have : st'.rest.fired = st.rest.fired := by rw [h]
  exact this

theorem rest_trace {st st' : State} (h : st'.rest = st.rest) : st'.trace = st.trace := by
  have : st'.rest.trace = st.rest.trace := by rw [h]
  exact this

theorem rest_conns_length {st st' : State} (h : st'.rest = st.rest) :
    st'.conns.length = st.conns.length := by
  have : st'.rest.conns.length = st.rest.conns.length := by rw [h]
  simpa [State.rest] using this

@[simp] theorem rest_unlinked (st : State) (x a b : Ptr) :
    (st.unlinked x a b).rest = st.rest := by
  simp [State.unlinked]

@[simp] theorem rest_inserted (st : State) (pos c a : Ptr) :
    (st.inserted pos c a).rest = st.rest := by
  simp [State.inserted]

/-! ## `connect` -/

theorem base_alloc (st : State) (cn : connection) (p : Ptr) :
    (st.alloc cn).base p =
      if p = .conn st.conns.length then some cn.base else st.base p := by
  cases p with
  | fake s => simp [State.alloc, State.base]
  | conn c =>
    simp only [State.alloc, State.base, Ptr.conn.injEq]
    split
    · subst_vars; simp
    · rename_i hne
      rcases Nat.lt_or_gt_of_ne hne with hlt | hgt
      · rw [List.getElem?_append_left hlt]
      · rw [List.getElem?_eq_none (by simp; omega), List.getElem?_eq_none (by omega)]

theorem Seg.lt_length {st : State} {p q : Ptr} {xs : List Nat} {x : Nat}
    (h : Seg st p xs q) (hx : x ∈ xs) : x < st.conns.length := by
  obtain ⟨a, b, hab⟩ := h.linked_of_mem hx
  simp only [State.base] at hab
  by_contra hlt
  rw [List.getElem?_eq_none (by omega)] at hab
  simp at hab

theorem Ring.alloc {st : State} {s : Nat} {xs : List Nat} (h : Ring st s xs)
    (cn : connection) : Ring (st.alloc cn) s xs := by
  have hne : ∀ u, u ∈ Ptr.fake s :: xs.map Ptr.conn → u ≠ .conn st.conns.length := by
    intro u hu e
    subst e
    simp at hu
    exact absurd (h.1.lt_length hu) (by omega)
  refine ⟨h.1.frame ?_ ?_, h.2⟩
  · intro u hu
    simp [State.nextOf, base_alloc, hne u hu]
  · intro v hv
    have : v ≠ .conn st.conns.length := by
      rcases List.mem_append.mp hv with hv | hv
      · exact hne v (List.mem_cons_of_mem _ hv)
      · simp at hv; subst hv; simp
    simp [State.prevOf, base_alloc, this]

/-- The effect of `connect` on a live signal whose list is a ring: the new
connection is the first element. -/
theorem connect_ok {st : State} {s : Nat} {sg : signal} {xs : List Nat} (f : Nat)
    (hs : st.sigs[s]? = some sg) (ha : sg.alive = true) (hr : Ring st s xs) :
    signal.connect s f st =
      .ok (st.conns.length, st.connected s f (hd xs (.fake s))) ∧
    Ring (st.connected s f (hd xs (.fake s))) s (st.conns.length :: xs) := by
  have hr' := hr.alloc ⟨⟨none, none⟩, some s, some f⟩
  have hs' : (st.alloc ⟨⟨none, none⟩, some s, some f⟩).sigs[s]? = some sg := hs
  have hc : (st.alloc ⟨⟨none, none⟩, some s, some f⟩).base (.conn st.conns.length) =
      some ⟨none, none⟩ := by simp [base_alloc]
  have hins := Ring.insert [] xs hr' hc
  have hnext : sg.fake_.next = some (hd xs (.fake s)) := by
    have := hr.1.link_first.1
    simpa [State.nextOf, base_fake hs ha] using this
  refine ⟨?_, hins.2⟩
  simp only [signal.connect, derefSig_ok hs ha, connection.ctor, bind, Except.bind]
  have e : ({ st with conns := st.conns ++ [connection.mk ⟨none, none⟩ (some s) (some f)] } :
      State) = st.alloc ⟨⟨none, none⟩, some s, some f⟩ := rfl
  simp only [e, derefSig_ok hs' ha, list.push_front, list.begin, getNext_ok (base_fake hs' ha),
    hnext, bind, Except.bind, hins.1, pure, Except.pure]
  rfl

theorem rest_connected (st : State) (s f : Nat) (q : Ptr) :
    (st.connected s f q).rest = (st.alloc ⟨⟨none, none⟩, some s, some f⟩).rest := by
  simp [State.connected]

theorem funcOf_connected (st : State) (s f : Nat) (q : Ptr) (y : Nat) :
    (st.connected s f q).funcOf y = if y = st.conns.length then some f else st.funcOf y := by
  rw [rest_funcOf (rest_connected st s f q)]
  simp only [State.funcOf, State.alloc]
  split
  · subst_vars; simp
  · rename_i hne
    rcases Nat.lt_or_gt_of_ne hne with hlt | hgt
    · rw [List.getElem?_append_left hlt]
    · rw [List.getElem?_eq_none (by simp; omega), List.getElem?_eq_none (by omega)]

theorem length_connected (st : State) (s f : Nat) (q : Ptr) :
    (st.connected s f q).conns.length = st.conns.length + 1 := by
  rw [rest_conns_length (rest_connected st s f q)]
  simp [State.alloc]

/-- After `connectAll` the ring holds the new connections, last created first,
in front of the old ones. -/
theorem connectAll_ok (s : Nat) (fs : List Nat) :
    ∀ (st : State) (xs : List Nat) (sg : signal),
      st.sigs[s]? = some sg → sg.alive = true → Ring st s xs →
      ∃ st1 sg1, connectAll s fs st = .ok st1 ∧ st1.sigs[s]? = some sg1 ∧
        sg1.alive = true ∧ sg1.tail = sg.tail ∧
        Ring st1 s ((List.range' st.conns.length fs.length).reverse ++ xs) ∧
        st1.trace = st.trace ∧ st1.fired = st.fired ∧ st1.holders = st.holders ∧
        (∀ y, st.conns.length ≤ y → st1.funcOf y = fs[y - st.conns.length]?) ∧
        (∀ y, y < st.conns.length → st1.funcOf y = st.funcOf y) := by
  induction fs with
  | nil =>
    intro st xs sg hs ha hr
    refine ⟨st, sg, rfl, hs, ha, rfl, by simpa using hr, rfl, rfl, rfl, ?_, fun _ _ => rfl⟩
    intro y hy
    simp only [State.funcOf, List.getElem?_nil]
    rw [List.getElem?_eq_none hy]
    rfl
  | cons f fs ih =>
    intro st xs sg hs ha hr
    obtain ⟨hc, hr'⟩ := connect_ok f hs ha hr
    have hrest := rest_connected st s f (hd xs (.fake s))
    obtain ⟨sg', hs', ha', ht'⟩ := rest_sigs hrest
      (show (st.alloc ⟨⟨none, none⟩, some s, some f⟩).sigs[s]? = some sg from hs)
    obtain ⟨st1, sg1, h1, h2, h3, h4, h5, h6, h7, h8, h9, h10⟩ :=
      ih _ _ sg' hs' (ha'.trans ha) hr'
    have hlen := length_connected st s f (hd xs (.fake s))
    refine ⟨st1, sg1, ?_, h2, h3, h4.trans ht', ?_, ?_, ?_, ?_, ?_, ?_⟩
    · simp only [connectAll, hc, bind, Except.bind]
      exact h1
    · rw [hlen] at h5
      have e : (List.range' st.conns.length (f :: fs).length).reverse ++ xs =
          (List.range' (st.conns.length + 1) fs.length).reverse ++ st.conns.length :: xs := by
        simp [List.range'_succ]
      rw [e]
      exact h5
    · rw [h6, rest_trace hrest]; rfl
    · rw [h7, rest_fired hrest]; rfl
    · rw [h8, rest_holders hrest]; rfl
    · intro y hy
      rcases Nat.eq_or_lt_of_le hy with e | hlt
      · subst e
        rw [h10 _ (by omega), funcOf_connected]
        simp
      · rw [h9 y (by omega), hlen]
        have : y - st.conns.length = (y - (st.conns.length + 1)) + 1 := by omega
        rw [this, List.getElem?_cons_succ]
    · intro y hy
      rw [h10 y (by omega), funcOf_connected]
      simp [Nat.ne_of_lt hy]

theorem invokedAll_range' (s : Nat) (F : Nat → Nat) (fs : List Nat) :
    ∀ n, (∀ y, n ≤ y → ∀ f, fs[y - n]? = some f → F y = f) →
    invokedAll s F (List.range' n fs.length) =
      (subscriptions n fs).map fun p => Event.invoked (some s) p.1 p.2 := by
  induction fs with
  | nil => intro n _; rfl
  | cons f fs ih =>
    intro n hF
    simp only [List.length_cons, List.range'_succ, invokedAll, List.map_cons, subscriptions,
      List.zip_cons_cons]
    have h0 : F n = f := hF n (le_refl _) f (by simp)
    rw [h0]
    congr 1
    refine ih (n + 1) ?_
    intro y hy g hg
    refine hF y (by omega) g ?_
    have : y - n = (y - (n + 1)) + 1 := by omega
    rw [this, List.getElem?_cons_succ]
    exact hg
/-- C1 (subscription order): after the callables `fs` are connected in this
order to a live signal whose list is empty, all of them doing nothing to the
signal, one dispatch succeeds and runs exactly the new connections, last
created first, each once; nothing else changes. -/
theorem C1_dispatch_most_recent_first (prog : Prog) (st : State) (s : Nat) (sg : signal)
    (fs : List Nat) (hs : st.sigs[s]? = some sg) (ha : sg.alive = true) (hr : Ring st s [])
    (hq : ∀ f ∈ fs, prog f = []) (fuel : Nat) (hfuel : fs.length + 2 ≤ fuel) :
    ∃ st1, connectAll s fs st = .ok st1 ∧
      signal.call prog fuel s st1 = .ok { st1 with
        trace := st.trace ++
          ((subscriptions st.conns.length fs).map fun p =>
            Event.invoked (some s) p.1 p.2).reverse } := by
  obtain ⟨st1, sg1, h1, h2, h3, _, h5, h6, _, _, h9, _⟩ := connectAll_ok s fs st [] sg hs ha hr
  refine ⟨st1, h1, ?_⟩
  have hF : ∀ y, st.conns.length ≤ y → ∀ f, fs[y - st.conns.length]? = some f →
      fs.getD (y - st.conns.length) 0 = f := by
    intro y _ f hf
    simp [List.getD, hf]
  rw [call_quiet prog (fun y => fs.getD (y - st.conns.length) 0) h2 h3 h5 ?_ fuel
    (by simpa using hfuel)]
  · rw [h6]
    simp only [List.append_nil, invokedAll, List.map_reverse]
    have := invokedAll_range' s (fun y => fs.getD (y - st.conns.length) 0) fs st.conns.length hF
    simp only [invokedAll] at this
    rw [this]
  · intro y hy
    simp only [List.append_nil, List.mem_reverse, List.mem_range'_1] at hy
    have hlt : y - st.conns.length < fs.length := by omega
    have hget : fs[y - st.conns.length]? = some (fs[y - st.conns.length]) :=
      List.getElem?_eq_getElem hlt
    have hFy : (fun y => fs.getD (y - st.conns.length) 0) y = fs[y - st.conns.length] :=
      hF y hy.1 _ hget
    refine ⟨?_, ?_⟩
    · rw [h9 y hy.1, hget, hFy]
    · rw [hFy, hq _ (List.getElem_mem _)]
      simp

theorem C1_dispatch_most_recent_first_witness :
    ∃ st1, connectAll 0 [10, 11, 12] (signal.ctor State.init).2 = .ok st1 ∧
      signal.call (fun _ => []) 5 0 st1 = .ok { st1 with
        trace := [Event.invoked (some 0) 2 12, Event.invoked (some 0) 1 11,
          Event.invoked (some 0) 0 10] } :=
  C1_dispatch_most_recent_first (fun _ => []) (signal.ctor State.init).2 0
    ⟨⟨some (.fake 0), some (.fake 0)⟩, none, true⟩ [10, 11, 12] rfl rfl (by decide)
    (fun _ _ => rfl) 5 (by decide)
theorem Chain.unique {st : State} {t : Option Nat} {hs hs' : List Nat}
    (h : Chain st t hs) (h' : Chain st t hs') : hs = hs' := by
  induction hs generalizing t hs' with
  | nil =>
    cases t with
    | none =>
      cases hs' with
      | nil => rfl
      | cons _ _ => exact absurd h' (by simp [Chain])
    | some _ => exact absurd h (by simp [Chain])
  | cons x xs ih =>
    cases t with
    | none => exact absurd h (by simp [Chain])
    | some i =>
      cases hs' with
      | nil => exact absurd h' (by simp [Chain])
      | cons y ys =>
        obtain ⟨e1, h1⟩ := h
        obtain ⟨e2, h2⟩ := h'
        subst e1
        subst e2
        cases hh : st.holders[i]? with
        | none => simp [hh] at h1
        | some hd =>
          simp only [hh] at h1 h2
          rw [ih h1 h2]

theorem Chain.suffix {st : State} {t : Option Nat} {pre : List Nat} {x : Nat} {post : List Nat}
    (h : Chain st t (pre ++ x :: post)) : Chain st (some x) (x :: post) := by
  induction pre generalizing t with
  | nil =>
    cases t with
    | none => exact absurd h (by simp [Chain])
    | some i =>
      obtain ⟨e, _⟩ := id h
      subst e
      exact h
  | cons y ys ih =>
    cases t with
    | none => exact absurd h (by simp [Chain])
    | some i =>
      obtain ⟨_, h1⟩ := h
      cases hh : st.holders[i]? with
      | none => simp [hh] at h1
      | some hd =>
        simp only [hh] at h1
        exact ih h1

theorem Chain.index_lt {st : State} {t : Option Nat} {hs : List Nat} (h : Chain st t hs) :
    ∀ x ∈ hs, x < st.holders.length := by
  intro x hx
  obtain ⟨pre, post, rfl⟩ := List.append_of_mem hx
  obtain ⟨_, h1⟩ := h.suffix
  by_contra hlt
  rw [List.getElem?_eq_none (by omega)] at h1
  exact h1

theorem Chain.nodup {st : State} {t : Option Nat} {hs : List Nat} (h : Chain st t hs) :
    hs.Nodup := by
  induction hs generalizing t with
  | nil => exact List.nodup_nil
  | cons x xs ih =>
    cases t with
    | none => exact absurd h (by simp [Chain])
    | some i =>
      obtain ⟨e, h1⟩ := id h
      subst e
      cases hh : st.holders[i]? with
      | none => simp [hh] at h1
      | some hd =>
        simp only [hh] at h1
        refine List.nodup_cons.mpr ⟨?_, ih h1⟩
        intro hm
        obtain ⟨pre, post, e⟩ := List.append_of_mem hm
        have h2 : Chain st (some i) (i :: post) := by
          have : Chain st (some i) ((i :: pre) ++ i :: post) := by
            rw [e] at h; exact h
          exact this.suffix
        have h3 := Chain.unique h h2
        rw [e] at h3
        have := congrArg List.length h3
        simp at this
        omega

/-- A chain of cursors that ends is no longer than the stack of cursors. -/
theorem Chain.bounded {st : State} {t : Option Nat} {hs : List Nat} (h : Chain st t hs) :
    hs.length ≤ st.holders.length := by
  have h1 : hs.toFinset ⊆ Finset.range st.holders.length := by
    intro x hx
    exact Finset.mem_range.mpr (h.index_lt x (List.mem_toFinset.mp hx))
  have h2 := Finset.card_le_card h1
  rw [List.toFinset_card_of_nodup h.nodup, Finset.card_range] at h2
  exact h2
theorem Chain.setHolder {st : State} {t : Option Nat} {hs : List Nat} (h : Chain st t hs)
    (j : Nat) (f : iterator_holder → iterator_holder) (hf : ∀ hd, (f hd).prev = hd.prev) :
    Chain (st.setHolder j f) t hs := by
  induction hs generalizing t with
  | nil =>
    cases t with
    | none => trivial
    | some _ => exact h
  | cons h' hs ih =>
    cases t with
    | none => exact h
    | some i =>
      obtain ⟨e, h2⟩ := h
      refine ⟨e, ?_⟩
      cases hh : st.holders[i]? with
      | none => simp [hh] at h2
      | some hd =>
        simp only [hh] at h2
        have h3 := ih h2
        have h4 : (st.setHolder j f).holders[i]? = some (if j = i then f hd else hd) := by
          simp only [State.setHolder, getElem?_upd, hh]
          split <;> rfl
        rw [h4]
        by_cases hji : j = i
        · simpa only [hji, if_true, hf] using h3
        · simpa only [hji, if_false] using h3

theorem upd_same {α : Type} (l : List α) (i : Nat) (f : α → α) {x : α}
    (hx : l[i]? = some x) (hf : f x = x) : upd l i f = l := by
  apply List.ext_getElem?
  intro j
  simp only [getElem?_upd]
  split
  · subst_vars; simp [hx, hf]
  · rfl

theorem setHolder_repoint_eq (st : State) (it : Nat) (old : Ptr) (new : Option Ptr)
    {hd : iterator_holder} (hh : st.holders[it]? = some hd) :
    (if hd.current = some old then
        st.setHolder it fun h => { h with current := new }
      else st) = st.setHolder it (iterator_holder.repoint old new) := by
  have key : ∀ (f g : iterator_holder → iterator_holder), f hd = g hd →
      upd st.holders it f = upd st.holders it g := by
    intro f g e
    simp [upd, hh, e]
  split
  · rename_i hc
    simp only [State.setHolder]
    rw [key _ (iterator_holder.repoint old new) (by simp [iterator_holder.repoint, hc])]
  · rename_i hc
    simp only [State.setHolder]
    rw [upd_same _ _ _ hh (by simp [iterator_holder.repoint, hc])]

/-- The loop of `replace_connections_by_iterator` over a chain of cursors. -/
theorem replace_loop_ok (this : Nat) (old : Ptr) :
    ∀ (hs : List Nat) (fuel : Nat) (t : Option Nat) (st : State),
      Chain st t hs → hs.length ≤ fuel →
      connection.replace_loop this old fuel t st =
        .ok (st.repoint old (some (.conn this)) hs) := by
  intro hs
  induction hs with
  | nil =>
    intro fuel t st hc _
    cases t with
    | none => cases fuel <;> rfl
    | some _ => exact absurd hc (by simp [Chain])
  | cons h' hs ih =>
    intro fuel t st hc hf
    cases t with
    | none => exact absurd hc (by simp [Chain])
    | some i =>
      obtain ⟨n, rfl⟩ : ∃ n, fuel = n + 1 := ⟨fuel - 1, by simp at hf; omega⟩
      obtain ⟨e, h2⟩ := hc
      subst e
      cases hh : st.holders[i]? with
      | none => simp [hh] at h2
      | some hd =>
        simp only [hh] at h2
        simp only [connection.replace_loop, derefHolder, hh, bind, Except.bind, pure,
          Except.pure, list.get_iterator]
        rw [setHolder_repoint_eq st i old _ hh]
        exact ih n hd.prev _ (h2.setHolder i _ (by
          intro x; unfold iterator_holder.repoint; split <;> rfl)) (by simp at hf; omega)

theorem repoint_idem (old : Ptr) (new : Option Ptr) (hd : iterator_holder) :
    iterator_holder.repoint old new (iterator_holder.repoint old new hd) =
      iterator_holder.repoint old new hd := by
  unfold iterator_holder.repoint
  by_cases h1 : hd.current = some old
  · by_cases h2 : new = some old <;> simp [h1, h2]
  · simp [h1]

theorem foldl_upd_getElem? {α : Type} (f : α → α) (hf : ∀ x, f (f x) = f x) (hs : List Nat) :
    ∀ (l : List α) (j : Nat),
      (hs.foldl (fun l h => upd l h f) l)[j]? = if j ∈ hs then (l[j]?).map f else l[j]? := by
  induction hs with
  | nil => intro l j; simp
  | cons h hs ih =>
    intro l j
    simp only [List.foldl_cons, ih, getElem?_upd, List.mem_cons]
    by_cases h1 : j = h
    · subst h1
      by_cases h2 : j ∈ hs
      · cases l[j]? <;> simp [h2, hf]
      · simp [h2]
    · have h1' : ¬ h = j := fun e => h1 e.symm
      by_cases h2 : j ∈ hs <;> simp [h1, h1', h2]

theorem holders_repoint (st : State) (old : Ptr) (new : Option Ptr) (hs : List Nat) (j : Nat) :
    (st.repoint old new hs).holders[j]? =
      if j ∈ hs then (st.holders[j]?).map (iterator_holder.repoint old new)
      else st.holders[j]? :=
  foldl_upd_getElem? _ (repoint_idem old new) hs st.holders j

theorem repoint_self (st : State) (c : Ptr) (hs : List Nat) :
    st.repoint c (some c) hs = st := by
  have : (st.repoint c (some c) hs).holders = st.holders := by
    apply List.ext_getElem?
    intro j
    rw [holders_repoint]
    have hid : ∀ hd : iterator_holder, iterator_holder.repoint c (some c) hd = hd := by
      intro hd
      unfold iterator_holder.repoint
      split
      · rename_i h; cases hd; simp_all
      · rfl
    split
    · cases st.holders[j]? <;> simp [hid]
    · rfl
  unfold State.repoint at this ⊢
  simp only at this
  rw [this]

theorem Chain.same_holders {st st' : State} {t : Option Nat} {hs : List Nat} (h : Chain st t hs)
    (hh : st'.holders = st.holders) : Chain st' t hs := by
  induction hs generalizing t with
  | nil =>
    cases t with
    | none => trivial
    | some _ => exact h
  | cons h' hs ih =>
    cases t with
    | none => exact h
    | some i =>
      obtain ⟨e, h2⟩ := h
      refine ⟨e, ?_⟩
      rw [hh]
      cases hx : st.holders[i]? with
      | none => simp [hx] at h2
      | some hd =>
        simp only [hx] at h2 ⊢
        exact ih h2

theorem base_setConn (st : State) (c : Nat) (f : connection → connection)
    (hf : ∀ cn, (f cn).base = cn.base) (p : Ptr) : (st.setConn c f).base p = st.base p := by
  cases p with
  | fake s => rfl
  | conn d =>
    simp only [State.base, State.setConn, getElem?_upd]
    split
    · cases st.conns[d]? <;> simp [hf]
    · rfl

theorem is_linked_ok {st : State} {p : Ptr} {b : list_base} (h : st.base p = some b) :
    list_base.is_linked p st = .ok (!(b.prev == none && b.next == none)) := by
  simp [list_base.is_linked, getPrev_ok h, getNext_ok h, bind, Except.bind, pure, Except.pure]

/-- The effect of `disconnect` on an element of the ring of its signal: the
element is unlinked, no cursor moves, the back-reference is cleared. -/
theorem disconnect_ok {st : State} {s k : Nat} {pre post : List Nat} {sg : signal}
    {cn : connection} {hs : List Nat}
    (hr : Ring st s (pre ++ k :: post)) (hcn : st.conns[k]? = some cn)
    (hsig : cn.sig = some s) (hsg : st.sigs[s]? = some sg) (ha : sg.alive = true)
    (hch : Chain st sg.tail hs) :
    connection.disconnect k st =
      .ok (st.disconnected k (lst (.fake s) pre) (hd post (.fake s))) ∧
    Ring (st.disconnected k (lst (.fake s) pre) (hd post (.fake s))) s (pre ++ post) := by
  obtain ⟨hu, hr'⟩ := hr.unlink
  have hb := hr.1.base_mem
  have hrest := rest_unlinked st (.conn k) (lst (.fake s) pre) (hd post (.fake s))
  obtain ⟨cn', hcn', hsig', _⟩ := rest_conns hrest hcn
  obtain ⟨sg', hsg', ha', ht'⟩ := rest_sigs hrest hsg
  have hhold := rest_holders hrest
  refine ⟨?_, hr'.same_base (base_setConn _ _ _ (fun _ => rfl))⟩
  simp only [connection.disconnect, is_linked_ok hb, bind, Except.bind, hu]
  simp only [connection.replace_connections_by_iterator, derefConn, hcn', hsig', hsig,
    derefSig_ok hsg' (ha'.trans ha), bind, Except.bind, pure, Except.pure, ht', hhold]
  rw [replace_loop_ok k (.conn k) hs _ _ _ (hch.same_holders hhold)
    (by rw [← hhold]; exact (hch.same_holders hhold).bounded), repoint_self]
  rfl

theorem visit_same {st : State} {h : Nat} {hd : iterator_holder} {q : Option Ptr}
    (hh : st.holders[h]? = some hd) (hq : hd.current = q) : st.visit h q [] = st := by
  unfold State.visit
  rw [upd_same _ _ _ hh (by cases hd; simp_all), List.append_nil]

theorem hd_append (pre : List Nat) (k : Nat) (post : List Nat) (q : Ptr) :
    hd (pre ++ k :: post) q = hd pre (.conn k) := by
  cases pre <;> rfl

/-- A stretch of the loop over connections whose callables do nothing, started
with the cursor on the first of them (or on `q` when there is none). -/
theorem loop_quiet' (prog : Prog) (emit : Nat → State → Res State) (s h k : Nat)
    (F : Nat → Nat) (post : List Nat) (q : Ptr) (st : State) (hd0 : iterator_holder)
    (hh : st.holders[h]? = some hd0) (hcur : hd0.current = some (hd post q))
    (hsig : hd0.sig ≠ none)
    (hseg : ∀ y ys, post = y :: ys → Seg st (.conn y) ys q)
    (hfun : ∀ y ∈ post, st.funcOf y = some (F y) ∧ ∀ a ∈ prog (F y), a.idle st.fired) :
    signal.loop prog emit s h (k + post.length) st =
      signal.loop prog emit s h k (st.visit h (some q) (invokedAll s F post)) := by
  cases post with
  | nil =>
    simp only [List.length_nil, Nat.add_zero, invokedAll, List.map_nil]
    rw [visit_same hh (by simpa [hd] using hcur)]
  | cons y ys =>
    have := loop_quiet prog emit s h k F ys y q st hd0 hh hcur hsig (hseg y ys rfl) hfun
    rw [← this]
    rfl

theorem funcOf_setConn (st : State) (c : Nat) (f : connection → connection)
    (hf : ∀ cn, (f cn).func = cn.func) (y : Nat) : (st.setConn c f).funcOf y = st.funcOf y := by
  simp only [State.funcOf, State.setConn, getElem?_upd]
  split
  · cases st.conns[y]? <;> simp [hf]
  · rfl

theorem funcOf_disconnected (st : State) (k : Nat) (a b : Ptr) (y : Nat) :
    (st.disconnected k a b).funcOf y = st.funcOf y := by
  unfold State.disconnected
  exact (funcOf_setConn _ k (fun cn => { cn with sig := none }) (fun _ => rfl) y).trans
    (rest_funcOf (rest_unlinked _ _ _ _) y)
theorem abc_eq : connectAll 0 [10, 11, 12] (signal.ctor State.init).2 = .ok abc := by
  decide

/-- C2 (disconnect of a not-yet-visited peer), at the spec's own scenario: with
`A`, `B`, `C` connected and `B` disconnecting `A` while it runs, the dispatch runs
`C`, `B` and then `A` all the same (the cursor is left on the unlinked `A`), and
then faults on the null `next` of `A` (evaluated with fuel 5 and with fuel 40). -/
theorem C2_disconnect_of_next_peer_faults :
    signal.call (fun f => if f = 11 then [.disconnect 0] else []) 5 0 abc =
      .error ⟨.null_deref, [.invoked (some 0) 2 12, .invoked (some 0) 1 11,
        .invoked (some 0) 0 10]⟩ ∧
    signal.call (fun f => if f = 11 then [.disconnect 0] else []) 40 0 abc =
      .error ⟨.null_deref, [.invoked (some 0) 2 12, .invoked (some 0) 1 11,
        .invoked (some 0) 0 10]⟩ := by
  decide

theorem base_setTail (st : State) (s : Nat) (t : Option Nat) (p : Ptr) :
    (State.base { st with sigs := upd st.sigs s fun g => { g with tail := t } } p) =
      st.base p := by
  cases p with
  | conn c => rfl
  | fake r =>
    simp only [State.base, getElem?_upd]
    split
    · cases st.sigs[r]? <;> simp
    · rfl

theorem base_holders (st : State) (hs : List iterator_holder) (p : Ptr) :
    (State.base { st with holders := hs } p) = st.base p := by
  cases p <;> rfl

theorem holders_disconnected (st : State) (k : Nat) (a b : Ptr) :
    (st.disconnected k a b).holders = st.holders := by
  simp [State.disconnected, State.setConn, State.unlinked]

theorem trace_disconnected (st : State) (k : Nat) (a b : Ptr) :
    (st.disconnected k a b).trace = st.trace := by
  exact (rest_trace (rest_unlinked st (.conn k) a b) :
    (st.unlinked (.conn k) a b).trace = st.trace)

theorem fired_disconnected (st : State) (k : Nat) (a b : Ptr) :
    (st.disconnected k a b).fired = st.fired := by
  exact (rest_fired (rest_unlinked st (.conn k) a b) :
    (st.unlinked (.conn k) a b).fired = st.fired)

theorem sigs_disconnected {st : State} (k : Nat) (a b : Ptr) {s : Nat} {sg : signal}
    (hs : st.sigs[s]? = some sg) :
    ∃ sg', (st.disconnected k a b).sigs[s]? = some sg' ∧ sg'.alive = sg.alive ∧
      sg'.tail = sg.tail := by
  obtain ⟨sg', h1, h2⟩ := rest_sigs (rest_unlinked st (.conn k) a b) hs
  exact ⟨sg', h1, h2⟩

/-- C3 (self-disconnect during dispatch): in a dispatch of a signal that is not
already dispatching, over the ring `pre ++ k :: post`, where the callable of `k`
disconnects `k` itself and the other callables do nothing, the dispatch succeeds,
runs every connection of the ring once in list order (`k` included, and everything
after `k`), and leaves the ring `pre ++ post` and the cursor stack as before. -/
theorem C3_self_disconnect_completes (prog : Prog) (F : Nat → Nat) (st : State) (s k : Nat)
    (pre post : List Nat) (sg : signal) (cn : connection)
    (hsg : st.sigs[s]? = some sg) (ha : sg.alive = true) (ht : sg.tail = none)
    (hr : Ring st s (pre ++ k :: post))
    (hcn : st.conns[k]? = some cn) (hsig : cn.sig = some s)
    (hF : ∀ y ∈ pre ++ k :: post, st.funcOf y = some (F y))
    (hk : prog (F k) = [.disconnect k])
    (hq : ∀ y ∈ pre ++ post, prog (F y) = [])
    (fuel : Nat) (hfuel : (pre ++ k :: post).length + 2 ≤ fuel) :
    ∃ st', signal.call prog fuel s st = .ok st' ∧
      st'.trace = st.trace ++ invokedAll s F (pre ++ k :: post) ∧
      Ring st' s (pre ++ post) ∧ st'.holders = st.holders := by
  simp only [List.length_append, List.length_cons] at hfuel
  obtain ⟨n, rfl⟩ : ∃ n, fuel = ((n + 1) + post.length + 1 + pre.length) + 1 :=
    ⟨fuel - pre.length - post.length - 3, by omega⟩
  obtain ⟨hseg, hnd⟩ := hr
  obtain ⟨hseg1, hseg2⟩ := (seg_append _ _ _ _ _ _).mp hseg
  have hnext : sg.fake_.next = some (hd pre (.conn k)) := by
    have := hseg.link_first.1
    simpa [State.nextOf, base_fake hsg ha, hd_append] using this
  have hkpre : k ∉ pre := fun hm => (List.nodup_append.mp hnd).2.2 hm (List.mem_cons_self _ _)
  have hkpost : k ∉ post := (List.nodup_cons.mp (List.nodup_append.mp hnd).2.1).1
  rw [signal.call]
  simp only [ctor_ok hsg ha, bind, Except.bind, hnext, ht]
  -- the connections before `k`
  have hh1 : (st.enter s (some (hd pre (.conn k))) none).holders[st.holders.length]? =
      some ⟨some s, some (hd pre (.conn k)), none⟩ := by simp
  rw [loop_quiet' prog _ s _ _ F pre (.conn k) _ _ hh1 rfl (by simp)
    (fun y ys e => by
      subst e
      exact hseg1.2.same (by simp))
    (fun y hy => by
      refine ⟨by simpa using hF y (List.mem_append_left _ hy), ?_⟩
      rw [hq y (List.mem_append_left _ hy)]
      simp)]
  -- the connection `k`
  have hb : st.base (.conn k) = some ⟨some (lst (.fake s) pre), some (hd post (.fake s))⟩ :=
    hseg.base_mem
  have hFk : cn.func = some (F k) := by
    have := hF k (by simp)
    simpa [State.funcOf, hcn] using this
  rw [loop_step prog _ s _ _ (holders_visit hh1 _ _) rfl (by simpa using hb)
    (by simpa using hcn) hFk, visit_visit, hk]
  have hh2 := holders_visit hh1 (some (hd post (.fake s)))
    (invokedAll s F pre ++ [Event.invoked (some s) k (F k)])
  have hr3 : Ring ((st.enter s (some (hd pre (.conn k))) none).visit st.holders.length
      (some (hd post (.fake s))) (invokedAll s F pre ++ [Event.invoked (some s) k (F k)])) s
      (pre ++ k :: post) := Ring.same_base ⟨hseg, hnd⟩ (by simp)
  have hch3 : Chain ((st.enter s (some (hd pre (.conn k))) none).visit st.holders.length
      (some (hd post (.fake s))) (invokedAll s F pre ++ [Event.invoked (some s) k (F k)]))
      (some st.holders.length) [st.holders.length] := by
    refine ⟨rfl, ?_⟩
    rw [hh2]
    trivial
  have hsg3 : ((st.enter s (some (hd pre (.conn k))) none).visit st.holders.length
      (some (hd post (.fake s)))
      (invokedAll s F pre ++ [Event.invoked (some s) k (F k)])).sigs[s]? =
      some { sg with tail := some st.holders.length } := by
    simpa using sigs_enter hsg _ _
  have hdis := disconnect_ok hr3 (by simpa using hcn) hsig hsg3 ha hch3
  obtain ⟨hdis1, hdis2⟩ := hdis
  simp only [runBody, Action.run, hdis1, bind, Except.bind, pure, Except.pure]
  -- the state after the disconnection
  generalize hst4 : ((st.enter s (some (hd pre (.conn k))) none).visit st.holders.length
      (some (hd post (.fake s)))
      (invokedAll s F pre ++ [Event.invoked (some s) k (F k)])).disconnected k
      (lst (.fake s) pre) (hd post (.fake s)) = st4 at hdis2 ⊢
  have hhold4 : st4.holders = st.holders ++ [⟨some s, some (hd post (.fake s)), none⟩] := by
    rw [← hst4, holders_disconnected]
    simp [State.visit, upd_append_last]
  have htrace4 : st4.trace =
      st.trace ++ (invokedAll s F pre ++ [Event.invoked (some s) k (F k)]) := by
    rw [← hst4, trace_disconnected]; rfl
  have hfired4 : st4.fired = st.fired := by
    rw [← hst4, fired_disconnected]; rfl
  have hfunc4 : ∀ y, st4.funcOf y = st.funcOf y := by
    intro y
    rw [← hst4, funcOf_disconnected]; rfl
  obtain ⟨sg4, hsg4, ha4, ht4⟩ : ∃ sg', st4.sigs[s]? = some sg' ∧
      sg'.alive = sg.alive ∧ sg'.tail = some st.holders.length := by
    rw [← hst4]
    exact sigs_disconnected k _ _ hsg3
  have hh4 : st4.holders[st.holders.length]? =
      some ⟨some s, some (hd post (.fake s)), none⟩ := by simp [hhold4]
  simp only [derefHolder, hh4, pure, Except.pure]
  rw [if_neg (by simp)]
  -- the connections after `k`
  rw [loop_quiet' prog _ s _ _ F post (.fake s) _ _ hh4 rfl (by simp)
    hdis2.1.split.2.2
    (fun y hy => by
      refine ⟨by simpa [hfunc4] using hF y (by simp [hy]), ?_⟩
      rw [hq y (List.mem_append_right _ hy)]
      simp)]
  rw [loop_end prog _ s _ n _ (holders_visit hh4 _ _) rfl]
  rw [dtor_top sg4 st.holders ⟨some s, some (.fake s), none⟩
    (by simp [State.visit, hhold4, upd_append_last]) rfl (by simpa using hsg4)
    (ha4.trans ha) ht4]
  refine ⟨_, rfl, ?_, ?_, rfl⟩
  · simp [htrace4, invokedAll]
  · refine hdis2.same_base ?_
    intro u
    rw [base_holders]
    exact (base_setTail _ s none u).trans (base_visit _ _ _ _ u)

theorem C3_self_disconnect_completes_witness :
    ∃ st', signal.call (fun f => if f = 11 then [.disconnect 1] else []) 5 0 abc = .ok st' ∧
      st'.trace = abc.trace ++ invokedAll 0 (fun y => y + 10) ([2] ++ 1 :: [0]) ∧
      Ring st' 0 ([2] ++ [0]) ∧ st'.holders = abc.holders :=
  C3_self_disconnect_completes (fun f => if f = 11 then [.disconnect 1] else [])
    (fun y => y + 10) abc 0 1 [2] [0] ⟨⟨some (.conn 0), some (.conn 2)⟩, none, true⟩
    ⟨⟨some (.conn 2), some (.conn 0)⟩, some 0, some 11⟩ rfl rfl rfl (by decide) rfl rfl
    (by decide) rfl (by decide) 5 (by decide)
theorem base_repoint (st : State) (old : Ptr) (new : Option Ptr) (hs : List Nat) (p : Ptr) :
    (st.repoint old new hs).base p = st.base p := by
  cases p <;> rfl

theorem lst_snoc (p : Ptr) (xs : List Nat) (y : Nat) : lst p (xs ++ [y]) = .conn y := by
  rw [lst_append]; rfl

theorem derefConn_ok {st : State} {c : Nat} {cn : connection} (h : st.conns[c]? = some cn) :
    derefConn st (some (.conn c)) = .ok (c, cn) := by
  simp [derefConn, h, pure, Except.pure]

theorem erase_ok {st : State} {x a b : Ptr} {ba bb : list_base}
    (hx : st.base x = some ⟨some a, some b⟩) (ha : st.base a = some ba)
    (hb : st.base b = some bb) :
    list.erase (some x) st = .ok (some b, st.unlinked x a b) := by
  simp [list.erase, getNext_ok hx, deref_ok hx, unlink_ok hx ha hb, bind, Except.bind, pure,
    Except.pure]

theorem conns_setConn (st : State) (c d : Nat) (f : connection → connection) :
    (st.setConn c f).conns[d]? = if c = d then (st.conns[d]?).map f else st.conns[d]? := by
  simp [State.setConn, getElem?_upd]

/-- The effect of the move constructor on an element `b` of the ring of its
signal: the new connection stands where `b` stood. -/
theorem move_ctor_ok {st : State} {s b : Nat} {pre post : List Nat} {sg : signal}
    {cn : connection} {hs : List Nat}
    (hr : Ring st s (pre ++ b :: post)) (hcn : st.conns[b]? = some cn)
    (hsig : cn.sig = some s) (hsg : st.sigs[s]? = some sg) (ha : sg.alive = true)
    (hch : Chain st sg.tail hs) :
    connection.move_ctor b st =
      .ok (st.conns.length,
        st.moved b cn.func cn.sig (lst (.fake s) pre) (hd post (.fake s)) hs) ∧
    Ring (st.moved b cn.func cn.sig (lst (.fake s) pre) (hd post (.fake s)) hs) s
      (pre ++ st.conns.length :: post) ∧
    (st.moved b cn.func cn.sig (lst (.fake s) pre) (hd post (.fake s)) hs).base (.conn b) =
      some ⟨none, none⟩ := by
  have hblt : b < st.conns.length := hr.1.lt_length (by simp)
  have hne : b ≠ st.conns.length := Nat.ne_of_lt hblt
  -- the new object
  have hr1 := hr.alloc ⟨⟨none, none⟩, none, none⟩
  generalize hst1 : st.alloc ⟨⟨none, none⟩, none, none⟩ = st1 at hr1
  have hlen1 : st1.conns = st.conns ++ [⟨⟨none, none⟩, none, none⟩] := by rw [← hst1]; rfl
  have hb1 : st1.conns[b]? = some cn := by
    rw [hlen1, List.getElem?_append_left hblt]; exact hcn
  have ha1 : st1.conns[st.conns.length]? = some ⟨⟨none, none⟩, none, none⟩ := by
    rw [hlen1]; simp
  have hbB : ((st1.setConn st.conns.length fun c => { c with func := cn.func }).setConn b
      fun c => { c with func := none }).conns[b]? = some { cn with func := none } := by
    simp [conns_setConn, hne.symm, hb1]
  generalize hst2 : ((st1.setConn st.conns.length fun c => { c with func := cn.func }).setConn b
      fun c => { c with func := none }).setConn st.conns.length
      (fun c => { c with sig := cn.sig }) = st2
  have hb2 : st2.conns[b]? = some { cn with func := none } := by
    rw [← hst2]; simp [conns_setConn, hne.symm, hb1]
  have ha2 : st2.conns[st.conns.length]? = some ⟨⟨none, none⟩, cn.sig, cn.func⟩ := by
    rw [← hst2]; simp [conns_setConn, hne, ha1]
  have hbase2 : ∀ u, st2.base u = st1.base u := by
    intro u
    rw [← hst2]
    exact (base_setConn _ _ (fun c => { c with sig := cn.sig }) (fun _ => rfl) u).trans
      ((base_setConn _ _ (fun c => { c with func := none }) (fun _ => rfl) u).trans
        (base_setConn _ _ (fun c => { c with func := cn.func }) (fun _ => rfl) u))
  have hsigs2 : st2.sigs = st.sigs := by rw [← hst2, ← hst1]; rfl
  have hhold2 : st2.holders = st.holders := by rw [← hst2, ← hst1]; rfl
  have hr2 : Ring st2 s (pre ++ b :: post) := hr1.same_base hbase2
  have hbb2 : st2.base (.conn b) =
      some ⟨some (lst (.fake s) pre), some (hd post (.fake s))⟩ := hr2.1.base_mem
  have hba2 : st2.base (.conn st.conns.length) = some ⟨none, none⟩ := by
    simp [State.base, ha2]
  -- the insertion before `b`
  obtain ⟨hins, hr3⟩ := Ring.insert pre (b :: post) hr2 hba2
  simp only [hd] at hins hr3
  generalize hst3 : st2.inserted (.conn b) (.conn st.conns.length) (lst (.fake s) pre) = st3
    at hins hr3
  have hrest3 : st3.rest = st2.rest := by rw [← hst3]; simp
  obtain ⟨cn3, hcn3, hsig3, _⟩ := rest_conns hrest3 ha2
  obtain ⟨sg3, hsg3, ha3, ht3⟩ := rest_sigs hrest3 (hsigs2 ▸ hsg)
  have hhold3 : st3.holders = st.holders := (rest_holders hrest3).trans hhold2
  -- the cursors
  have hrep := replace_loop_ok st.conns.length (.conn b) hs st3.holders.length sg.tail st3
    (hch.same_holders hhold3) (hch.same_holders hhold3).bounded
  generalize hst4 : st3.repoint (.conn b) (some (.conn st.conns.length)) hs = st4 at hrep
  have hr4 : Ring st4 s (pre ++ st.conns.length :: b :: post) :=
    hr3.same_base (by intro u; rw [← hst4, base_repoint])
  -- the removal of `b`
  have hr4' : Ring st4 s ((pre ++ [st.conns.length]) ++ b :: post) := by
    simpa using hr4
  obtain ⟨hunl, hr5⟩ := hr4'.unlink
  rw [lst_snoc] at hunl hr5
  have hbb4 := hr4'.1.base_mem
  rw [lst_snoc] at hbb4
  obtain ⟨ba4, hba4⟩ : ∃ ba, st4.base (.conn st.conns.length) = some ba := by
    obtain ⟨x, y, h⟩ := hr4.1.linked_of_mem
      (by simp : st.conns.length ∈ pre ++ st.conns.length :: b :: post)
    exact ⟨_, h⟩
  obtain ⟨bn4, hbn4⟩ := base_isSome_of_prevOf (hr4'.1.split.2.2 b post rfl).link_first.2
  have hfinal : st4.unlinked (.conn b) (.conn st.conns.length) (hd post (.fake s)) =
      st.moved b cn.func cn.sig (lst (.fake s) pre) (hd post (.fake s)) hs := by
    rw [← hst4, ← hst3, ← hst2, ← hst1]; rfl
  rw [← hfinal]
  refine ⟨?_, by simpa using hr5, by rw [base_unlinked hbb4]; simp⟩
  simp only [connection.move_ctor, connection.replace_connection, bind, Except.bind]
  have e1 : ({ st with conns := st.conns ++ [connection.mk ⟨none, none⟩ none none] } : State) =
      st1 := hst1
  simp only [e1, derefConn_ok hb1, derefConn_ok ha1, derefConn_ok hbB, hst2]
  have hsg2 : st2.sigs[s]? = some sg := by rw [hsigs2]; exact hsg
  have hds : derefSig st2 cn.sig = .ok (s, sg) := by rw [hsig]; exact derefSig_ok hsg2 ha
  have hds3 : derefSig st3 cn3.sig = .ok (s, sg3) := by
    rw [hsig3, hsig]; exact derefSig_ok hsg3 (ha3.trans ha)
  simp only [is_linked_ok hbb2, list.get_iterator, derefConn_ok ha2, hds, hins, pure,
    Except.pure, connection.replace_connections_by_iterator, derefConn_ok hcn3, hds3, ht3,
    hrep, bind, Except.bind, erase_ok hbb4 hba4 hbn4]
  simp

theorem holders_unlinked (st : State) (x a b : Ptr) :
    (st.unlinked x a b).holders = st.holders := by
  simp [State.unlinked]

theorem holders_inserted (st : State) (pos c a : Ptr) :
    (st.inserted pos c a).holders = st.holders := by
  simp [State.inserted]

theorem holders_moved (st : State) (b : Nat) (fb sb : Option Nat) (p n : Ptr) (hs : List Nat) :
    (st.moved b fb sb p n hs).holders =
      (st.repoint (.conn b) (some (.conn st.conns.length)) hs).holders := by
  simp only [State.moved, holders_unlinked]
  simp only [State.repoint, holders_inserted]
  rfl

theorem trace_repoint (st : State) (old : Ptr) (new : Option Ptr) (hs : List Nat) :
    (st.repoint old new hs).trace = st.trace := rfl

theorem fired_repoint (st : State) (old : Ptr) (new : Option Ptr) (hs : List Nat) :
    (st.repoint old new hs).fired = st.fired := rfl

theorem sigs_repoint (st : State) (old : Ptr) (new : Option Ptr) (hs : List Nat) :
    (st.repoint old new hs).sigs = st.sigs := rfl

theorem conns_repoint (st : State) (old : Ptr) (new : Option Ptr) (hs : List Nat) :
    (st.repoint old new hs).conns = st.conns := rfl

theorem funcOf_repoint (st : State) (old : Ptr) (new : Option Ptr) (hs : List Nat) (y : Nat) :
    (st.repoint old new hs).funcOf y = st.funcOf y := rfl

theorem trace_moved (st : State) (b : Nat) (fb sb : Option Nat) (p n : Ptr) (hs : List Nat) :
    (st.moved b fb sb p n hs).trace = st.trace := by
  unfold State.moved
  rw [rest_trace (rest_unlinked _ _ _ _), trace_repoint, rest_trace (rest_inserted _ _ _ _)]
  rfl

theorem fired_moved (st : State) (b : Nat) (fb sb : Option Nat) (p n : Ptr) (hs : List Nat) :
    (st.moved b fb sb p n hs).fired = st.fired := by
  unfold State.moved
  rw [rest_fired (rest_unlinked _ _ _ _), fired_repoint, rest_fired (rest_inserted _ _ _ _)]
  rfl

theorem sigs_moved {st : State} (b : Nat) (fb sb : Option Nat) (p n : Ptr) (hs : List Nat)
    {s : Nat} {sg : signal} (h : st.sigs[s]? = some sg) :
    ∃ sg', (st.moved b fb sb p n hs).sigs[s]? = some sg' ∧ sg'.alive = sg.alive ∧
      sg'.tail = sg.tail := by
  unfold State.moved
  obtain ⟨sg1, h1, h2, h3⟩ := rest_sigs (rest_inserted
    ((((st.alloc ⟨⟨none, none⟩, none, none⟩).setConn st.conns.length
      fun cn => { cn with func := fb }).setConn b
      fun cn => { cn with func := none }).setConn st.conns.length
      fun cn => { cn with sig := sb }) (.conn b) (.conn st.conns.length) p)
    (show _ = some sg from h)
  rw [← sigs_repoint _ (.conn b) (some (.conn st.conns.length)) hs] at h1
  obtain ⟨sg2, h4, h5, h6⟩ := rest_sigs (rest_unlinked _ (.conn b) (.conn st.conns.length) n) h1
  exact ⟨sg2, h4, h5.trans h2, h6.trans h3⟩

theorem funcOf_setConn_func (st : State) (c : Nat) (v : Option Nat) (y : Nat) :
    (st.setConn c fun cn => { cn with func := v }).funcOf y =
      if c = y then (st.conns[y]?).bind (fun _ => v) else st.funcOf y := by
  simp only [State.funcOf, State.setConn, getElem?_upd]
  split
  · cases st.conns[y]? <;> simp
  · rfl

theorem funcOf_alloc (st : State) (cn : connection) (y : Nat) :
    (st.alloc cn).funcOf y = if y = st.conns.length then cn.func else st.funcOf y := by
  simp only [State.funcOf, State.alloc]
  split
  · subst_vars; simp
  · rename_i hne
    rcases Nat.lt_or_gt_of_ne hne with hlt | hgt
    · rw [List.getElem?_append_left hlt]
    · rw [List.getElem?_eq_none (by simp; omega), List.getElem?_eq_none (by omega)]

theorem funcOf_moved {st : State} {b : Nat} (fb sb : Option Nat) (p n : Ptr) (hs : List Nat)
    (hb : b < st.conns.length) (y : Nat) :
    (st.moved b fb sb p n hs).funcOf y =
      if y = st.conns.length then fb else if y = b then none else st.funcOf y := by
  unfold State.moved
  rw [rest_funcOf (rest_unlinked _ _ _ _), funcOf_repoint, rest_funcOf (rest_inserted _ _ _ _),
    funcOf_setConn _ _ (fun cn => { cn with sig := sb }) (fun _ => rfl),
    funcOf_setConn_func, funcOf_setConn_func, funcOf_alloc]
  have hne : b ≠ st.conns.length := Nat.ne_of_lt hb
  by_cases h1 : y = st.conns.length
  · subst h1
    simp [hne, State.setConn, State.alloc, getElem?_upd]
  · by_cases h2 : y = b
    · subst h2
      have : ∃ c, st.conns[y]? = some c := ⟨_, List.getElem?_eq_getElem hb⟩
      obtain ⟨c, hc⟩ := this
      simp [h1, State.setConn, State.alloc, getElem?_upd, List.getElem?_append_left hb, hc]
    · have h1' : ¬ st.conns.length = y := fun e => h1 e.symm
      have h2' : ¬ b = y := fun e => h2 e.symm
      simp [h1, h2, h1', h2']

theorem conn_moved (st : State) (b : Nat) (fb sb : Option Nat) (p n : Ptr) (hs : List Nat)
    (hb : b < st.conns.length) :
    ∃ ca, (st.moved b fb sb p n hs).conns[st.conns.length]? = some ca ∧ ca.sig = sb ∧
      ca.func = fb := by
  unfold State.moved
  have hne : b ≠ st.conns.length := Nat.ne_of_lt hb
  have h2 : ((((st.alloc ⟨⟨none, none⟩, none, none⟩).setConn st.conns.length
      fun cn => { cn with func := fb }).setConn b
      fun cn => { cn with func := none }).setConn st.conns.length
      fun cn => { cn with sig := sb }).conns[st.conns.length]? =
      some ⟨⟨none, none⟩, sb, fb⟩ := by
    simp [conns_setConn, hne, State.alloc]
  obtain ⟨c3, h3, h4, h5⟩ := rest_conns (rest_inserted _ (.conn b) (.conn st.conns.length) p) h2
  rw [← conns_repoint _ (.conn b) (some (.conn st.conns.length)) hs] at h3
  obtain ⟨c4, h6, h7, h8⟩ := rest_conns (rest_unlinked _ (.conn b) (.conn st.conns.length) n) h3
  exact ⟨c4, h6, h7.trans h4, h8.trans h5⟩
theorem disconnect_unlinked {st : State} {c : Nat} (h : st.base (.conn c) = some ⟨none, none⟩) :
    connection.disconnect c st = .ok st := by
  simp [connection.disconnect, is_linked_ok h, bind, Except.bind, pure, Except.pure]

/-- C4 (move preserves subscription): move-constructing a connection from the
element `b` of the ring `pre ++ b :: post` succeeds; the new connection `a` (at the
next free address) stands in the ring where `b` stood, all other elements in place;
`a` holds the callable and the back-reference of `b`; `b` is unlinked and its
`disconnect` changes nothing; and a subsequent dispatch, the callables doing
nothing, runs the moved callable once, at that position. -/
theorem C4_move_construct_keeps_position (prog : Prog) (F : Nat → Nat) (st : State)
    (s b fb : Nat) (pre post : List Nat) (sg : signal) (cn : connection) (hs : List Nat)
    (hr : Ring st s (pre ++ b :: post)) (hcn : st.conns[b]? = some cn)
    (hsig : cn.sig = some s) (hfb : cn.func = some fb)
    (hsg : st.sigs[s]? = some sg) (ha : sg.alive = true)
    (hch : Chain st sg.tail hs)
    (hF : ∀ y ∈ pre ++ post, st.funcOf y = some (F y) ∧ ∀ a ∈ prog (F y), a.idle st.fired)
    (hidle : ∀ a ∈ prog fb, a.idle st.fired)
    (fuel : Nat) (hfuel : (pre ++ b :: post).length + 2 ≤ fuel) :
    ∃ st', connection.move_ctor b st = .ok (st.conns.length, st') ∧
      Ring st' s (pre ++ st.conns.length :: post) ∧
      (∃ ca, st'.conns[st.conns.length]? = some ca ∧ ca.func = cn.func ∧ ca.sig = cn.sig) ∧
      st'.base (.conn b) = some ⟨none, none⟩ ∧
      connection.disconnect b st' = .ok st' ∧
      signal.call prog fuel s st' = .ok { st' with
        trace := st'.trace ++ (invokedAll s F pre ++
          Event.invoked (some s) st.conns.length fb :: invokedAll s F post) } := by
  obtain ⟨h1, h2, h3⟩ := move_ctor_ok hr hcn hsig hsg ha hch
  have hblt : b < st.conns.length := hr.1.lt_length (by simp)
  obtain ⟨ca, hca, hcs, hcf⟩ := conn_moved st b cn.func cn.sig (lst (.fake s) pre)
    (hd post (.fake s)) hs hblt
  obtain ⟨sg', hsg', ha', _⟩ := sigs_moved b cn.func cn.sig (lst (.fake s) pre)
    (hd post (.fake s)) hs hsg
  refine ⟨_, h1, h2, ⟨ca, hca, hcf, hcs⟩, h3, disconnect_unlinked h3, ?_⟩
  have hbpre : b ∉ pre := fun hm =>
    (List.nodup_append.mp hr.2).2.2 hm (List.mem_cons_self _ _)
  have hbpost : b ∉ post := (List.nodup_cons.mp (List.nodup_append.mp hr.2).2.1).1
  have hlt : ∀ y ∈ pre ++ post, y < st.conns.length := by
    intro y hy
    refine hr.1.lt_length ?_
    rcases List.mem_append.mp hy with h | h
    · exact List.mem_append_left _ h
    · exact List.mem_append_right _ (List.mem_cons_of_mem _ h)
  rw [call_quiet prog (fun y => if y = st.conns.length then fb else F y) hsg' (ha'.trans ha) h2
    ?_ fuel (by simpa using hfuel)]
  · congr 2
    have hmap : ∀ l : List Nat, (∀ y ∈ l, y < st.conns.length) →
        invokedAll s (fun y => if y = st.conns.length then fb else F y) l =
          invokedAll s F l := by
      intro l hl
      unfold invokedAll
      refine List.map_congr_left ?_
      intro y hy
      simp [Nat.ne_of_lt (hl y hy)]
    have e : invokedAll s (fun y => if y = st.conns.length then fb else F y)
        (pre ++ st.conns.length :: post) =
        invokedAll s (fun y => if y = st.conns.length then fb else F y) pre ++
        Event.invoked (some s) st.conns.length fb ::
        invokedAll s (fun y => if y = st.conns.length then fb else F y) post := by
      simp [invokedAll]
    rw [e, hmap pre (fun y hy => hlt y (List.mem_append_left _ hy)),
      hmap post (fun y hy => hlt y (List.mem_append_right _ hy))]
  · intro y hy
    rw [funcOf_moved _ _ _ _ _ hblt, fired_moved]
    by_cases hya : y = st.conns.length
    · simp only [hya, if_true, hfb, true_and]
      exact hidle
    · have hy' : y ∈ pre ++ post := by
        rcases List.mem_append.mp hy with h | h
        · exact List.mem_append_left _ h
        · rcases List.mem_cons.mp h with h | h
          · exact absurd h hya
          · exact List.mem_append_right _ h
      have hyb : y ≠ b := by
        rintro rfl
        rcases List.mem_append.mp hy' with h | h
        · exact hbpre h
        · exact hbpost h
      simp only [hya, hyb, if_false]
      exact hF y hy'

theorem C4_move_construct_keeps_position_witness :
    ∃ st', connection.move_ctor 1 abc = .ok (abc.conns.length, st') ∧
      Ring st' 0 ([2] ++ abc.conns.length :: [0]) ∧
      (∃ ca, st'.conns[abc.conns.length]? = some ca ∧ ca.func = some 11 ∧ ca.sig = some 0) ∧
      st'.base (.conn 1) = some ⟨none, none⟩ ∧
      connection.disconnect 1 st' = .ok st' ∧
      signal.call (fun _ => []) 5 0 st' = .ok { st' with
        trace := st'.trace ++ (invokedAll 0 (fun y => y + 10) [2] ++
          Event.invoked (some 0) abc.conns.length 11 :: invokedAll 0 (fun y => y + 10) [0]) } :=
  C4_move_construct_keeps_position (fun _ => []) (fun y => y + 10) abc 0 1 11 [2] [0]
    ⟨⟨some (.conn 0), some (.conn 2)⟩, none, true⟩
    ⟨⟨some (.conn 2), some (.conn 0)⟩, some 0, some 11⟩ [] (by decide) rfl rfl rfl rfl rfl
    (by decide) (by decide) (by decide) 5 (by decide)

theorem length_repoint (st : State) (old : Ptr) (new : Option Ptr) (hs : List Nat) :
    (st.repoint old new hs).holders.length = st.holders.length := by
  have : ∀ (hs : List Nat) (l : List iterator_holder),
      (hs.foldl (fun l h => upd l h (iterator_holder.repoint old new)) l).length =
        l.length := by
    intro hs
    induction hs with
    | nil => intro l; rfl
    | cons h hs ih => intro l; simp [List.foldl_cons, ih]
  exact this hs _

/-- C5 (cursor fix-up on move): when the element `b` of the ring of a signal is
moved into a new connection `a` while the cursors `hs` of that signal are active,
every cursor of the chain that designated `b` designates `a` afterwards, every
other cursor of the chain is unchanged, and so is every cursor outside the chain. -/
theorem C5_move_repoints_every_cursor (st : State) (s b : Nat) (pre post : List Nat)
    (sg : signal) (cn : connection) (hs : List Nat)
    (hr : Ring st s (pre ++ b :: post)) (hcn : st.conns[b]? = some cn)
    (hsig : cn.sig = some s) (hsg : st.sigs[s]? = some sg) (ha : sg.alive = true)
    (hch : Chain st sg.tail hs) :
    ∃ st', connection.move_ctor b st = .ok (st.conns.length, st') ∧
      st'.holders.length = st.holders.length ∧
      (∀ j hd, st.holders[j]? = some hd → j ∈ hs → hd.current = some (.conn b) →
        st'.holders[j]? = some { hd with current := some (.conn st.conns.length) }) ∧
      (∀ j hd, st.holders[j]? = some hd → j ∈ hs → hd.current ≠ some (.conn b) →
        st'.holders[j]? = some hd) ∧
      (∀ j, j ∉ hs → st'.holders[j]? = st.holders[j]?) := by
  obtain ⟨h1, _, _⟩ := move_ctor_ok hr hcn hsig hsg ha hch
  refine ⟨_, h1, ?_, ?_, ?_, ?_⟩
  · rw [holders_moved, length_repoint]
  · intro j hd hj hmem hcur
    rw [holders_moved, holders_repoint]
    simp [hmem, hj, iterator_holder.repoint, hcur]
  · intro j hd hj hmem hcur
    rw [holders_moved, holders_repoint]
    simp [hmem, hj, iterator_holder.repoint, hcur]
  · intro j hmem
    rw [holders_moved, holders_repoint]
    simp [hmem]

theorem C5_move_repoints_every_cursor_witness :
    ∃ st', connection.move_ctor 1 abc_nested = .ok (abc_nested.conns.length, st') ∧
      st'.holders.length = abc_nested.holders.length ∧
      (∀ j hd, abc_nested.holders[j]? = some hd → j ∈ [1, 0] →
        hd.current = some (.conn 1) →
        st'.holders[j]? = some { hd with current := some (.conn abc_nested.conns.length) }) ∧
      (∀ j hd, abc_nested.holders[j]? = some hd → j ∈ [1, 0] →
        hd.current ≠ some (.conn 1) → st'.holders[j]? = some hd) ∧
      (∀ j, j ∉ [1, 0] → st'.holders[j]? = abc_nested.holders[j]?) :=
  C5_move_repoints_every_cursor abc_nested 0 1 [2] [0]
    ⟨⟨some (.conn 0), some (.conn 2)⟩, some 1, true⟩
    ⟨⟨some (.conn 2), some (.conn 0)⟩, some 0, some 11⟩ [1, 0] (by decide) rfl rfl rfl rfl
    (by decide)
theorem base_fired (st : State) (fs : List Nat) (p : Ptr) :
    (State.base { st with fired := fs } p) = st.base p := by
  cases p <;> rfl

theorem base_trace (st : State) (tr : List Event) (p : Ptr) :
    (State.base { st with trace := tr } p) = st.base p := by
  cases p <;> rfl

theorem enter_leave (st : State) (s : Nat) (sg : signal) (hs : st.sigs[s]? = some sg)
    (q : Option Ptr) :
    upd (st.enter s q sg.tail).sigs s (fun g => { g with tail := sg.tail }) = st.sigs := by
  simp only [State.enter, State.setSig, upd_upd]
  apply List.ext_getElem?
  intro j
  simp only [getElem?_upd]
  split
  · subst_vars; simp [hs]
  · rfl

/-- C6 (reentrant dispatch): over the ring `pre ++ k :: post`, where the callable
of `k` dispatches the same signal again the first time it runs and the other
callables do nothing, the outer dispatch succeeds and the callables run in the
order `pre, k`, then the whole ring (the nested dispatch), then `post`; nothing
else changes but the consumed guard. -/
theorem C6_nested_dispatch_order (prog : Prog) (F : Nat → Nat) (st : State) (s k g : Nat)
    (pre post : List Nat) (sg : signal)
    (hsg : st.sigs[s]? = some sg) (ha : sg.alive = true)
    (hr : Ring st s (pre ++ k :: post))
    (hF : ∀ y ∈ pre ++ k :: post, st.funcOf y = some (F y))
    (hk : prog (F k) = [.once g (.emit s)]) (hg : g ∉ st.fired)
    (hq : ∀ y ∈ pre ++ post, prog (F y) = [])
    (fuel : Nat) (hfuel : (pre ++ k :: post).length + 3 ≤ fuel) :
    signal.call prog fuel s st = .ok { st with
      fired := g :: st.fired
      trace := st.trace ++ (invokedAll s F (pre ++ [k]) ++ invokedAll s F (pre ++ k :: post) ++
        invokedAll s F post) } := by
  simp only [List.length_append, List.length_cons] at hfuel
  obtain ⟨n, rfl⟩ : ∃ n, fuel = ((n + 1) + post.length + 1 + pre.length) + 1 :=
    ⟨fuel - pre.length - post.length - 3, by omega⟩
  obtain ⟨hseg, hnd⟩ := hr
  obtain ⟨hseg1, hseg2⟩ := (seg_append _ _ _ _ _ _).mp hseg
  have hnext : sg.fake_.next = some (hd pre (.conn k)) := by
    have := hseg.link_first.1
    simpa [State.nextOf, base_fake hsg ha, hd_append] using this
  rw [signal.call]
  simp only [ctor_ok hsg ha, bind, Except.bind, hnext]
  -- the connections before `k`
  have hh1 : (st.enter s (some (hd pre (.conn k))) sg.tail).holders[st.holders.length]? =
      some ⟨some s, some (hd pre (.conn k)), sg.tail⟩ := by simp
  rw [loop_quiet' prog _ s _ _ F pre (.conn k) _ _ hh1 rfl (by simp)
    (fun y ys e => by
      subst e
      exact hseg1.2.same (by simp))
    (fun y hy => by
      refine ⟨by simpa using hF y (List.mem_append_left _ hy), ?_⟩
      rw [hq y (List.mem_append_left _ hy)]
      simp)]
  -- the connection `k`, and the nested dispatch
  have hb : st.base (.conn k) = some ⟨some (lst (.fake s) pre), some (hd post (.fake s))⟩ :=
    hseg.base_mem
  obtain ⟨cn, hcn, hFk⟩ : ∃ cn, st.conns[k]? = some cn ∧ cn.func = some (F k) := by
    have := hF k (by simp)
    cases hc : st.conns[k]? with
    | none => simp [State.funcOf, hc] at this
    | some cn => exact ⟨cn, rfl, by simpa [State.funcOf, hc] using this⟩
  rw [loop_step prog _ s _ _ (holders_visit hh1 _ _) rfl (by simpa using hb)
    (by simpa using hcn) hFk, visit_visit, hk]
  have hh2 := holders_visit hh1 (some (hd post (.fake s)))
    (invokedAll s F pre ++ [Event.invoked (some s) k (F k)])
  simp only [runBody, Action.run, fired_visit, fired_enter, hg, if_false, bind, Except.bind]
  generalize hst3 : ({ (st.enter s (some (hd pre (.conn k))) sg.tail).visit st.holders.length
      (some (hd post (.fake s)))
      (invokedAll s F pre ++ [Event.invoked (some s) k (F k)]) with
      fired := g :: st.fired } : State) = st3
  have hsg3 : st3.sigs[s]? = some { sg with tail := some st.holders.length } := by
    rw [← hst3]; simpa using sigs_enter hsg _ _
  have hbase3 : ∀ u, st3.base u = st.base u := by
    intro u; rw [← hst3, base_fired]; simp
  have hfunc3 : ∀ y, st3.funcOf y = st.funcOf y := by
    intro y; rw [← hst3]; rfl
  have hfired3 : st3.fired = g :: st.fired := by rw [← hst3]
  have hinner := call_quiet prog F hsg3 ha (Ring.same_base ⟨hseg, hnd⟩ hbase3)
    (fun y hy => by
      refine ⟨by rw [hfunc3]; exact hF y hy, ?_⟩
      rcases List.mem_append.mp hy with h | h
      · rw [hq y (List.mem_append_left _ h)]; simp
      · rcases List.mem_cons.mp h with h | h
        · subst h
          rw [hk, hfired3]
          simp [Action.idle]
        · rw [hq y (List.mem_append_right _ h)]; simp)
    ((n + 1) + post.length + 1 + pre.length) (by simp; omega)
  rw [hinner]
  -- back in the outer dispatch
  generalize hst4 : ({ st3 with trace := st3.trace ++ invokedAll s F (pre ++ k :: post) } :
    State) = st4
  have hh4 : st4.holders[st.holders.length]? =
      some ⟨some s, some (hd post (.fake s)), sg.tail⟩ := by
    rw [← hst4, ← hst3]; exact hh2
  simp only [pure, Except.pure, derefHolder, hh4]
  rw [if_neg (by simp)]
  have hbase4 : ∀ u, st4.base u = st.base u := by
    intro u; rw [← hst4, base_trace]; exact hbase3 u
  rw [loop_quiet' prog _ s _ _ F post (.fake s) _ _ hh4 rfl (by simp)
    (fun y ys e => by
      subst e
      exact hseg2.2.same hbase4)
    (fun y hy => by
      refine ⟨?_, ?_⟩
      · rw [← hst4]; exact (hfunc3 y).trans (hF y (by simp [hy]))
      · rw [hq y (List.mem_append_right _ hy)]; simp)]
  rw [loop_end prog _ s _ n _ (holders_visit hh4 _ _) rfl]
  rw [dtor_top { sg with tail := some st.holders.length } st.holders
    ⟨some s, some (.fake s), sg.tail⟩
    (by rw [← hst4, ← hst3]; simp [State.visit, upd_append_last]) rfl
    (by rw [← hst4]; exact hsg3) ha rfl]
  congr 1
  rw [← hst4, ← hst3]
  simp only [State.visit]
  have := enter_leave st s sg hsg (some (hd pre (.conn k)))
  simp only [State.mk.injEq]
  refine ⟨this, rfl, trivial, trivial, ?_⟩
  simp [invokedAll, List.append_assoc]

theorem C6_nested_dispatch_order_witness :
    signal.call (fun f => if f = 11 then [.once 7 (.emit 0)] else []) 6 0 abc = .ok { abc with
      fired := 7 :: abc.fired
      trace := abc.trace ++ (invokedAll 0 (fun y => y + 10) ([2] ++ [1]) ++
        invokedAll 0 (fun y => y + 10) ([2] ++ 1 :: [0]) ++
        invokedAll 0 (fun y => y + 10) [0]) } :=
  C6_nested_dispatch_order (fun f => if f = 11 then [.once 7 (.emit 0)] else [])
    (fun y => y + 10) abc 0 1 7 [2] [0] ⟨⟨some (.conn 0), some (.conn 2)⟩, none, true⟩
    rfl rfl (by decide) (by decide) rfl (by decide) (by decide) 6 (by decide)
theorem conns_disconnected {st : State} {k : Nat} (a b : Ptr) {cn : connection}
    (hcn : st.conns[k]? = some cn) :
    ∃ cn', (st.disconnected k a b).conns[k]? = some cn' ∧ cn'.sig = none ∧
      cn'.func = cn.func := by
  obtain ⟨c1, h1, _, h3⟩ := rest_conns (rest_unlinked st (.conn k) a b) hcn
  refine ⟨{ c1 with sig := none }, ?_, rfl, h3⟩
  simp [State.disconnected, conns_setConn, h1]

theorem base_disconnected {st : State} {k : Nat} {a b : Ptr}
    (hx : st.base (.conn k) = some ⟨some a, some b⟩) :
    (st.disconnected k a b).base (.conn k) = some ⟨none, none⟩ := by
  unfold State.disconnected
  rw [base_setConn _ k (fun cn => { cn with sig := none }) (fun _ => rfl), base_unlinked hx]
  simp

theorem call_direct (prog : Prog) (emit : Nat → State → Res State) {st : State} {c f : Nat}
    (h : st.funcOf c = some f) :
    connection.call prog emit none (some (.conn c)) st =
      runBody emit (prog f) (st.log (.invoked none c f)) := by
  cases hc : st.conns[c]? with
  | none => simp [State.funcOf, hc] at h
  | some cn =>
    have hf : cn.func = some f := by simpa [State.funcOf, hc] using h
    simp [connection.call, derefConn_ok hc, hf, bind, Except.bind]

/-- C8, as the code has it: `disconnect` of an element `c` of the ring of its
signal succeeds, leaves `c` with both neighbour references null and a null
back-reference, and takes `c` out of the ring; the stored callable stays in place,
so that a direct call of `c` afterwards still runs it. -/
theorem C8_disconnect_keeps_callable (prog : Prog) (emit : Nat → State → Res State)
    (st : State) (s c f : Nat) (pre post : List Nat) (sg : signal) (cn : connection)
    (hs : List Nat)
    (hr : Ring st s (pre ++ c :: post)) (hcn : st.conns[c]? = some cn)
    (hsig : cn.sig = some s) (hf : cn.func = some f)
    (hsg : st.sigs[s]? = some sg) (ha : sg.alive = true) (hch : Chain st sg.tail hs) :
    ∃ st', connection.disconnect c st = .ok st' ∧
      st'.base (.conn c) = some ⟨none, none⟩ ∧
      (∃ cn', st'.conns[c]? = some cn' ∧ cn'.sig = none ∧ cn'.func = some f) ∧
      Ring st' s (pre ++ post) ∧
      connection.call prog emit none (some (.conn c)) st' =
        runBody emit (prog f) (st'.log (.invoked none c f)) := by
  obtain ⟨h1, h2⟩ := disconnect_ok hr hcn hsig hsg ha hch
  obtain ⟨cn', h3, h4, h5⟩ := conns_disconnected (lst (.fake s) pre) (hd post (.fake s)) hcn
  refine ⟨_, h1, base_disconnected hr.1.base_mem, ⟨cn', h3, h4, h5.trans hf⟩, h2, ?_⟩
  exact call_direct prog emit (by simp [State.funcOf, h3, h5, hf])

theorem C8_disconnect_keeps_callable_witness :
    ∃ st', connection.disconnect 1 abc = .ok st' ∧
      st'.base (.conn 1) = some ⟨none, none⟩ ∧
      (∃ cn', st'.conns[1]? = some cn' ∧ cn'.sig = none ∧ cn'.func = some 11) ∧
      Ring st' 0 ([2] ++ [0]) ∧
      connection.call (fun _ => []) (fun _ st => .ok st) none (some (.conn 1)) st' =
        runBody (fun _ st => .ok st) ((fun _ => []) 11) (st'.log (.invoked none 1 11)) :=
  C8_disconnect_keeps_callable (fun _ => []) (fun _ st => .ok st) abc 0 1 11 [2] [0]
    ⟨⟨some (.conn 0), some (.conn 2)⟩, none, true⟩
    ⟨⟨some (.conn 2), some (.conn 0)⟩, some 0, some 11⟩ [] (by decide) rfl rfl rfl rfl rfl
    (by decide)

/-- C8, as the claim has it, fails: after `B.disconnect()` in the memory `abc`
the callable 11 is still stored in `B`, and a direct call of `B` runs it. -/
theorem C8_callable_not_cleared :
    ∃ st', connection.disconnect 1 abc = .ok st' ∧ st'.funcOf 1 = some 11 ∧
      connection.call (fun _ => []) (fun _ st => .ok st) none (some (.conn 1)) st' =
        .ok (st'.log (.invoked none 1 11)) :=
  ⟨_, rfl, by decide, by decide⟩
theorem deref_inv {st : State} {p : Option Ptr} {r : Ptr × list_base}
    (h : deref st p = .ok r) : p = some r.1 ∧ st.base r.1 = some r.2 := by
  cases p with
  | none => simp [deref, fail] at h
  | some q =>
    simp only [deref] at h
    cases hb : st.base q with
    | none => simp [hb, fail] at h
    | some b =>
      simp only [hb, pure, Except.pure, Except.ok.injEq] at h
      subst h
      exact ⟨rfl, hb⟩

theorem setPrev_inv {st st' : State} {p v : Option Ptr} (h : setPrev p v st = .ok st') :
    ∃ q b, p = some q ∧ st.base q = some b ∧
      st' = st.setBase q fun b => { b with prev := v } := by
  simp only [setPrev, bind, Except.bind] at h
  cases hd : deref st p with
  | error e => simp [hd] at h
  | ok r =>
    obtain ⟨h1, h2⟩ := deref_inv hd
    simp only [hd, pure, Except.pure, Except.ok.injEq] at h
    exact ⟨r.1, r.2, h1, h2, h.symm⟩

theorem setNext_inv {st st' : State} {p v : Option Ptr} (h : setNext p v st = .ok st') :
    ∃ q b, p = some q ∧ st.base q = some b ∧
      st' = st.setBase q fun b => { b with next := v } := by
  simp only [setNext, bind, Except.bind] at h
  cases hd : deref st p with
  | error e => simp [hd] at h
  | ok r =>
    obtain ⟨h1, h2⟩ := deref_inv hd
    simp only [hd, pure, Except.pure, Except.ok.injEq] at h
    exact ⟨r.1, r.2, h1, h2, h.symm⟩

/-- Whatever the neighbours are, a successful `unlink` of a node that had both
leaves it with none. -/
theorem unlink_self {st st' : State} {p a b : Ptr}
    (hx : st.base p = some ⟨some a, some b⟩) (h : list_base.unlink p st = .ok st') :
    st'.base p = some ⟨none, none⟩ := by
  simp only [list_base.unlink, getPrev_ok hx, getNext_ok hx, bind, Except.bind, ne_eq,
    reduceCtorEq, not_false_eq_true, and_self, if_true] at h
  cases h1 : setNext (some a) (some b) st with
  | error e => simp [h1] at h
  | ok st1 =>
    simp only [h1] at h
    cases h2 : getNext (some p) st1 with
    | error e => simp [h2] at h
    | ok n1 =>
      simp only [h2] at h
      cases h3 : getPrev (some p) st1 with
      | error e => simp [h3] at h
      | ok p1 =>
        simp only [h3] at h
        cases h4 : setPrev n1 p1 st1 with
        | error e => simp [h4] at h
        | ok st2 =>
          simp only [h4] at h
          cases h5 : setPrev (some p) none st2 with
          | error e => simp [h5] at h
          | ok st3 =>
            simp only [h5] at h
            obtain ⟨q, b3, e1, hb3, rfl⟩ := setPrev_inv h5
            obtain ⟨q', b4, e2, hb4, rfl⟩ := setNext_inv h
            cases e1
            cases e2
            simp [base_setBase, hb3]

theorem replace_loop_frame (this : Nat) (old : Ptr) :
    ∀ (fuel : Nat) (t : Option Nat) (st st' : State),
      connection.replace_loop this old fuel t st = .ok st' →
      st'.sigs = st.sigs ∧ st'.conns = st.conns := by
  intro fuel
  induction fuel with
  | zero =>
    intro t st st' h
    cases t with
    | none =>
      simp only [connection.replace_loop, pure, Except.pure, Except.ok.injEq] at h
      subst h; exact ⟨rfl, rfl⟩
    | some i => simp [connection.replace_loop, fail] at h
  | succ n ih =>
    intro t st st' h
    cases t with
    | none =>
      simp only [connection.replace_loop, pure, Except.pure, Except.ok.injEq] at h
      subst h; exact ⟨rfl, rfl⟩
    | some i =>
      simp only [connection.replace_loop, bind, Except.bind] at h
      cases hd : derefHolder st i with
      | error e => simp [hd] at h
      | ok hd0 =>
        simp only [hd] at h
        obtain ⟨h1, h2⟩ := ih _ _ _ h
        refine ⟨h1.trans ?_, h2.trans ?_⟩ <;> split <;> rfl

theorem replace_frame {this : Nat} {old : Ptr} {st st' : State}
    (h : connection.replace_connections_by_iterator this old st = .ok st') :
    st'.sigs = st.sigs ∧ st'.conns = st.conns := by
  simp only [connection.replace_connections_by_iterator, bind, Except.bind] at h
  cases h1 : derefConn st (some (.conn this)) with
  | error e => simp [h1] at h
  | ok r1 =>
    simp only [h1] at h
    cases h2 : derefSig st r1.2.sig with
    | error e => simp [h2] at h
    | ok r2 =>
      simp only [h2] at h
      exact replace_loop_frame _ _ _ _ _ _ h

/-- A successful `disconnect` of a connection that had both neighbours leaves it
with none. -/
theorem disconnect_self {st st' : State} {c : Nat} {a b : Ptr}
    (hx : st.base (.conn c) = some ⟨some a, some b⟩)
    (h : connection.disconnect c st = .ok st') :
    st'.base (.conn c) = some ⟨none, none⟩ := by
  have hl : list_base.is_linked (.conn c) st = .ok true := by
    rw [is_linked_ok hx]; rfl
  simp only [connection.disconnect, hl, bind, Except.bind, if_true] at h
  cases h1 : list_base.unlink (.conn c) st with
  | error e => simp [h1] at h
  | ok st1 =>
    simp only [h1] at h
    cases h2 : connection.replace_connections_by_iterator c (.conn c) st1 with
    | error e => simp [h2] at h
    | ok st2 =>
      simp only [h2, pure, Except.pure, Except.ok.injEq] at h
      subst h
      have hb1 := unlink_self hx h1
      obtain ⟨h3, h4⟩ := replace_frame h2
      rw [base_setConn _ c (fun cn => { cn with sig := none }) (fun _ => rfl)]
      simp only [State.base, h4] at hb1 ⊢
      exact hb1

/-- C10, amended: in every memory in which the neighbour references of `c` are
both null or both set, also during dispatches, calling `c.disconnect()` twice
gives exactly what calling it once gives (the same memory, list, cursors and
connection, or the same fault); after it `c` has no neighbour; and a dispatch
started afterwards over a ring of callables that do nothing is not run through
`c`. -/
theorem C10_disconnect_idempotent (st : State) (c : Nat)
    (htidy : st.prevOf (.conn c) = none ↔ st.nextOf (.conn c) = none) :
    (connection.disconnect c st >>= connection.disconnect c) = connection.disconnect c st ∧
    (∀ st', connection.disconnect c st = .ok st' →
      st'.base (.conn c) = some ⟨none, none⟩ ∧
      ∀ (prog : Prog) (F : Nat → Nat) (s : Nat) (sg : signal) (xs : List Nat) (fuel : Nat),
        st'.sigs[s]? = some sg → sg.alive = true → Ring st' s xs →
        (∀ y ∈ xs, st'.funcOf y = some (F y) ∧ ∀ a ∈ prog (F y), a.idle st'.fired) →
        xs.length + 2 ≤ fuel →
        signal.call prog fuel s st' =
          .ok { st' with trace := st'.trace ++ invokedAll s F xs } ∧
        ∀ f, Event.invoked (some s) c f ∉ invokedAll s F xs) := by
  have key : ∀ st', connection.disconnect c st = .ok st' →
      st'.base (.conn c) = some ⟨none, none⟩ := by
    intro st' h
    cases hb : st.base (.conn c) with
    | none =>
      simp [connection.disconnect, list_base.is_linked, getPrev, deref, hb, fail, bind,
        Except.bind] at h
    | some b0 =>
      obtain ⟨p, n⟩ := b0
      cases p with
      | none =>
        cases n with
        | none =>
          rw [disconnect_unlinked hb] at h
          cases h
          exact hb
        | some b =>
          have := htidy.mp (by simp [State.prevOf, hb])
          simp [State.nextOf, hb] at this
      | some a =>
        cases n with
        | none =>
          have := htidy.mpr (by simp [State.nextOf, hb])
          simp [State.prevOf, hb] at this
        | some b => exact disconnect_self hb h
  refine ⟨?_, ?_⟩
  · cases h : connection.disconnect c st with
    | error e => rfl
    | ok st' =>
      show connection.disconnect c st' = .ok st'
      exact disconnect_unlinked (key st' h)
  · intro st' h
    refine ⟨key st' h, ?_⟩
    intro prog F s sg xs fuel hsg ha hr hfun hfuel
    refine ⟨call_quiet prog F hsg ha hr hfun fuel hfuel, ?_⟩
    intro f hm
    simp only [invokedAll, List.mem_map] at hm
    obtain ⟨x, hx, e⟩ := hm
    simp only [Event.invoked.injEq, true_and] at e
    obtain ⟨a, b, hab⟩ := hr.1.linked_of_mem hx
    rw [e.1, key st' h] at hab
    simp at hab

theorem C10_disconnect_idempotent_witness :
    (connection.disconnect 1 abc >>= connection.disconnect 1) = connection.disconnect 1 abc ∧
    ∀ st', connection.disconnect 1 abc = .ok st' →
      st'.base (.conn 1) = some ⟨none, none⟩ :=
  ⟨(C10_disconnect_idempotent abc 1 (by decide)).1,
    fun st' h => ((C10_disconnect_idempotent abc 1 (by decide)).2 st' h).1⟩

/-- C10, as the claim has it, fails: `unlink` and `link` are public members that a
connection inherits.  In the memory `abc_d`, after `B.unlink()` and `B.link(&D)`
the connection `B` has a successor and no predecessor, and still refers to its
signal.  The first `B.disconnect()` finds it linked, unlinks nothing and clears
the back-reference; the second finds it linked again and follows the null
back-reference: twice is not once. -/
theorem C10_half_linked_second_disconnect_faults :
    ∃ st0 st1 st2, list_base.unlink (.conn 1) abc_d = .ok st0 ∧
      list_base.link (some (.conn 1)) (some (.conn 3)) st0 = .ok st1 ∧
      st1.base (.conn 1) = some ⟨none, some (.conn 3)⟩ ∧
      connection.disconnect 1 st1 = .ok st2 ∧
      connection.disconnect 1 st2 = .error ⟨.null_deref, []⟩ ∧
      (connection.disconnect 1 st1 >>= connection.disconnect 1) ≠ connection.disconnect 1 st1 :=
  ⟨_, _, _, rfl, rfl, by decide, rfl, by decide, by decide⟩
theorem target_invalidate (st : State) (h j : Nat) :
    ((st.invalidate h).holders[j]?).bind iterator_holder.target =
      (st.holders[j]?).bind iterator_holder.target := by
  unfold State.invalidate
  cases hc : (st.holders[h]?).bind iterator_holder.target with
  | none => rfl
  | some c =>
    simp only [State.setConn, State.setHolder, getElem?_upd]
    split
    · cases st.holders[j]? <;> rfl
    · rfl

theorem length_conns_invalidate (st : State) (h : Nat) :
    (st.invalidate h).conns.length = st.conns.length := by
  unfold State.invalidate
  cases (st.holders[h]?).bind iterator_holder.target <;> simp [State.setConn, State.setHolder]

theorem onConn_invalidate (st : State) (h j : Nat) :
    (st.invalidate h).onConn j ↔ st.onConn j := by
  unfold State.onConn
  rw [target_invalidate, length_conns_invalidate]

theorem chain_invalidate {st : State} {t : Option Nat} {hs : List Nat} (h : Chain st t hs)
    (j : Nat) : Chain (st.invalidate j) t hs := by
  unfold State.invalidate
  cases (st.holders[j]?).bind iterator_holder.target with
  | none => exact h
  | some c =>
    exact Chain.same_holders (h.setHolder j (fun hd => { hd with sig := none }) (fun _ => rfl))
      rfl

/-- The loop of the body of `~signal` over a chain of cursors that all designate
connections. -/
theorem dtor_loop_ok :
    ∀ (hs : List Nat) (fuel : Nat) (t : Option Nat) (st : State),
      Chain st t hs → (∀ h ∈ hs, st.onConn h) → hs.length ≤ fuel →
      signal.dtor_loop fuel t st = .ok (st.invalidated hs) := by
  intro hs
  induction hs with
  | nil =>
    intro fuel t st hc _ _
    cases t with
    | none => cases fuel <;> rfl
    | some _ => exact absurd hc (by simp [Chain])
  | cons h' hs ih =>
    intro fuel t st hc hon hf
    cases t with
    | none => exact absurd hc (by simp [Chain])
    | some i =>
      obtain ⟨n, rfl⟩ : ∃ n, fuel = n + 1 := ⟨fuel - 1, by simp at hf; omega⟩
      obtain ⟨e, h2⟩ := id hc
      subst e
      have hi := hon i (by simp)
      cases hh : st.holders[i]? with
      | none => simp [hh] at h2
      | some hd =>
        simp only [hh] at h2
        unfold State.onConn at hi
        cases hc' : (st.holders[i]?).bind iterator_holder.target with
        | none => simp [hc'] at hi
        | some c =>
          simp only [hc'] at hi
          have hcur : hd.current = some (.conn c) := by
            simp only [hh, Option.some_bind, iterator_holder.target] at hc'
            split at hc' <;> simp_all
          obtain ⟨cn, hcn⟩ : ∃ cn, st.conns[c]? = some cn :=
            ⟨_, List.getElem?_eq_getElem hi⟩
          have hstep : st.invalidate i =
              (st.setHolder i fun hd => { hd with sig := none }).setConn c
                fun cn => { cn with func := none } := by
            unfold State.invalidate
            rw [hc']
          have hh' : (st.setHolder i fun hd => { hd with sig := none }).holders[i]? =
              some { hd with sig := none } := by
            simp [State.setHolder, getElem?_upd, hh]
          have hcn' : (st.setHolder i fun hd => { hd with sig := none }).conns[c]? =
              some cn := hcn
          simp only [signal.dtor_loop, derefHolder, hh, hh', hcur, derefConn_ok hcn', bind,
            Except.bind, pure, Except.pure]
          rw [← hstep]
          have := ih n hd.prev (st.invalidate i) (chain_invalidate h2 i)
            (fun j hj => (onConn_invalidate st i j).mpr (hon j (List.mem_cons_of_mem _ hj)))
            (by simp at hf; omega)
          rw [this]
          rfl

theorem base_invalidate (st : State) (h : Nat) (p : Ptr) :
    (st.invalidate h).base p = st.base p := by
  unfold State.invalidate
  cases (st.holders[h]?).bind iterator_holder.target with
  | none => rfl
  | some c =>
    rw [base_setConn _ c (fun cn => { cn with func := none }) (fun _ => rfl)]
    cases p <;> rfl

theorem sigs_invalidate (st : State) (h : Nat) : (st.invalidate h).sigs = st.sigs := by
  unfold State.invalidate
  cases (st.holders[h]?).bind iterator_holder.target <;> rfl

theorem trace_invalidate (st : State) (h : Nat) : (st.invalidate h).trace = st.trace := by
  unfold State.invalidate
  cases (st.holders[h]?).bind iterator_holder.target <;> rfl

theorem conns_invalidate (st : State) (h x : Nat) :
    (st.invalidate h).conns[x]? =
      (st.conns[x]?).map fun cn =>
        if (st.holders[h]?).bind iterator_holder.target = some x then { cn with func := none }
        else cn := by
  unfold State.invalidate
  cases hc : (st.holders[h]?).bind iterator_holder.target with
  | none => cases st.conns[x]? <;> simp
  | some c =>
    simp only [State.setConn, State.setHolder, getElem?_upd, Option.some.injEq]
    split
    · cases st.conns[x]? <;> simp
    · cases st.conns[x]? <;> simp

theorem base_invalidated (hs : List Nat) : ∀ (st : State) (p : Ptr),
    (st.invalidated hs).base p = st.base p := by
  induction hs with
  | nil => intro st p; rfl
  | cons h hs ih =>
    intro st p
    exact (ih (st.invalidate h) p).trans (base_invalidate st h p)

theorem sigs_invalidated (hs : List Nat) : ∀ (st : State), (st.invalidated hs).sigs = st.sigs := by
  induction hs with
  | nil => intro st; rfl
  | cons h hs ih => intro st; exact (ih (st.invalidate h)).trans (sigs_invalidate st h)

theorem trace_invalidated (hs : List Nat) :
    ∀ (st : State), (st.invalidated hs).trace = st.trace := by
  induction hs with
  | nil => intro st; rfl
  | cons h hs ih => intro st; exact (ih (st.invalidate h)).trans (trace_invalidate st h)

theorem length_conns_invalidated (hs : List Nat) :
    ∀ (st : State), (st.invalidated hs).conns.length = st.conns.length := by
  induction hs with
  | nil => intro st; rfl
  | cons h hs ih =>
    intro st
    exact (ih (st.invalidate h)).trans (length_conns_invalidate st h)

/-- What the body of `~signal` does to a connection: nothing but clearing the
callable of a connection that one of the cursors designates. -/
theorem conns_invalidated (hs : List Nat) : ∀ (st : State) (x : Nat),
    (st.invalidated hs).conns[x]? =
      (st.conns[x]?).map fun cn =>
        if st.designated hs x then { cn with func := none } else cn := by
  induction hs with
  | nil =>
    intro st x
    simp [State.invalidated, State.designated]
  | cons h hs ih =>
    intro st x
    have h1 := ih (st.invalidate h) x
    have hdes : (st.invalidate h).designated hs x ↔ st.designated hs x := by
      unfold State.designated
      simp only [target_invalidate]
    simp only [State.invalidated, List.foldl_cons] at h1 ⊢
    rw [h1, conns_invalidate]
    cases st.conns[x]? with
    | none => rfl
    | some cn =>
      simp only [Option.map_some', Option.some.injEq]
      by_cases h2 : (st.holders[h]?).bind iterator_holder.target = some x
      · have : st.designated (h :: hs) x := ⟨h, by simp, h2⟩
        simp only [h2, if_true, this]
        split <;> rfl
      · have hiff : st.designated (h :: hs) x ↔ st.designated hs x := by
          constructor
          · rintro ⟨j, hj, hjt⟩
            rcases List.mem_cons.mp hj with rfl | hj
            · exact absurd hjt h2
            · exact ⟨j, hj, hjt⟩
          · rintro ⟨j, hj, hjt⟩
            exact ⟨j, List.mem_cons_of_mem _ hj, hjt⟩
        simp only [h2, if_false, hdes, hiff]

theorem Ring.length_le {st : State} {s : Nat} {xs : List Nat} (h : Ring st s xs) :
    xs.length ≤ st.conns.length := by
  have h1 : xs.toFinset ⊆ Finset.range st.conns.length := by
    intro x hx
    exact Finset.mem_range.mpr (h.1.lt_length (List.mem_toFinset.mp hx))
  have h2 := Finset.card_le_card h1
  rw [List.toFinset_card_of_nodup h.2, Finset.card_range] at h2
  exact h2

theorem empty_ok {st : State} {s : Nat} {xs : List Nat} (h : Ring st s xs) :
    list.empty s st = .ok (xs == []) := by
  obtain ⟨b, hb⟩ := base_isSome_of_nextOf h.1.link_first.1
  have hn : b.next = some (hd xs (.fake s)) := by
    simpa [State.nextOf, hb] using h.1.link_first.1
  simp only [list.empty, getNext_ok hb, hn, bind, Except.bind, pure, Except.pure]
  cases xs <;> simp [hd]

theorem Ring.head_base {st : State} {s x : Nat} {xs : List Nat} (h : Ring st s (x :: xs)) :
    st.base (.conn x) = some ⟨some (.fake s), some (hd xs (.fake s))⟩ := by
  have h0 : Seg st (.fake s) ([] ++ x :: xs) (.fake s) := h.1
  exact h0.base_mem

theorem Ring.pop {st : State} {s x : Nat} {xs : List Nat} (h : Ring st s (x :: xs)) :
    list_base.unlink (.conn x) st = .ok (st.unlinked (.conn x) (.fake s) (hd xs (.fake s))) ∧
    Ring (st.unlinked (.conn x) (.fake s) (hd xs (.fake s))) s xs := by
  have h0 : Ring st s ([] ++ x :: xs) := h
  exact h0.unlink

/-- The loop of `clear` on a ring: every element is unlinked, nothing else but
the sentinel changes. -/
theorem clear_ok (s : Nat) : ∀ (xs : List Nat) (fuel : Nat) (st : State),
    Ring st s xs → xs.length ≤ fuel →
    ∃ st', list.clear s fuel st = .ok st' ∧ Ring st' s [] ∧ st'.rest = st.rest ∧
      (∀ x ∈ xs, st'.base (.conn x) = some ⟨none, none⟩) ∧
      (∀ c, c ∉ xs → st'.base (.conn c) = st.base (.conn c)) := by
  intro xs
  induction xs with
  | nil =>
    intro fuel st hr _
    refine ⟨st, ?_, hr, rfl, by simp, fun _ _ => rfl⟩
    cases fuel <;> simp [list.clear, empty_ok hr, bind, Except.bind, pure, Except.pure]
  | cons x xs ih =>
    intro fuel st hr hf
    obtain ⟨n, rfl⟩ : ∃ n, fuel = n + 1 := ⟨fuel - 1, by simp at hf; omega⟩
    have hb := hr.head_base
    obtain ⟨hu, hr1⟩ := hr.pop
    obtain ⟨bf, hbf⟩ := base_isSome_of_nextOf hr.1.link_first.1
    have hnf : bf.next = some (.conn x) := by
      simpa [State.nextOf, hbf, hd] using hr.1.link_first.1
    have hlink : Link st (.conn x) (hd xs (.fake s)) := by
      cases xs with
      | nil => exact hr.1.2
      | cons y ys => exact hr.1.2.1
    obtain ⟨bn, hbn⟩ := base_isSome_of_prevOf hlink.2
    obtain ⟨st', h1, h2, h3, h4, h5⟩ := ih n _ hr1 (by simp at hf; omega)
    have hxs : x ∉ xs := (List.nodup_cons.mp hr.2).1
    refine ⟨st', ?_, h2, h3.trans (rest_unlinked _ _ _ _), ?_, ?_⟩
    · simp only [list.clear, empty_ok hr, bind, Except.bind, pure, Except.pure,
        list.pop_front, list.begin, getNext_ok hbf, hnf, erase_ok hb hbf hbn]
      simpa using h1
    · intro y hy
      rcases List.mem_cons.mp hy with rfl | hy
      · rw [h5 y hxs, base_unlinked hb]
        simp
      · exact h4 y hy
    · intro c hc
      have hcx : c ≠ x := fun e => hc (by simp [e])
      have hcxs : c ∉ xs := fun hm => hc (List.mem_cons_of_mem _ hm)
      rw [h5 c hcxs, base_unlinked hb]
      have h6 : Ptr.conn c ≠ Ptr.conn x := by simpa using hcx
      have h7 : Ptr.conn c ≠ hd xs (.fake s) := by
        cases xs with
        | nil => simp [hd]
        | cons y ys =>
          simp only [hd, ne_eq, Ptr.conn.injEq]
          rintro rfl
          exact hcxs (by simp)
      simp only [h6, h7, if_false, reduceCtorEq]
      cases st.base (.conn c) <;> simp

theorem base_log (st : State) (e : Event) (p : Ptr) : (st.log e).base p = st.base p := by
  cases p <;> rfl

theorem base_setSig_alive (st : State) (s : Nat) (v : Bool) (c : Nat) :
    (st.setSig s fun sg => { sg with alive := v }).base (.conn c) = st.base (.conn c) := rfl

/-- C9, as the code has it: destroying a live signal whose list is the ring `xs`,
every active cursor of the signal designating a connection, succeeds and ends the
signal's lifetime; every connection of `xs` is left with both neighbour references
null, so that its later `disconnect` changes nothing; its back-reference is left as
it was, and its callable is cleared only if one of the cursors designated it. -/
theorem C9_destroy_unlinks_connections (st : State) (s : Nat) (sg : signal) (xs hs : List Nat)
    (hsg : st.sigs[s]? = some sg) (ha : sg.alive = true) (hr : Ring st s xs)
    (hch : Chain st sg.tail hs) (hon : ∀ h ∈ hs, st.onConn h) :
    ∃ st', signal.dtor s st = .ok st' ∧
      (∃ sg', st'.sigs[s]? = some sg' ∧ sg'.alive = false) ∧
      ∀ x ∈ xs, ∀ cn, st.conns[x]? = some cn →
        st'.base (.conn x) = some ⟨none, none⟩ ∧
        (∃ cn', st'.conns[x]? = some cn' ∧ cn'.sig = cn.sig ∧
          cn'.func = if st.designated hs x then none else cn.func) ∧
        connection.disconnect x st' = .ok st' := by
  have hloop := dtor_loop_ok hs st.holders.length sg.tail st hch hon hch.bounded
  generalize hst2 : (st.invalidated hs).log (.destroyed s) = st2
  have hbase2 : ∀ u, st2.base u = st.base u := by
    intro u; rw [← hst2, base_log, base_invalidated]
  have hr2 : Ring st2 s xs := hr.same_base hbase2
  have hlen2 : st2.conns.length = st.conns.length := by
    rw [← hst2]; exact length_conns_invalidated hs st
  obtain ⟨st3, hclear, hr3, hrest3, hun3, _⟩ := clear_ok s xs st2.conns.length st2 hr2 hr2.length_le
  have hsg2 : st2.sigs[s]? = some sg := by
    rw [← hst2]
    show (st.invalidated hs).sigs[s]? = some sg
    rw [sigs_invalidated]; exact hsg
  obtain ⟨sg3, hsg3, ha3, _⟩ := rest_sigs hrest3 hsg2
  have hbf3 : st3.base (.fake s) = some ⟨some (.fake s), some (.fake s)⟩ :=
    base_of_links hr3.1.2 hr3.1.1
  have hunl := unlink_ok hbf3 hbf3 hbf3
  refine ⟨State.setSig (st3.unlinked (.fake s) (.fake s) (.fake s)) s
    fun sg => { sg with alive := false }, ?_, ?_, ?_⟩
  · simp only [signal.dtor, derefSig_ok hsg ha, hloop, hst2, hclear, hunl, bind, Except.bind,
      pure, Except.pure]
  · obtain ⟨sg4, hsg4, _, _⟩ := rest_sigs (rest_unlinked st3 (.fake s) (.fake s) (.fake s)) hsg3
    exact ⟨{ sg4 with alive := false }, by simp [State.setSig, getElem?_upd, hsg4], rfl⟩
  · intro x hx cn hcn
    have hb5 : State.base (State.setSig (st3.unlinked (.fake s) (.fake s) (.fake s)) s
        fun sg => { sg with alive := false }) (.conn x) = some ⟨none, none⟩ := by
      rw [base_setSig_alive, base_unlinked hbf3]
      simp [hun3 x hx]
    refine ⟨hb5, ?_, disconnect_unlinked hb5⟩
    have hc2 : st2.conns[x]? =
        some (if st.designated hs x then { cn with func := none } else cn) := by
      rw [← hst2]
      show (st.invalidated hs).conns[x]? = _
      rw [conns_invalidated, hcn]
      rfl
    obtain ⟨c3, hc3, hs3, hf3⟩ := rest_conns hrest3 hc2
    obtain ⟨c4, hc4, hs4, hf4⟩ :=
      rest_conns (rest_unlinked st3 (.fake s) (.fake s) (.fake s)) hc3
    refine ⟨c4, hc4, ?_, ?_⟩
    · rw [hs4, hs3]; split <;> rfl
    · rw [hf4, hf3]; split <;> rfl

theorem C9_destroy_unlinks_connections_witness :
    ∃ st', signal.dtor 0 abc_nested = .ok st' ∧
      (∃ sg', st'.sigs[0]? = some sg' ∧ sg'.alive = false) ∧
      ∀ x ∈ [2, 1, 0], ∀ cn, abc_nested.conns[x]? = some cn →
        st'.base (.conn x) = some ⟨none, none⟩ ∧
        (∃ cn', st'.conns[x]? = some cn' ∧ cn'.sig = cn.sig ∧
          cn'.func = if abc_nested.designated [1, 0] x then none else cn.func) ∧
        connection.disconnect x st' = .ok st' :=
  C9_destroy_unlinks_connections abc_nested 0 ⟨⟨some (.conn 0), some (.conn 2)⟩, some 1, true⟩
    [2, 1, 0] [1, 0] rfl rfl (by decide) (by decide) (by decide)

/-- C9, as the claim has it, fails: after the signal of the memory `abc` is
destroyed, `B` still stores its callable 11 and still refers to signal 0. -/
theorem C9_callable_and_reference_kept :
    ∃ st', signal.dtor 0 abc = .ok st' ∧
      st'.conns[1]? = some ⟨⟨none, none⟩, some 0, some 11⟩ :=
  ⟨_, rfl, by decide⟩
theorem bind_ok {α β : Type} {x : Res α} {f : α → Res β} {b : β}
    (h : (x >>= f) = .ok b) : ∃ a, x = .ok a ∧ f a = .ok b := by
  cases x with
  | error e => cases h
  | ok a => exact ⟨a, rfl, h⟩

theorem skel_setBase (st : State) (z : Ptr) (f : list_base → list_base) :
    (st.setBase z f).skel = st.skel := by
  cases z with
  | conn c => rfl
  | fake s =>
    simp only [State.setBase, State.skel, State.setSig]
    congr 2
    exact map_upd_eq _ _ _ _ (fun _ => rfl)

theorem skel_setConn (st : State) (c : Nat) (f : connection → connection) :
    (st.setConn c f).skel = st.skel := rfl

theorem skel_setHolder (st : State) (h : Nat) (f : iterator_holder → iterator_holder)
    (hf : ∀ hd, (f hd).sig = hd.sig ∧ (f hd).prev = hd.prev) :
    (st.setHolder h f).skel = st.skel := by
  simp only [State.setHolder, State.skel]
  congr 1
  exact map_upd_eq _ _ _ _ (fun x => by rw [(hf x).1, (hf x).2])

theorem skel_setPrev {st st' : State} {p v : Option Ptr} (h : setPrev p v st = .ok st') :
    st'.skel = st.skel := by
  obtain ⟨q, b, _, _, rfl⟩ := setPrev_inv h
  exact skel_setBase _ _ _

theorem skel_setNext {st st' : State} {p v : Option Ptr} (h : setNext p v st = .ok st') :
    st'.skel = st.skel := by
  obtain ⟨q, b, _, _, rfl⟩ := setNext_inv h
  exact skel_setBase _ _ _

theorem skel_unlink {st st' : State} {p : Ptr} (h : list_base.unlink p st = .ok st') :
    st'.skel = st.skel := by
  unfold list_base.unlink at h
  obtain ⟨pv, _, h⟩ := bind_ok h
  obtain ⟨nx, _, h⟩ := bind_ok h
  split at h
  · obtain ⟨s1, h1, h⟩ := bind_ok h
    obtain ⟨_, _, h⟩ := bind_ok h
    obtain ⟨_, _, h⟩ := bind_ok h
    obtain ⟨s2, h2, h⟩ := bind_ok h
    obtain ⟨s3, h3, h⟩ := bind_ok h
    rw [skel_setNext h, skel_setPrev h3, skel_setPrev h2, skel_setNext h1]
  · cases h; rfl

theorem skel_link {st st' : State} {p x : Option Ptr} (h : list_base.link p x st = .ok st') :
    st'.skel = st.skel := by
  unfold list_base.link at h
  obtain ⟨s1, h1, h⟩ := bind_ok h
  rw [skel_setPrev h, skel_setNext h1]

theorem skel_insert {st : State} {pos : Option Ptr} {val : Ptr} {r : Option Ptr × State}
    (h : list.insert pos val st = .ok r) : r.2.skel = st.skel := by
  unfold list.insert at h
  dsimp only at h
  split at h
  · obtain ⟨s1, h1, h⟩ := bind_ok h
    obtain ⟨_, _, h⟩ := bind_ok h
    obtain ⟨s2, h2, h⟩ := bind_ok h
    obtain ⟨s3, h3, h⟩ := bind_ok h
    cases h
    rw [skel_link h3, skel_link h2, skel_unlink h1]
  · cases h; rfl

theorem skel_erase {st : State} {pos : Option Ptr} {r : Option Ptr × State}
    (h : list.erase pos st = .ok r) : r.2.skel = st.skel := by
  unfold list.erase at h
  obtain ⟨_, _, h⟩ := bind_ok h
  obtain ⟨_, _, h⟩ := bind_ok h
  obtain ⟨s1, h1, h⟩ := bind_ok h
  cases h
  exact skel_unlink h1

theorem skel_push_front {st st' : State} {s : Nat} {x : Ptr}
    (h : list.push_front s x st = .ok st') : st'.skel = st.skel := by
  unfold list.push_front at h
  obtain ⟨_, _, h⟩ := bind_ok h
  obtain ⟨r, h1, h⟩ := bind_ok h
  cases h
  exact skel_insert h1

theorem skel_pop_front {st st' : State} {s : Nat}
    (h : list.pop_front s st = .ok st') : st'.skel = st.skel := by
  unfold list.pop_front at h
  obtain ⟨_, _, h⟩ := bind_ok h
  obtain ⟨r, h1, h⟩ := bind_ok h
  cases h
  exact skel_erase h1

theorem skel_clear (s : Nat) : ∀ (fuel : Nat) (st st' : State),
    list.clear s fuel st = .ok st' → st'.skel = st.skel := by
  intro fuel
  induction fuel with
  | zero =>
    intro st st' h
    unfold list.clear at h
    obtain ⟨b, _, h⟩ := bind_ok h
    split at h
    · cases h; rfl
    · cases h
  | succ n ih =>
    intro st st' h
    unfold list.clear at h
    obtain ⟨b, _, h⟩ := bind_ok h
    split at h
    · cases h; rfl
    · obtain ⟨s1, h1, h⟩ := bind_ok h
      rw [ih _ _ h, skel_pop_front h1]

theorem skel_replace_loop (this : Nat) (old : Ptr) :
    ∀ (fuel : Nat) (t : Option Nat) (st st' : State),
      connection.replace_loop this old fuel t st = .ok st' → st'.skel = st.skel := by
  intro fuel
  induction fuel with
  | zero =>
    intro t st st' h
    cases t with
    | none => cases h; rfl
    | some i => cases h
  | succ n ih =>
    intro t st st' h
    cases t with
    | none => cases h; rfl
    | some i =>
      unfold connection.replace_loop at h
      obtain ⟨hd, _, h⟩ := bind_ok h
      rw [ih _ _ _ h]
      split
      · exact skel_setHolder _ _ _ (fun _ => ⟨rfl, rfl⟩)
      · rfl

theorem skel_replace {this : Nat} {old : Ptr} {st st' : State}
    (h : connection.replace_connections_by_iterator this old st = .ok st') :
    st'.skel = st.skel := by
  unfold connection.replace_connections_by_iterator at h
  obtain ⟨_, _, h⟩ := bind_ok h
  obtain ⟨_, _, h⟩ := bind_ok h
  exact skel_replace_loop _ _ _ _ _ _ h

theorem skel_disconnect {c : Nat} {st st' : State}
    (h : connection.disconnect c st = .ok st') : st'.skel = st.skel := by
  unfold connection.disconnect at h
  obtain ⟨b, _, h⟩ := bind_ok h
  split at h
  · obtain ⟨s1, h1, h⟩ := bind_ok h
    obtain ⟨s2, h2, h⟩ := bind_ok h
    cases h
    rw [skel_setConn, skel_replace h2, skel_unlink h1]
  · cases h; rfl

theorem skel_replace_connection {a b : Nat} {st st' : State}
    (h : connection.replace_connection a b st = .ok st') : st'.skel = st.skel := by
  unfold connection.replace_connection at h
  obtain ⟨_, _, h⟩ := bind_ok h
  obtain ⟨_, _, h⟩ := bind_ok h
  obtain ⟨_, _, h⟩ := bind_ok h
  obtain ⟨l, _, h⟩ := bind_ok h
  split at h
  · obtain ⟨_, _, h⟩ := bind_ok h
    obtain ⟨_, _, h⟩ := bind_ok h
    obtain ⟨r1, h1, h⟩ := bind_ok h
    obtain ⟨s2, h2, h⟩ := bind_ok h
    obtain ⟨r3, h3, h⟩ := bind_ok h
    cases h
    rw [skel_erase h3, skel_replace h2, skel_insert h1]
    rfl
  · cases h; rfl

theorem skel_move_ctor {b : Nat} {st : State} {r : Nat × State}
    (h : connection.move_ctor b st = .ok r) : r.2.skel = st.skel := by
  unfold connection.move_ctor at h
  obtain ⟨s1, h1, h⟩ := bind_ok h
  cases h
  rw [skel_replace_connection h1]
  rfl

theorem skel_move_assign {a b : Nat} {st st' : State}
    (h : connection.move_assign a b st = .ok st') : st'.skel = st.skel := by
  unfold connection.move_assign at h
  split at h
  · exact skel_replace_connection h
  · cases h; rfl

theorem skel_connect {s f : Nat} {st : State} {r : Nat × State}
    (h : signal.connect s f st = .ok r) : r.2.skel = st.skel := by
  unfold signal.connect at h
  obtain ⟨_, _, h⟩ := bind_ok h
  unfold connection.ctor at h
  obtain ⟨_, _, h⟩ := bind_ok h
  obtain ⟨s1, h1, h⟩ := bind_ok h
  cases h
  rw [skel_push_front h1]
  rfl

theorem skel_holder {st st' : State} (h : st'.skel = st.skel) {i : Nat} {hd : iterator_holder}
    (hh : st.holders[i]? = some hd) :
    ∃ hd', st'.holders[i]? = some hd' ∧ hd'.sig = hd.sig ∧ hd'.prev = hd.prev := by
  have h1 : (st'.holders.map fun h => (h.sig, h.prev))[i]? =
      (st.holders.map fun h => (h.sig, h.prev))[i]? := by
    have := congrArg Prod.fst h
    simp only [State.skel] at this
    rw [this]
  simp only [List.getElem?_map, hh, Option.map_some'] at h1
  cases h2 : st'.holders[i]? with
  | none => simp [h2] at h1
  | some hd' =>
    simp only [h2, Option.map_some', Option.some.injEq, Prod.mk.injEq] at h1
    exact ⟨hd', rfl, h1.1, h1.2⟩

theorem skel_sig {st st' : State} (h : st'.skel = st.skel) {s : Nat} {sg : signal}
    (hs : st.sigs[s]? = some sg) :
    ∃ sg', st'.sigs[s]? = some sg' ∧ sg'.tail = sg.tail ∧ sg'.alive = sg.alive := by
  have h1 : (st'.sigs.map fun g => (g.tail, g.alive))[s]? =
      (st.sigs.map fun g => (g.tail, g.alive))[s]? := by
    have := congrArg (fun x => x.2.1) h
    simp only [State.skel] at this
    rw [this]
  simp only [List.getElem?_map, hs, Option.map_some'] at h1
  cases h2 : st'.sigs[s]? with
  | none => simp [h2] at h1
  | some sg' =>
    simp only [h2, Option.map_some', Option.some.injEq, Prod.mk.injEq] at h1
    exact ⟨sg', rfl, h1.1, h1.2⟩

theorem skel_trace {st st' : State} (h : st'.skel = st.skel) : st'.trace = st.trace :=
  congrArg (fun x => x.2.2) h

theorem skel_length {st st' : State} (h : st'.skel = st.skel) :
    st'.holders.length = st.holders.length := by
  have := congrArg (fun x => x.1.length) h
  simpa [State.skel] using this

/-- A chain survives any change that keeps the `prev` of its cursors. -/
theorem Chain.of_prev {st st' : State} {t : Option Nat} {hs : List Nat} (h : Chain st t hs)
    (hp : ∀ i ∈ hs, ∀ hd, st.holders[i]? = some hd →
      ∃ hd', st'.holders[i]? = some hd' ∧ hd'.prev = hd.prev) : Chain st' t hs := by
  induction hs generalizing t with
  | nil =>
    cases t with
    | none => trivial
    | some _ => exact h
  | cons x xs ih =>
    cases t with
    | none => exact h
    | some i =>
      obtain ⟨e, h2⟩ := h
      subst e
      refine ⟨rfl, ?_⟩
      cases hh : st.holders[i]? with
      | none => simp [hh] at h2
      | some hd =>
        simp only [hh] at h2
        obtain ⟨hd', h3, h4⟩ := hp i (by simp) hd hh
        rw [h3]
        simp only [h4]
        exact ih h2 (fun j hj => hp j (List.mem_cons_of_mem _ hj))

theorem Coherent.of_skel {st st' : State} (h : st'.skel = st.skel) (hi : Coherent st) : Coherent st' := by
  have hsym : st.skel = st'.skel := h.symm
  refine ⟨?_, ?_, ?_, ?_⟩
  · intro i hd' s hh hs
    obtain ⟨hd, h1, h2, _⟩ := skel_holder hsym hh
    obtain ⟨sg, h3, h4⟩ := hi.live i hd s h1 (h2.trans hs)
    obtain ⟨sg', h5, _, h6⟩ := skel_sig h h3
    exact ⟨sg', h5, h6.trans h4⟩
  · intro s sg' hs ha
    obtain ⟨sg, h1, h2, h3⟩ := skel_sig hsym hs
    obtain ⟨hs0, c1, c2, c3⟩ := hi.chain s sg h1 (h3.trans ha)
    refine ⟨hs0, ?_, c2, ?_⟩
    · rw [← h2]
      exact c1.of_prev (fun i _ hd hh => by
        obtain ⟨hd', h4, _, h5⟩ := skel_holder h hh
        exact ⟨hd', h4, h5⟩)
    · intro i
      rw [c3 i]
      constructor
      · rintro ⟨hd, h4, h5⟩
        obtain ⟨hd', h6, h7, _⟩ := skel_holder h h4
        exact ⟨hd', h6, h7.trans h5⟩
      · rintro ⟨hd', h4, h5⟩
        obtain ⟨hd, h6, h7, _⟩ := skel_holder hsym h4
        exact ⟨hd, h6, h7.trans h5⟩
  · intro s sg' hm hs
    obtain ⟨sg, h1, _, h3⟩ := skel_sig hsym hs
    rw [skel_trace h] at hm
    rw [← h3]
    exact hi.dead s sg hm h1
  · rw [skel_trace h]
    exact hi.quiet

theorem Mono.refl (st : State) : Mono st st :=
  ⟨rfl, fun _ hd h => ⟨hd, h, Or.inl rfl⟩⟩

theorem Mono.trans {a b c : State} (h1 : Mono a b) (h2 : Mono b c) : Mono a c := by
  refine ⟨h2.1.trans h1.1, ?_⟩
  intro i hd hh
  obtain ⟨hd1, h3, h4⟩ := h1.2 i hd hh
  obtain ⟨hd2, h5, h6⟩ := h2.2 i hd1 h3
  refine ⟨hd2, h5, ?_⟩
  rcases h6 with h6 | h6
  · rcases h4 with h4 | h4
    · exact Or.inl (h6.trans h4)
    · exact Or.inr (h6.trans h4)
  · exact Or.inr h6

theorem Mono.same_skel {st st' : State} (h : st'.skel = st.skel) : Mono st st' := by
  refine ⟨skel_length h, ?_⟩
  intro i hd hh
  obtain ⟨hd', h1, h2, _⟩ := skel_holder h hh
  exact ⟨hd', h1, Or.inl h2⟩

theorem quiescent_snoc {tr : List Event} {e : Event} (h : Quiescent tr)
    (he : ∀ s c f, e = Event.invoked (some s) c f → Event.destroyed s ∉ tr) :
    Quiescent (tr ++ [e]) := by
  intro pre post s c f heq hm
  rcases List.eq_nil_or_concat post with rfl | ⟨post', x, hpost⟩
  · simp at hm
  · rw [List.concat_eq_append] at hpost
    subst hpost
    have h1 : tr ++ [e] = (pre ++ Event.destroyed s :: post') ++ [x] := by
      rw [heq]; simp
    obtain ⟨h2, h3⟩ := List.append_inj' h1 rfl
    rcases List.mem_append.mp hm with hm | hm
    · exact h pre post' s c f h2 hm
    · simp only [List.mem_singleton] at hm
      have h4 : e = Event.invoked (some s) c f := by
        simp only [List.cons.injEq, and_true] at h3
        rw [h3, hm]
      exact he s c f h4 (by rw [h2]; simp)

theorem holders_enter_lt {st : State} {s : Nat} {q : Option Ptr} {t : Option Nat} {i : Nat}
    (hi : i < st.holders.length) : (st.enter s q t).holders[i]? = st.holders[i]? := by
  rw [holders_enter, List.getElem?_append_left hi]

theorem holders_enter_top (st : State) (s : Nat) (q : Option Ptr) (t : Option Nat) :
    (st.enter s q t).holders[st.holders.length]? = some ⟨some s, q, t⟩ := by
  simp

theorem sigs_enter_ne {st : State} {s z : Nat} (q : Option Ptr) (t : Option Nat)
    (h : z ≠ s) : (st.enter s q t).sigs[z]? = st.sigs[z]? := by
  simp [State.enter, State.setSig, getElem?_upd, Ne.symm h]

theorem index_lt_of_getElem? {α : Type} {l : List α} {i : Nat} {x : α}
    (h : l[i]? = some x) : i < l.length := by
  by_contra hlt
  rw [List.getElem?_eq_none (by omega)] at h
  cases h

theorem holder_lt {st : State} {i : Nat} {hd : iterator_holder}
    (h : st.holders[i]? = some hd) : i < st.holders.length :=
  index_lt_of_getElem? h

/-- Pushing the cursor of a new dispatch of a live signal keeps the machinery
coherent. -/
theorem Coherent.enter {st : State} {s : Nat} {sg : signal} (hi : Coherent st)
    (hs : st.sigs[s]? = some sg) (ha : sg.alive = true) (q : Option Ptr) :
    Coherent (st.enter s q sg.tail) := by
  have hget : ∀ i hd, (st.enter s q sg.tail).holders[i]? = some hd →
      (i < st.holders.length ∧ st.holders[i]? = some hd) ∨
      (i = st.holders.length ∧ hd = ⟨some s, q, sg.tail⟩) := by
    intro i hd h
    have hlt := holder_lt h
    simp only [holders_enter, List.length_append, List.length_singleton] at hlt
    rcases Nat.lt_or_ge i st.holders.length with h1 | h1
    · left
      rw [holders_enter_lt h1] at h
      exact ⟨h1, h⟩
    · right
      have : i = st.holders.length := by omega
      subst this
      rw [holders_enter_top] at h
      exact ⟨rfl, (Option.some.inj h).symm⟩
  have halive : ∀ (z : Nat) (g : signal), st.sigs[z]? = some g → g.alive = true →
      ∃ g' : signal, (st.enter s q sg.tail).sigs[z]? = some g' ∧ g'.alive = true := by
    intro z g hz hga
    by_cases hzs : z = s
    · subst hzs
      exact ⟨_, sigs_enter hz _ _, hga⟩
    · exact ⟨g, by rw [sigs_enter_ne q sg.tail hzs]; exact hz, hga⟩
  refine ⟨?_, ?_, ?_, ?_⟩
  · intro i hd z hh hz
    rcases hget i hd hh with ⟨_, h1⟩ | ⟨_, h1⟩
    · obtain ⟨g, h2, h3⟩ := hi.live i hd z h1 hz
      exact halive z g h2 h3
    · subst h1
      cases hz
      exact halive _ sg hs ha
  · intro z g' hz hga
    by_cases hzs : z = s
    · subst hzs
      rw [sigs_enter hs] at hz
      cases hz
      obtain ⟨hs0, c1, c2, c3⟩ := hi.chain z sg hs ha
      have hlt : ∀ i ∈ hs0, i < st.holders.length := c1.index_lt
      refine ⟨st.holders.length :: hs0, ?_, ?_, ?_⟩
      · refine ⟨rfl, ?_⟩
        rw [holders_enter_top]
        exact c1.of_prev (fun i hi' hd hh =>
          ⟨hd, by rw [holders_enter_lt (hlt i hi')]; exact hh, rfl⟩)
      · exact List.sorted_cons.mpr ⟨fun b hb => hlt b hb, c2⟩
      · intro i
        constructor
        · intro hm
          rcases List.mem_cons.mp hm with rfl | hm
          · exact ⟨_, holders_enter_top _ _ _ _, rfl⟩
          · obtain ⟨hd, h1, h2⟩ := (c3 i).mp hm
            exact ⟨hd, by rw [holders_enter_lt (hlt i hm)]; exact h1, h2⟩
        · rintro ⟨hd, h1, h2⟩
          rcases hget i hd h1 with ⟨_, h3⟩ | ⟨h3, _⟩
          · exact List.mem_cons_of_mem _ ((c3 i).mpr ⟨hd, h3, h2⟩)
          · rw [h3]; exact List.mem_cons_self _ _
    · rw [sigs_enter_ne q sg.tail hzs] at hz
      obtain ⟨hs0, c1, c2, c3⟩ := hi.chain z g' hz hga
      have hlt : ∀ i ∈ hs0, i < st.holders.length := c1.index_lt
      refine ⟨hs0, ?_, c2, ?_⟩
      · exact c1.of_prev (fun i hi' hd hh =>
          ⟨hd, by rw [holders_enter_lt (hlt i hi')]; exact hh, rfl⟩)
      · intro i
        constructor
        · intro hm
          obtain ⟨hd, h1, h2⟩ := (c3 i).mp hm
          exact ⟨hd, by rw [holders_enter_lt (hlt i hm)]; exact h1, h2⟩
        · rintro ⟨hd, h1, h2⟩
          rcases hget i hd h1 with ⟨_, h3⟩ | ⟨_, h3⟩
          · exact (c3 i).mpr ⟨hd, h3, h2⟩
          · subst h3
            simp only [Option.some.injEq] at h2
            exact absurd h2.symm hzs
  · intro z g' hm hz
    by_cases hzs : z = s
    · subst hzs
      rw [sigs_enter hs] at hz
      cases hz
      exact hi.dead z sg hm hs
    · rw [sigs_enter_ne q sg.tail hzs] at hz
      exact hi.dead z g' hm hz
  · exact hi.quiet
theorem Coherent.with_trace {st : State} (hi : Coherent st) (tr : List Event)
    (hd : ∀ (s : Nat) (sg : signal), Event.destroyed s ∈ tr → st.sigs[s]? = some sg →
      sg.alive = false)
    (hq : Quiescent tr) : Coherent { st with trace := tr } := by
  refine ⟨hi.live, ?_, hd, hq⟩
  intro s sg hs ha
  obtain ⟨hs0, c1, c2, c3⟩ := hi.chain s sg hs ha
  exact ⟨hs0, c1.of_prev (fun i _ h hh => ⟨h, hh, rfl⟩), c2, c3⟩

/-- Logging a callable run by a dispatch of a live signal keeps the machinery
coherent. -/
theorem Coherent.log_invoked {st : State} {s : Nat} {sg : signal} (hi : Coherent st)
    (hs : st.sigs[s]? = some sg) (ha : sg.alive = true) (c f : Nat) :
    Coherent (st.log (.invoked (some s) c f)) := by
  refine hi.with_trace _ ?_ ?_
  · intro z g hm hz
    simp only [List.mem_append, List.mem_singleton, reduceCtorEq, or_false] at hm
    exact hi.dead z g hm hz
  · refine quiescent_snoc hi.quiet ?_
    intro z c' f' e hm
    simp only [Event.invoked.injEq, Option.some.injEq] at e
    obtain ⟨rfl, _, _⟩ := e
    have := hi.dead s sg hm hs
    rw [ha] at this
    cases this

theorem getElem?_append_top {α : Type} (l : List α) (a : α) (i : Nat) (x : α)
    (h : (l ++ [a])[i]? = some x) : (i < l.length ∧ l[i]? = some x) ∨ (i = l.length ∧ x = a) := by
  rcases Nat.lt_trichotomy i l.length with h1 | h1 | h1
  · left
    rw [List.getElem?_append_left h1] at h
    exact ⟨h1, h⟩
  · right
    subst h1
    simp at h
    exact ⟨rfl, h.symm⟩
  · rw [List.getElem?_eq_none (by simp; omega)] at h
    cases h

/-- Popping a top cursor that no chain uses keeps every chain. -/
theorem chain_pop {st : State} {hs0 : List iterator_holder} {hd : iterator_holder}
    (hh : st.holders = hs0 ++ [hd]) {t : Option Nat} {hs : List Nat} (h : Chain st t hs)
    (hn : hs0.length ∉ hs) (sigs : List signal) :
    Chain { st with holders := hs0, sigs := sigs } t hs := by
  refine h.of_prev ?_
  intro i hi x hx
  rw [hh] at hx
  rcases getElem?_append_top _ _ _ _ hx with ⟨_, h1⟩ | ⟨h1, _⟩
  · exact ⟨x, h1, rfl⟩
  · subst h1
    exact absurd hi hn

/-- Popping a top cursor whose signal reference was cleared keeps the machinery
coherent. -/
theorem Coherent.pop_none {st : State} {hs0 : List iterator_holder} {hd : iterator_holder}
    (hi : Coherent st) (hh : st.holders = hs0 ++ [hd]) (hsig : hd.sig = none) :
    Coherent { st with holders := hs0 } := by
  have hold : ∀ (i : Nat) (x : iterator_holder), hs0[i]? = some x →
      st.holders[i]? = some x := by
    intro i x hx
    rw [hh, List.getElem?_append_left (index_lt_of_getElem? hx)]
    exact hx
  have htop : st.holders[hs0.length]? = some hd := by rw [hh]; simp
  refine ⟨?_, ?_, hi.dead, hi.quiet⟩
  · intro i x z hx hz
    exact hi.live i x z (hold i x hx) hz
  · intro z g hz hga
    obtain ⟨hs, c1, c2, c3⟩ := hi.chain z g hz hga
    have hn : hs0.length ∉ hs := by
      intro hm
      obtain ⟨x, h1, h2⟩ := (c3 _).mp hm
      rw [htop] at h1
      cases h1
      rw [hsig] at h2
      cases h2
    refine ⟨hs, chain_pop hh c1 hn st.sigs, c2, ?_⟩
    intro i
    rw [c3 i]
    constructor
    · rintro ⟨x, h1, h2⟩
      rw [hh] at h1
      rcases getElem?_append_top _ _ _ _ h1 with ⟨_, h3⟩ | ⟨_, h3⟩
      · exact ⟨x, h3, h2⟩
      · subst h3
        rw [hsig] at h2
        cases h2
    · rintro ⟨x, h1, h2⟩
      exact ⟨x, hold i x h1, h2⟩

/-- Popping the top cursor of a live signal: it is the head of the signal's
chain, and the machinery stays coherent. -/
theorem Coherent.pop_some {st : State} {hs0 : List iterator_holder} {hd : iterator_holder}
    {s : Nat} (hi : Coherent st) (hh : st.holders = hs0 ++ [hd]) (hsig : hd.sig = some s) :
    ∃ sg, st.sigs[s]? = some sg ∧ sg.alive = true ∧ sg.tail = some hs0.length ∧
      Coherent { st with
        holders := hs0
        sigs := upd st.sigs s fun g => { g with tail := hd.prev } } := by
  have hold : ∀ (i : Nat) (x : iterator_holder), hs0[i]? = some x →
      st.holders[i]? = some x := by
    intro i x hx
    rw [hh, List.getElem?_append_left (index_lt_of_getElem? hx)]
    exact hx
  have htop : st.holders[hs0.length]? = some hd := by rw [hh]; simp
  have hlen : st.holders.length = hs0.length + 1 := by rw [hh]; simp
  obtain ⟨sg, hsg, ha⟩ := hi.live _ hd s htop hsig
  obtain ⟨hs, c1, c2, c3⟩ := hi.chain s sg hsg ha
  have hmem : hs0.length ∈ hs := (c3 _).mpr ⟨hd, htop, hsig⟩
  -- the head of the chain is the top cursor
  obtain ⟨rest, rfl, htail⟩ : ∃ rest, hs = hs0.length :: rest ∧ sg.tail = some hs0.length := by
    cases hs with
    | nil => simp at hmem
    | cons t rest =>
      cases htl : sg.tail with
      | none => rw [htl] at c1; exact absurd c1 (by simp [Chain])
      | some t' =>
        rw [htl] at c1
        obtain ⟨e, _⟩ := id c1
        subst e
        have h1 : t' < st.holders.length := Chain.index_lt c1 t' (by simp)
        have h2 : hs0.length ≤ t' := by
          rcases List.mem_cons.mp hmem with h | h
          · omega
          · exact Nat.le_of_lt ((List.sorted_cons.mp c2).1 _ h)
        have : t' = hs0.length := by omega
        subst this
        exact ⟨rest, rfl, rfl⟩
  have hrest : Chain st hd.prev rest := by
    rw [htail] at c1
    obtain ⟨_, h2⟩ := c1
    rw [htop] at h2
    exact h2
  have hsorted := List.sorted_cons.mp c2
  have hnrest : hs0.length ∉ rest := fun hm => Nat.lt_irrefl _ (hsorted.1 _ hm)
  have hsigs : ∀ z, z ≠ s →
      (upd st.sigs s fun g => { g with tail := hd.prev })[z]? = st.sigs[z]? := by
    intro z hz
    simp [getElem?_upd, Ne.symm hz]
  have hsigs_s : (upd st.sigs s fun g => { g with tail := hd.prev })[s]? =
      some { sg with tail := hd.prev } := by
    simp [getElem?_upd, hsg]
  refine ⟨sg, hsg, ha, htail, ⟨?_, ?_, ?_, hi.quiet⟩⟩
  · intro i x z hx hz
    obtain ⟨g, h1, h2⟩ := hi.live i x z (hold i x hx) hz
    by_cases hzs : z = s
    · subst hzs
      exact ⟨_, hsigs_s, ha⟩
    · exact ⟨g, by rw [← h1]; exact hsigs z hzs, h2⟩
  · intro z g hz hga
    by_cases hzs : z = s
    · subst hzs
      have hz' : (upd st.sigs z fun g => { g with tail := hd.prev })[z]? = some g := hz
      rw [hsigs_s] at hz'
      cases hz'
      refine ⟨rest, chain_pop hh hrest hnrest _, hsorted.2, ?_⟩
      intro i
      constructor
      · intro hm
        obtain ⟨x, h1, h2⟩ := (c3 i).mp (List.mem_cons_of_mem _ hm)
        rw [hh] at h1
        rcases getElem?_append_top _ _ _ _ h1 with ⟨_, h3⟩ | ⟨h3, _⟩
        · exact ⟨x, h3, h2⟩
        · subst h3
          exact absurd hm hnrest
      · rintro ⟨x, h1, h2⟩
        have h3 : i < hs0.length := index_lt_of_getElem? h1
        rcases List.mem_cons.mp ((c3 i).mpr ⟨x, hold i x h1, h2⟩) with h | h
        · omega
        · exact h
    · have hz' : st.sigs[z]? = some g := by rw [← hsigs z hzs]; exact hz
      obtain ⟨hsz, d1, d2, d3⟩ := hi.chain z g hz' hga
      have hn : hs0.length ∉ hsz := by
        intro hm
        obtain ⟨x, h1, h2⟩ := (d3 _).mp hm
        rw [htop] at h1
        cases h1
        rw [hsig] at h2
        exact hzs (Option.some.inj h2).symm
      refine ⟨hsz, chain_pop hh d1 hn _, d2, ?_⟩
      intro i
      rw [d3 i]
      constructor
      · rintro ⟨x, h1, h2⟩
        rw [hh] at h1
        rcases getElem?_append_top _ _ _ _ h1 with ⟨_, h3⟩ | ⟨_, h3⟩
        · exact ⟨x, h3, h2⟩
        · subst h3
          rw [hsig] at h2
          exact absurd (Option.some.inj h2).symm hzs
      · rintro ⟨x, h1, h2⟩
        exact ⟨x, hold i x h1, h2⟩
  · intro z g hm hz
    by_cases hzs : z = s
    · subst hzs
      have hz' : (upd st.sigs z fun g => { g with tail := hd.prev })[z]? = some g := hz
      rw [hsigs_s] at hz'
      cases hz'
      exact hi.dead z sg hm hsg
    · have hz' : st.sigs[z]? = some g := by rw [← hsigs z hzs]; exact hz
      exact hi.dead z g hm hz'

theorem derefSig_inv {st : State} {t : Option Nat} {r : Nat × signal}
    (h : derefSig st t = .ok r) : t = some r.1 ∧ st.sigs[r.1]? = some r.2 ∧ r.2.alive = true := by
  cases t with
  | none => cases h
  | some s =>
    simp only [derefSig] at h
    cases hs : st.sigs[s]? with
    | none => simp [hs, fail] at h
    | some sg =>
      simp only [hs] at h
      split at h
      · rename_i ha
        cases h
        exact ⟨rfl, hs, ha⟩
      · cases h

theorem derefHolder_inv {st : State} {i : Nat} {hd : iterator_holder}
    (h : derefHolder st i = .ok hd) : st.holders[i]? = some hd := by
  simp only [derefHolder] at h
  cases hh : st.holders[i]? with
  | none => simp [hh, fail] at h
  | some x =>
    simp only [hh, pure, Except.pure, Except.ok.injEq] at h
    rw [h]

/-- What a successful run of the loop of `~signal` does to the cursors: those of
the chain lose their signal reference, nothing else of the machinery changes. -/
theorem dtor_loop_inv : ∀ (hs : List Nat) (fuel : Nat) (t : Option Nat) (st st1 : State),
    Chain st t hs → signal.dtor_loop fuel t st = .ok st1 →
    st1.sigs = st.sigs ∧ st1.trace = st.trace ∧
    st1.holders.length = st.holders.length ∧
    ∀ (i : Nat) (hd : iterator_holder), st.holders[i]? = some hd →
      ∃ hd' : iterator_holder, st1.holders[i]? = some hd' ∧ hd'.prev = hd.prev ∧
        hd'.sig = if i ∈ hs then none else hd.sig := by
  intro hs
  induction hs with
  | nil =>
    intro fuel t st st1 hc h
    cases t with
    | some _ => exact absurd hc (by simp [Chain])
    | none =>
      have : st1 = st := by
        cases fuel <;> simp [signal.dtor_loop, pure, Except.pure] at h <;> exact h.symm
      subst this
      exact ⟨rfl, rfl, rfl, fun i hd hh => ⟨hd, hh, rfl, by simp⟩⟩
  | cons x xs ih =>
    intro fuel t st st1 hc h
    cases t with
    | none => exact absurd hc (by simp [Chain])
    | some j =>
      obtain ⟨e, h2⟩ := hc
      subst e
      cases fuel with
      | zero => cases h
      | succ n =>
        unfold signal.dtor_loop at h
        obtain ⟨hd0, hd0eq, h⟩ := bind_ok h
        have hj := derefHolder_inv hd0eq
        rw [hj] at h2
        simp only at h2
        dsimp only at h
        obtain ⟨_, _, h⟩ := bind_ok h
        obtain ⟨r, _, h⟩ := bind_ok h
        have hc' : Chain (State.setConn (st.setHolder j fun h => { h with sig := none }) r.1
            fun cn => { cn with func := none }) hd0.prev xs := by
          refine h2.of_prev ?_
          intro i _ hd hh
          simp only [State.setConn, State.setHolder, getElem?_upd]
          split
          · exact ⟨{ hd with sig := none }, by rw [hh]; rfl, rfl⟩
          · exact ⟨hd, hh, rfl⟩
        obtain ⟨i1, i2, i3, i4⟩ := ih n hd0.prev _ st1 hc' h
        refine ⟨i1, i2, by simpa [State.setConn, State.setHolder] using i3, ?_⟩
        intro i hd hh
        have hmid : ∃ hm : iterator_holder,
            (State.setConn (st.setHolder j fun h => { h with sig := none }) r.1
              fun cn => { cn with func := none }).holders[i]? = some hm ∧
            hm.prev = hd.prev ∧ hm.sig = if i = j then none else hd.sig := by
          simp only [State.setConn, State.setHolder, getElem?_upd]
          by_cases hij : j = i
          · subst hij
            exact ⟨{ hd with sig := none }, by simp [hh], rfl, by simp⟩
          · exact ⟨hd, by simp [hij, hh], rfl, by simp [Ne.symm hij]⟩
        obtain ⟨hm, m1, m2, m3⟩ := hmid
        obtain ⟨hd', d1, d2, d3⟩ := i4 i hm m1
        refine ⟨hd', d1, d2.trans m2, ?_⟩
        rw [d3, m3]
        by_cases hij : i = j
        · simp [hij]
        · by_cases hix : i ∈ xs <;> simp [hij, hix]
/-- Destroying a signal keeps the machinery coherent: its cursors lose their
signal reference, its destruction is logged, and it is dead. -/
theorem Coherent.destroy {st st' : State} {s : Nat} (hi : Coherent st)
    (h : signal.dtor s st = .ok st') :
    Coherent st' ∧ Mono st st' ∧ Event.destroyed s ∈ st'.trace := by
  unfold signal.dtor at h
  obtain ⟨r, hr, k1⟩ := bind_ok h
  clear h
  obtain ⟨e0, hsg, ha⟩ := derefSig_inv hr
  obtain ⟨st1, h1, k2⟩ := bind_ok k1
  clear k1
  dsimp only at k2
  obtain ⟨st3, h3, k3⟩ := bind_ok k2
  clear k2
  obtain ⟨st4, h4, k4⟩ := bind_ok k3
  clear k3
  have hst' : st' = State.setSig st4 r.1 fun sg => { sg with alive := false } := by
    simp only [pure, Except.pure, Except.ok.injEq] at k4
    exact k4.symm
  subst hst'
  clear k4
  obtain ⟨hs, c1, c2, c3⟩ := hi.chain r.1 r.2 hsg ha
  obtain ⟨d1, d2, d3, d4⟩ := dtor_loop_inv hs _ _ _ _ c1 h1
  have hsk : st4.skel = (st1.log (.destroyed r.1)).skel :=
    (skel_unlink h4).trans (skel_clear _ _ _ _ h3)
  -- the cursors afterwards
  have hhold : ∀ (i : Nat) (hd : iterator_holder), st.holders[i]? = some hd →
      ∃ hd' : iterator_holder,
        (State.setSig st4 r.1 fun sg => { sg with alive := false }).holders[i]? = some hd' ∧
        hd'.prev = hd.prev ∧ hd'.sig = if i ∈ hs then none else hd.sig := by
    intro i hd hh
    obtain ⟨hd1, e1, e2, e3⟩ := d4 i hd hh
    obtain ⟨hd4, e4, e5, e6⟩ := skel_holder hsk (show (st1.log _).holders[i]? = some hd1 from e1)
    exact ⟨hd4, e4, e6.trans e2, e5.trans e3⟩
  have hlen : (State.setSig st4 r.1 fun sg => { sg with alive := false }).holders.length =
      st.holders.length := (skel_length hsk).trans d3
  have hback : ∀ (i : Nat) (hd' : iterator_holder),
      (State.setSig st4 r.1 fun sg => { sg with alive := false }).holders[i]? = some hd' →
      ∃ hd : iterator_holder, st.holders[i]? = some hd ∧ hd'.prev = hd.prev ∧
        hd'.sig = if i ∈ hs then none else hd.sig := by
    intro i hd' hh
    have hlt : i < st.holders.length := by rw [← hlen]; exact holder_lt hh
    obtain ⟨hd'', e1, e2, e3⟩ := hhold i _ (List.getElem?_eq_getElem hlt)
    rw [hh] at e1
    cases e1
    exact ⟨_, List.getElem?_eq_getElem hlt, e2, e3⟩
  -- the signals afterwards
  have hF1 : ∀ (z : Nat) (g : signal), z ≠ r.1 →
      (State.setSig st4 r.1 fun sg => { sg with alive := false }).sigs[z]? = some g →
      ∃ g0 : signal, st.sigs[z]? = some g0 ∧ g0.tail = g.tail ∧ g0.alive = g.alive := by
    intro z g hz hg
    simp only [State.setSig, getElem?_upd, Ne.symm hz, if_false] at hg
    obtain ⟨g0, e1, e2, e3⟩ := skel_sig hsk.symm hg
    exact ⟨g0, by rw [← d1]; exact e1, e2, e3⟩
  have hF2 : ∀ (z : Nat) (g0 : signal), z ≠ r.1 → st.sigs[z]? = some g0 →
      ∃ g : signal, (State.setSig st4 r.1 fun sg => { sg with alive := false }).sigs[z]? =
        some g ∧ g.tail = g0.tail ∧ g.alive = g0.alive := by
    intro z g0 hz hg
    obtain ⟨g4, e4, e5, e6⟩ := skel_sig hsk
      (show (st1.log (.destroyed r.1)).sigs[z]? = some g0 by rw [← hg, ← d1]; rfl)
    exact ⟨g4, by simp only [State.setSig, getElem?_upd, Ne.symm hz, if_false]; exact e4, e5, e6⟩
  have hF3 : ∀ g : signal,
      (State.setSig st4 r.1 fun sg => { sg with alive := false }).sigs[r.1]? = some g →
      g.alive = false := by
    intro g hg
    simp only [State.setSig, getElem?_upd, if_true] at hg
    cases h4' : st4.sigs[r.1]? with
    | none => simp [h4'] at hg
    | some g4 =>
      simp only [h4', Option.map_some', Option.some.injEq] at hg
      rw [← hg]
  have htrace : (State.setSig st4 r.1 fun sg => { sg with alive := false }).trace =
      st.trace ++ [Event.destroyed r.1] := by
    show st4.trace = _
    rw [skel_trace hsk, ← d2]
    rfl
  have hnot : ∀ (i : Nat) (hd : iterator_holder) (z : Nat), st.holders[i]? = some hd →
      hd.sig = some z → z ≠ r.1 → i ∉ hs := by
    intro i hd z hh hz hne hm
    obtain ⟨x, e1, e2⟩ := (c3 i).mp hm
    rw [hh] at e1
    cases e1
    rw [hz] at e2
    exact hne (Option.some.inj e2)
  have hs_eq : s = r.1 := Option.some.inj e0
  refine ⟨⟨?_, ?_, ?_, ?_⟩, ⟨hlen, ?_⟩, by rw [htrace, hs_eq]; simp⟩
  · intro i hd' z hh hz
    obtain ⟨hd, e1, _, e3⟩ := hback i hd' hh
    rw [hz] at e3
    by_cases him : i ∈ hs
    · simp [him] at e3
    · simp only [him, if_false] at e3
      obtain ⟨g0, e4, e5⟩ := hi.live i hd z e1 e3.symm
      have hzr : z ≠ r.1 := by
        rintro rfl
        exact him ((c3 i).mpr ⟨hd, e1, e3.symm⟩)
      obtain ⟨g, e6, _, e8⟩ := hF2 z g0 hzr e4
      exact ⟨g, e6, e8.trans e5⟩
  · intro z g hz hga
    have hzr : z ≠ r.1 := by
      rintro rfl
      have := hF3 g hz
      rw [hga] at this
      cases this
    obtain ⟨g0, e1, e2, e3⟩ := hF1 z g hzr hz
    obtain ⟨hsz, k1, k2, k3⟩ := hi.chain z g0 e1 (e3.trans hga)
    refine ⟨hsz, ?_, k2, ?_⟩
    · rw [← e2]
      exact k1.of_prev (fun i _ hd hh => by
        obtain ⟨hd', m1, m2, _⟩ := hhold i hd hh
        exact ⟨hd', m1, m2⟩)
    · intro i
      rw [k3 i]
      constructor
      · rintro ⟨hd, m1, m2⟩
        obtain ⟨hd', n1, _, n3⟩ := hhold i hd m1
        refine ⟨hd', n1, ?_⟩
        rw [n3, if_neg (hnot i hd z m1 m2 hzr)]
        exact m2
      · rintro ⟨hd', m1, m2⟩
        obtain ⟨hd, n1, _, n3⟩ := hback i hd' m1
        rw [m2] at n3
        by_cases him : i ∈ hs
        · simp [him] at n3
        · simp only [him, if_false] at n3
          exact ⟨hd, n1, n3.symm⟩
  · intro z g hm hz
    rw [htrace] at hm
    by_cases hzr : z = r.1
    · subst hzr
      exact hF3 g hz
    · obtain ⟨g0, e1, _, e3⟩ := hF1 z g hzr hz
      have hm' : Event.destroyed z ∈ st.trace := by
        rcases List.mem_append.mp hm with hm | hm
        · exact hm
        · simp only [List.mem_singleton, Event.destroyed.injEq] at hm
          exact absurd hm hzr
      rw [← e3]
      exact hi.dead z g0 hm' e1
  · rw [htrace]
    exact quiescent_snoc hi.quiet (fun _ _ _ e => by cases e)
  · intro i hd hh
    obtain ⟨hd', e1, _, e3⟩ := hhold i hd hh
    refine ⟨hd', e1, ?_⟩
    rw [e3]
    split
    · exact Or.inr rfl
    · exact Or.inl rfl
theorem run_good {emit : Nat → State → Res State} (he : GoodEmit emit) :
    ∀ (a : Action) (st st' : State), Coherent st → a.run emit st = .ok st' →
      Coherent st' ∧ Mono st st' := by
  intro a
  induction a with
  | disconnect c =>
    intro st st' hi h
    have := skel_disconnect (show connection.disconnect c st = .ok st' from h)
    exact ⟨hi.of_skel this, Mono.same_skel this⟩
  | emit s =>
    intro st st' hi h
    exact he s st st' hi h
  | destroy s =>
    intro st st' hi h
    obtain ⟨h1, h2, _⟩ := hi.destroy (show signal.dtor s st = .ok st' from h)
    exact ⟨h1, h2⟩
  | move b =>
    intro st st' hi h
    simp only [Action.run] at h
    obtain ⟨r, h1, h2⟩ := bind_ok h
    have e : st' = r.2 := by
      simp only [pure, Except.pure, Except.ok.injEq] at h2
      exact h2.symm
    subst e
    have := skel_move_ctor h1
    exact ⟨hi.of_skel this, Mono.same_skel this⟩
  | move_assign a b =>
    intro st st' hi h
    have := skel_move_assign (show connection.move_assign a b st = .ok st' from h)
    exact ⟨hi.of_skel this, Mono.same_skel this⟩
  | connect s f =>
    intro st st' hi h
    simp only [Action.run] at h
    obtain ⟨r, h1, h2⟩ := bind_ok h
    have e : st' = r.2 := by
      simp only [pure, Except.pure, Except.ok.injEq] at h2
      exact h2.symm
    subst e
    have := skel_connect h1
    exact ⟨hi.of_skel this, Mono.same_skel this⟩
  | once g a ih =>
    intro st st' hi h
    simp only [Action.run] at h
    split at h
    · cases h
      exact ⟨hi, Mono.refl _⟩
    · have hsk : State.skel { st with fired := g :: st.fired } = st.skel := rfl
      obtain ⟨h1, h2⟩ := ih _ st' (hi.of_skel hsk) h
      exact ⟨h1, (Mono.same_skel hsk).trans h2⟩

theorem body_good {emit : Nat → State → Res State} (he : GoodEmit emit) :
    ∀ (body : List Action) (st st' : State), Coherent st → runBody emit body st = .ok st' →
      Coherent st' ∧ Mono st st' := by
  intro body
  induction body with
  | nil =>
    intro st st' hi h
    cases h
    exact ⟨hi, Mono.refl _⟩
  | cons a as ih =>
    intro st st' hi h
    simp only [runBody] at h
    obtain ⟨s1, h1, h2⟩ := bind_ok h
    obtain ⟨i1, m1⟩ := run_good he a st s1 hi h1
    obtain ⟨i2, m2⟩ := ih s1 st' i1 h2
    exact ⟨i2, m1.trans m2⟩

theorem holders_split {st : State} {H : Nat} {hd : iterator_holder}
    (hlen : st.holders.length = H + 1) (hh : st.holders[H]? = some hd) :
    st.holders = st.holders.dropLast ++ [hd] ∧ st.holders.dropLast.length = H := by
  have hne : st.holders ≠ [] := by
    intro e; rw [e] at hlen; cases hlen
  have h1 := List.dropLast_append_getLast hne
  have h2 : st.holders.dropLast.length = H := by simp [hlen]
  have h3 : st.holders.getLast hne = hd := by
    rw [List.getLast_eq_getElem]
    have : st.holders.length - 1 = H := by omega
    have h4 : st.holders[st.holders.length - 1]? = some hd := by rw [this]; exact hh
    rw [List.getElem?_eq_getElem (by omega)] at h4
    exact Option.some.inj h4
  rw [h3] at h1
  exact ⟨h1.symm, h2⟩

theorem popMono_of_split {st st' : State} {hs0 : List iterator_holder} {hd : iterator_holder}
    (hh : st.holders = hs0 ++ [hd]) (h' : st'.holders = hs0) : PopMono st st' := by
  refine ⟨by rw [h', hh]; simp, ?_⟩
  intro i x hi hx
  rw [h'] at hi
  rw [hh, List.getElem?_append_left hi] at hx
  exact ⟨x, by rw [h']; exact hx, Or.inl rfl⟩

/-- A frame whose cursor was invalidated leaves: the cursor is popped and nothing
else happens. -/
theorem exit_none {st : State} {H : Nat} {hd : iterator_holder} (hi : Coherent st)
    (hlen : st.holders.length = H + 1) (hh : st.holders[H]? = some hd)
    (hsig : hd.sig = none) :
    iterator_holder.dtor H st = .ok { st with holders := st.holders.dropLast } ∧
    Coherent { st with holders := st.holders.dropLast } ∧
    PopMono st { st with holders := st.holders.dropLast } := by
  obtain ⟨h1, _⟩ := holders_split hlen hh
  refine ⟨?_, hi.pop_none h1 hsig, popMono_of_split h1 rfl⟩
  simp [iterator_holder.dtor, derefHolder, hh, hsig, bind, Except.bind, pure, Except.pure]

/-- A frame that reached the end of the list leaves: its cursor, the head of the
chain of its signal, is popped. -/
theorem exit_some {st : State} {H s : Nat} {hd : iterator_holder} (hi : Coherent st)
    (hlen : st.holders.length = H + 1) (hh : st.holders[H]? = some hd)
    (hsig : hd.sig = some s) :
    ∃ st', iterator_holder.dtor H st = .ok st' ∧ Coherent st' ∧ PopMono st st' ∧
      st'.trace = st.trace := by
  obtain ⟨h1, h2⟩ := holders_split hlen hh
  obtain ⟨sg, hsg, ha, ht, hc⟩ := hi.pop_some h1 hsig
  have := dtor_top sg st.holders.dropLast hd h1 hsig hsg ha ht
  rw [h2] at this
  exact ⟨_, this, hc, popMono_of_split h1 rfl, rfl⟩

/-- The loop of a dispatch keeps the machinery coherent, and pops exactly the
cursor of its frame. -/
theorem loop_good (prog : Prog) {emit : Nat → State → Res State} (he : GoodEmit emit)
    (s H : Nat) : ∀ (fuel : Nat) (st st' : State), Coherent st →
      st.holders.length = H + 1 →
      (∃ hd : iterator_holder, st.holders[H]? = some hd ∧ hd.sig = some s) →
      signal.loop prog emit s H fuel st = .ok st' → Coherent st' ∧ PopMono st st' := by
  intro fuel
  induction fuel with
  | zero => intro st st' _ _ _ h; cases h
  | succ n ih =>
    intro st st' hi hlen hhd h
    obtain ⟨hd, hh, hsig⟩ := hhd
    unfold signal.loop at h
    obtain ⟨hd0, e0, k1⟩ := bind_ok h
    clear h
    have := derefHolder_inv e0
    rw [hh] at this
    cases this
    split at k1
    · dsimp only at k1
      obtain ⟨nx, _, k2⟩ := bind_ok k1
      clear k1
      obtain ⟨stb, hcall, k3⟩ := bind_ok k2
      clear k2
      obtain ⟨hdb, eb, k4⟩ := bind_ok k3
      clear k3
      -- the state in which the callable is run
      have hska : (st.setHolder H fun h => { h with current := nx }).skel = st.skel :=
        skel_setHolder _ _ _ (fun _ => ⟨rfl, rfl⟩)
      have hia := hi.of_skel hska
      obtain ⟨sg, hsg, ha⟩ := hi.live H hd s hh hsig
      obtain ⟨sga, hsga, _, haa⟩ := skel_sig hska hsg
      unfold connection.call at hcall
      obtain ⟨r, _, k5⟩ := bind_ok hcall
      clear hcall
      dsimp only at k5
      split at k5
      · cases k5
      · rename_i f hf
        obtain ⟨ib, mb⟩ := body_good he _ _ _
          (hia.log_invoked hsga (haa.trans ha) r.1 f) k5
        have mab : Mono st stb := (Mono.same_skel hska).trans
          (Mono.trans (⟨rfl, fun _ x hx => ⟨x, hx, Or.inl rfl⟩⟩ :
            Mono (st.setHolder H fun h => { h with current := nx })
              ((st.setHolder H fun h => { h with current := nx }).log
                (.invoked (some s) r.1 f))) mb)
        have hlenb : stb.holders.length = H + 1 := mab.1.trans hlen
        have hhb := derefHolder_inv eb
        obtain ⟨x, hx1, hx2⟩ := mab.2 H hd hh
        rw [hhb] at hx1
        cases hx1
        have pm : ∀ st2, PopMono stb st2 → PopMono st st2 := by
          intro st2 p
          refine ⟨p.1.trans (hlenb.trans hlen.symm), ?_⟩
          intro i y hi' hy
          obtain ⟨y1, e1, e2⟩ := mab.2 i y hy
          obtain ⟨y2, e3, e4⟩ := p.2 i y1 hi' e1
          refine ⟨y2, e3, ?_⟩
          rcases e4 with e4 | e4
          · rcases e2 with e2 | e2
            · exact Or.inl (e4.trans e2)
            · exact Or.inr (e4.trans e2)
          · exact Or.inr e4
        split at k4
        · rename_i hnone
          obtain ⟨x1, x2, x3⟩ := exit_none ib hlenb hhb hnone
          rw [x1] at k4
          cases k4
          exact ⟨x2, pm _ x3⟩
        · rename_i hsome
          have hs' : hdb.sig = some s := by
            rcases hx2 with e | e
            · exact e.trans hsig
            · exact absurd e hsome
          obtain ⟨x1, x2⟩ := ih stb st' ib hlenb ⟨hdb, hhb, hs'⟩ k4
          exact ⟨x1, pm _ x2⟩
    · obtain ⟨st2, x1, x2, x3, _⟩ := exit_some hi hlen hh hsig
      rw [x1] at k1
      cases k1
      exact ⟨x2, x3⟩

/-- Every dispatch keeps the machinery coherent, whatever the callables do. -/
theorem call_good (prog : Prog) : ∀ fuel : Nat, GoodEmit (signal.call prog fuel) := by
  intro fuel
  induction fuel with
  | zero => intro s st st' _ h; cases h
  | succ n ih =>
    intro s st st' hi h
    unfold signal.call at h
    obtain ⟨r, hc, k1⟩ := bind_ok h
    clear h
    have hc' := hc
    unfold iterator_holder.ctor at hc'
    obtain ⟨r0, hr0, _⟩ := bind_ok hc'
    obtain ⟨e0, hsg, ha⟩ := derefSig_inv hr0
    have e1 : s = r0.1 := Option.some.inj e0
    rw [← e1] at hsg
    rw [ctor_ok hsg ha] at hc
    cases hc
    obtain ⟨x1, x2⟩ := loop_good prog ih s st.holders.length n _ st'
      (hi.enter hsg ha _) (by simp) ⟨_, holders_enter_top _ _ _ _, rfl⟩ k1
    refine ⟨x1, ?_, ?_⟩
    · have := x2.1
      simp only [holders_enter, List.length_append, List.length_singleton] at this
      omega
    · intro i hd hh
      have hlt := holder_lt hh
      have h3 : i < st'.holders.length := by
        have := x2.1
        simp only [holders_enter, List.length_append, List.length_singleton] at this
        omega
      exact x2.2 i hd h3 (by rw [holders_enter_lt hlt]; exact hh)

/-- A memory in which no dispatch is in progress and nothing was logged is
coherent. -/
theorem coherent_idle (st : State) (hh : st.holders = []) (ht : ∀ sg ∈ st.sigs, sg.tail = none)
    (htr : st.trace = []) : Coherent st := by
  refine ⟨?_, ?_, ?_, ?_⟩
  · intro i hd s h
    rw [hh] at h
    cases h
  · intro s sg hs _
    have hm : sg ∈ st.sigs := List.getElem?_mem hs
    refine ⟨[], ?_, List.sorted_nil, ?_⟩
    · rw [ht sg hm]
      trivial
    · intro i
      simp [hh]
  · intro s sg hm
    rw [htr] at hm
    cases hm
  · intro pre post s c f h
    rw [htr] at h
    cases pre <;> cases h

/-- In the log of a dispatch that returns, started from a coherent memory, no
callable is run by a dispatch of a signal after the entry of that signal's
destruction, whatever the callables do and however the dispatches nest. -/
theorem call_quiescent (prog : Prog) (fuel s : Nat) (st st' : State)
    (hi : Coherent st) (h : signal.call prog fuel s st = .ok st') :
    Quiescent st'.trace :=
  (call_good prog fuel s st st' hi h).1.quiet

theorem solo_eq : connectAll 0 [10] (signal.ctor State.init).2 = .ok solo := by
  decide

/-- C7, as the claim has it, fails when the signal is destroyed inside the
callable of the last connection of the list.  With one connection whose callable
destroys the signal, the dispatch never returns: its cursor was advanced to the
end of the list before the callable was called, and the destructor's
`(*it->current).func = {}` addresses the sentinel.  The same happens one level
deeper: in the memory `abc`, let the callable of `A` (the last connection) start
a nested dispatch the first time it runs and then destroy the signal; the nested
frame runs `C`, `B`, `A`, and the destructor finds both cursors on the end of the
list. -/
theorem C7_destroy_in_last_callable_never_returns :
    (∀ n : Nat, signal.call (fun _ => [.destroy 0]) (n + 2) 0 solo =
      .error ⟨.not_a_connection, [.invoked (some 0) 0 10]⟩) ∧
    (∀ (fuel : Nat) (st' : State), signal.call (fun _ => [.destroy 0]) fuel 0 solo ≠ .ok st') ∧
    signal.call (fun f => if f = 10 then [.once 0 (.emit 0), .once 1 (.destroy 0)] else [])
        8 0 abc =
      .error ⟨.not_a_connection,
        [.invoked (some 0) 2 12, .invoked (some 0) 1 11, .invoked (some 0) 0 10,
          .invoked (some 0) 2 12, .invoked (some 0) 1 11, .invoked (some 0) 0 10]⟩ := by
  have h1 : ∀ n : Nat, signal.call (fun _ => [.destroy 0]) (n + 2) 0 solo =
      .error ⟨.not_a_connection, [.invoked (some 0) 0 10]⟩ := fun n => rfl
  refine ⟨h1, ?_, by decide⟩
  intro fuel st' h
  match fuel, h with
  | 0, h => cases h
  | 1, h => cases h
  | n + 2, h =>
    rw [h1 n] at h
    cases h
/-! ## Rings are determined by the memory -/

theorem Seg.determ {st : State} {s t : Nat} :
    ∀ (xs ys : List Nat) (p : Ptr), Seg st p xs (.fake s) → Seg st p ys (.fake t) →
      xs = ys ∧ s = t
  | [], [], p, h1, h2 => by
    have := h1.1.symm.trans h2.1
    simp at this
    exact ⟨rfl, this⟩
  | [], y :: ys, p, h1, h2 => by
    have := h1.1.symm.trans h2.1.1
    simp at this
  | x :: xs, [], p, h1, h2 => by
    have := h1.1.1.symm.trans h2.1
    simp at this
  | x :: xs, y :: ys, p, h1, h2 => by
    have := h1.1.1.symm.trans h2.1.1
    simp at this
    subst this
    obtain ⟨e1, e2⟩ := Seg.determ xs ys (.conn x) h1.2 h2.2
    exact ⟨by rw [e1], e2⟩

theorem Ring.same_list {st : State} {s : Nat} {xs ys : List Nat} (h1 : Ring st s xs)
    (h2 : Ring st s ys) : xs = ys :=
  (Seg.determ xs ys _ h1.1 h2.1).1

theorem Ring.disjoint_of_ne {st : State} {s t : Nat} {xs ys : List Nat} (h1 : Ring st s xs)
    (h2 : Ring st t ys) (hne : s ≠ t) (x : Nat) (hx : x ∈ xs) : x ∉ ys := by
  intro hy
  obtain ⟨a, b, rfl⟩ := List.append_of_mem hx
  obtain ⟨c, d, rfl⟩ := List.append_of_mem hy
  have k1 := ((seg_append _ _ _ _ _ _).mp h1.1).2
  have k2 := ((seg_append _ _ _ _ _ _).mp h2.1).2
  exact hne (Seg.determ _ _ _ k1 k2).2

theorem erase_mid {v : Nat} {pre post : List Nat} (h : (pre ++ v :: post).Nodup) :
    (pre ++ v :: post).erase v = pre ++ post := by
  have hv : v ∉ pre := fun hm => (List.nodup_append.mp h).2.2 hm (List.mem_cons_self _ _)
  rw [List.erase_append_right _ hv]
  simp

/-! ## `unlink` and `insert` leave the other rings alone -/

theorem Ring.node_ne {st : State} {s t : Nat} {xs ys : List Nat} (h1 : Ring st s xs)
    (h2 : Ring st t ys) (hne : s ≠ t) (u w : Ptr)
    (hu : u ∈ Ptr.fake s :: xs.map Ptr.conn) (hw : w ∈ Ptr.fake t :: ys.map Ptr.conn) :
    u ≠ w := by
  rintro rfl
  simp only [List.mem_cons, List.mem_map] at hu hw
  rcases hu with rfl | ⟨x, hx, rfl⟩
  · rcases hw with e | ⟨y, _, e⟩
    · exact hne (Ptr.fake.inj e)
    · cases e
  · rcases hw with e | ⟨y, hy, e⟩
    · cases e
    · cases e
      exact h1.disjoint_of_ne h2 hne x hx hy

theorem mem_cons_of_mem_append_end {xs : List Nat} {q v : Ptr}
    (h : v ∈ xs.map Ptr.conn ++ [q]) : v ∈ q :: xs.map Ptr.conn := by
  simp only [List.mem_append, List.mem_singleton, List.mem_cons] at h ⊢
  tauto

theorem Ring.unlink_other {st : State} {s t v : Nat} {pre post ys : List Nat}
    (h : Ring st s (pre ++ v :: post)) (h2 : Ring st t ys) (hne : s ≠ t) :
    Ring (st.unlinked (.conn v) (lst (.fake s) pre) (hd post (.fake s))) t ys := by
  obtain ⟨k1, k2⟩ := (seg_append _ _ _ _ _ _).mp h.1
  have hl1 := k1.link_last
  have hl2 := k2.link_first
  have hx := base_of_links hl1.2 hl2.1
  have hN := nextOf_unlinked hx hl1.1
  have hP := prevOf_unlinked hx hl2.2
  have hv : Ptr.conn v ∈ Ptr.fake s :: (pre ++ v :: post).map Ptr.conn := by simp
  have ha : lst (.fake s) pre ∈ Ptr.fake s :: (pre ++ v :: post).map Ptr.conn := by
    have := lst_mem_cons (.fake s) pre
    simp only [List.mem_cons, List.mem_map, List.mem_append] at this ⊢
    rcases this with e | ⟨y, hy, e⟩
    · exact Or.inl e
    · exact Or.inr ⟨y, Or.inl hy, e⟩
  have hb : hd post (.fake s) ∈ Ptr.fake s :: (pre ++ v :: post).map Ptr.conn := by
    have := mem_cons_of_mem_append_end (hd_mem_append post (.fake s))
    simp only [List.mem_cons, List.mem_map, List.mem_append] at this ⊢
    rcases this with e | ⟨y, hy, e⟩
    · exact Or.inl e
    · exact Or.inr ⟨y, Or.inr (Or.inr hy), e⟩
  refine ⟨h2.1.frame ?_ ?_, h2.2⟩
  · intro u hu
    rw [hN, if_neg (h.node_ne h2 hne _ _ hv hu).symm, if_neg (h.node_ne h2 hne _ _ ha hu).symm]
  · intro w hw
    have hw := mem_cons_of_mem_append_end hw
    rw [hP, if_neg (h.node_ne h2 hne _ _ hv hw).symm, if_neg (h.node_ne h2 hne _ _ hb hw).symm]

theorem Ring.insert_other {st : State} {s t c : Nat} (pre post : List Nat) {ys : List Nat}
    (h : Ring st s (pre ++ post)) (hc : st.base (.conn c) = some ⟨none, none⟩)
    (h2 : Ring st t ys) (hne : s ≠ t) :
    Ring (st.inserted (hd post (.fake s)) (.conn c) (lst (.fake s) pre)) t ys := by
  obtain ⟨k1, k2, _⟩ := h.1.split
  obtain ⟨ba, hba⟩ := base_isSome_of_nextOf k2.1
  obtain ⟨bp, hbp⟩ := base_isSome_of_prevOf k2.2
  have hcx : ∀ xs : List Nat, ∀ z, Ring st z xs → ∀ u ∈ Ptr.fake z :: xs.map Ptr.conn,
      u ≠ .conn c := by
    intro xs z hz u hu e
    subst e
    simp only [List.mem_cons, List.mem_map, Ptr.conn.injEq, exists_eq_right] at hu
    rcases hu with e | hu
    · cases e
    · obtain ⟨a, b, e⟩ := hz.1.linked_of_mem hu
      rw [hc] at e
      cases e
  have ha : lst (.fake s) pre ∈ Ptr.fake s :: (pre ++ post).map Ptr.conn := by
    have := lst_mem_cons (.fake s) pre
    simp only [List.mem_cons, List.mem_map, List.mem_append] at this ⊢
    rcases this with e | ⟨y, hy, e⟩
    · exact Or.inl e
    · exact Or.inr ⟨y, Or.inl hy, e⟩
  have hb : hd post (.fake s) ∈ Ptr.fake s :: (pre ++ post).map Ptr.conn := by
    have := mem_cons_of_mem_append_end (hd_mem_append post (.fake s))
    simp only [List.mem_cons, List.mem_map, List.mem_append] at this ⊢
    rcases this with e | ⟨y, hy, e⟩
    · exact Or.inl e
    · exact Or.inr ⟨y, Or.inr hy, e⟩
  have hN := nextOf_inserted hc (hcx _ _ h _ hb) (hcx _ _ h _ ha) hba
  have hP := prevOf_inserted hc (hcx _ _ h _ hb) (hcx _ _ h _ ha) hbp
  refine ⟨h2.1.frame ?_ ?_, h2.2⟩
  · intro u hu
    rw [hN, if_neg (hcx _ _ h2 _ hu), if_neg (h.node_ne h2 hne _ _ ha hu).symm]
  · intro w hw
    have hw := mem_cons_of_mem_append_end hw
    rw [hP, if_neg (hcx _ _ h2 _ hw), if_neg (h.node_ne h2 hne _ _ hb hw).symm]

theorem insert_after_unlink {st st1 : State} {pos : Option Ptr} {v : Ptr}
    (h1 : list_base.unlink v st = .ok st1) (h2 : st1.base v = some ⟨none, none⟩)
    (hp : pos ≠ some v) :
    list.insert pos v st = list.insert pos v st1 := by
  unfold list.insert
  dsimp only
  rw [if_pos hp, if_pos hp, h1, unlink_unlinked h2]

theorem unlink_any {st : State} {v : Nat}
    (hv : st.base (.conn v) = some ⟨none, none⟩ ∨ ∃ t ys, Ring st t ys ∧ v ∈ ys) :
    ∃ st1, list_base.unlink (.conn v) st = .ok st1 ∧
      st1.base (.conn v) = some ⟨none, none⟩ ∧ st1.rest = st.rest ∧
      ∀ t ys, Ring st t ys → Ring st1 t (ys.erase v) := by
  rcases hv with hv | ⟨t0, ys0, h0, hm⟩
  · refine ⟨st, unlink_unlinked hv, hv, rfl, ?_⟩
    intro t ys h
    have : v ∉ ys := by
      intro hm
      obtain ⟨a, b, e⟩ := h.1.linked_of_mem hm
      rw [hv] at e
      cases e
    rw [List.erase_of_not_mem this]
    exact h
  · obtain ⟨a, b, rfl⟩ := List.append_of_mem hm
    obtain ⟨k1, k2⟩ := h0.unlink
    have hx := h0.1.base_mem
    refine ⟨_, k1, ?_, rest_unlinked _ _ _ _, ?_⟩
    · rw [base_unlinked hx, if_pos rfl]
    · intro t ys h
      by_cases e : t0 = t
      · subst e
        rw [← h0.same_list h, erase_mid h0.2]
        exact k2
      · have : v ∉ ys := h0.disjoint_of_ne h e v hm
        rw [List.erase_of_not_mem this]
        exact h0.unlink_other h e

/-- C11: `insert(pos, v)` on the well-formed list `L` of `s`, where `v` is
unlinked or an element of some well-formed list (of `s` itself or of another
signal) and `pos` is the position that follows `pre` once `v` is taken out of
`L`: the call succeeds and returns the position of `v`; afterwards the list of
`s` is `pre`, `v`, `post`; every other well-formed list is what it was without
`v`; and nothing but neighbour references has changed.  With `pos` the position
of `v` itself the memory is left as it is. -/
theorem C11_insert_before_pos (st : State) (s v : Nat) (L pre post : List Nat)
    (hL : Ring st s L) (hsplit : L.erase v = pre ++ post)
    (hv : st.base (.conn v) = some ⟨none, none⟩ ∨ ∃ t ys, Ring st t ys ∧ v ∈ ys) :
    (∃ st', list.insert (some (hd post (.fake s))) (.conn v) st = .ok (some (.conn v), st') ∧
      Ring st' s (pre ++ v :: post) ∧
      (∀ t ys, t ≠ s → Ring st t ys → Ring st' t (ys.erase v)) ∧
      st'.rest = st.rest) ∧
    list.insert (some (.conn v)) (.conn v) st = .ok (some (.conn v), st) := by
  constructor
  · obtain ⟨st1, h1, h2, h3, h4⟩ := unlink_any hv
    have hr := h4 s L hL
    rw [hsplit] at hr
    have hpos : some (hd post (.fake s)) ≠ some (Ptr.conn v) := by
      intro e
      have e := Option.some.inj e
      have hm : v ∈ pre ++ post := by
        cases post with
        | nil => simp [hd] at e
        | cons y ys =>
          simp only [hd, Ptr.conn.injEq] at e
          subst e
          simp
      rw [← hsplit] at hm
      exact (hL.2.mem_erase_iff.mp hm).1 rfl
    obtain ⟨k1, k2⟩ := Ring.insert pre post hr h2
    refine ⟨_, (insert_after_unlink h1 h2 hpos).trans k1, k2, ?_, ?_⟩
    · intro t ys hne h
      exact Ring.insert_other pre post hr h2 (h4 t ys h) (Ne.symm hne)
    · rw [rest_inserted, h3]
  · simp [list.insert, pure, Except.pure]

theorem C11_insert_before_pos_witness :
    Ring abc 0 [2, 1, 0] ∧
    ((∃ st', list.insert (some (hd [1] (.fake 0))) (.conn 0) abc = .ok (some (.conn 0), st') ∧
      Ring st' 0 ([2] ++ 0 :: [1]) ∧
      (∀ t ys, t ≠ 0 → Ring abc t ys → Ring st' t (ys.erase 0)) ∧
      st'.rest = abc.rest) ∧
    list.insert (some (.conn 0)) (.conn 0) abc = .ok (some (.conn 0), abc)) :=
  ⟨by decide, C11_insert_before_pos abc 0 0 [2, 1, 0] [2] [1] (by decide) (by decide)
    (Or.inr ⟨0, [2, 1, 0], by decide, by decide⟩)⟩
/-! ## `splice` and the move assignment of links -/

/-- C12, as the claim has it, fails where `pos` is `last`: on the list `C, B, A`
of the memory `abc`, `splice(pos = A, first = B, last = A)` should change
nothing, but the body links `B` to itself and to `A` and then joins `C` to `A`:
the list becomes `C, A`, and `B` is left outside with stale references.  With
`pos` outside the range and different from `last` the body does what the claim
says: `splice(pos = C, first = A, last = end)` gives `A, C, B`. -/
theorem C12_splice_at_last_drops_range :
    Ring abc 0 [2, 1, 0] ∧
    (∃ st', list.splice (some (.conn 0)) (some (.conn 1)) (some (.conn 0)) abc = .ok st' ∧
      Ring st' 0 [2, 0] ∧ ¬ Ring st' 0 [2, 1, 0] ∧
      st'.base (.conn 1) = some ⟨some (.conn 1), some (.conn 0)⟩) ∧
    ∃ st', list.splice (some (.conn 2)) (some (.conn 0)) (some (.fake 0)) abc = .ok st' ∧
      Ring st' 0 [0, 2, 1] :=
  ⟨by decide, ⟨_, rfl, by decide, by decide, by decide⟩, ⟨_, rfl, by decide⟩⟩

/-- C13, as the claim has it, fails: with `D` (address 3) unlinked and `B`
linked between `C` and `A`, the move assignment `D = std::move(B)` of the links
builds a temporary from `B`, which rewires `C` and `A` to the temporary, and
then only exchanges the temporary's references with those of `D`: `D` holds
`C` and `A` and `B` holds nothing, but `C` and `A` still designate the
temporary (address 4), which is destroyed.  The move constructor, for the same
operands, rewires `C` and `A` to `D`. -/
theorem C13_move_assign_rewires_to_temporary :
    Ring abc_d 0 [2, 1, 0] ∧ abc_d.base (.conn 3) = some ⟨none, none⟩ ∧
    (∃ st', list_base.move_assign (.conn 3) (.conn 1) abc_d = .ok st' ∧
      st'.nextOf (.conn 2) = some (.conn 4) ∧ st'.prevOf (.conn 0) = some (.conn 4) ∧
      st'.base (.conn 3) = some ⟨some (.conn 2), some (.conn 0)⟩ ∧
      st'.base (.conn 1) = some ⟨none, none⟩ ∧ ¬ Ring st' 0 [2, 3, 0]) ∧
    ∃ st', list_base.move_ctor (.conn 3) (.conn 1) abc_d = .ok st' ∧ Ring st' 0 [2, 3, 0] ∧
      st'.base (.conn 1) = some ⟨none, none⟩ :=
  ⟨by decide, by decide, ⟨_, rfl, by decide, by decide, by decide, by decide, by decide⟩,
    ⟨_, rfl, by decide, by decide⟩⟩
/-! ## `unlink` and `is_linked` -/

/-- C14, amended: for a link whose two neighbour references are both null, or
both set and designating existing objects, `unlink` succeeds and leaves both
references null, after which `is_linked` answers false; and in every memory
`is_linked` answers true exactly when the two references are not both null. -/
theorem C14_unlink_clears_whole_links (st : State) (x : Ptr) (b : list_base)
    (hx : st.base x = some b)
    (hwhole : (b.prev = none ∧ b.next = none) ∨
      ∃ p n, b.prev = some p ∧ b.next = some n ∧ st.base p ≠ none ∧ st.base n ≠ none) :
    (∃ st', list_base.unlink x st = .ok st' ∧ st'.base x = some ⟨none, none⟩ ∧
      list_base.is_linked x st' = .ok false) ∧
    (list_base.is_linked x st = .ok true ↔ ¬(b.prev = none ∧ b.next = none)) := by
  constructor
  · rcases hwhole with ⟨h1, h2⟩ | ⟨p, n, h1, h2, h3, h4⟩
    · have hx' : st.base x = some ⟨none, none⟩ := by
        rw [hx]
        cases b
        simp_all
      exact ⟨st, unlink_unlinked hx', hx', by rw [is_linked_ok hx']; rfl⟩
    · have hx' : st.base x = some ⟨some p, some n⟩ := by
        rw [hx]
        cases b
        simp_all
      obtain ⟨bp, hp⟩ := Option.ne_none_iff_exists'.mp h3
      obtain ⟨bn, hn⟩ := Option.ne_none_iff_exists'.mp h4
      have hb : (st.unlinked x p n).base x = some ⟨none, none⟩ := by
        rw [base_unlinked hx', if_pos rfl]
      exact ⟨_, unlink_ok hx' hp hn, hb, by rw [is_linked_ok hb]; rfl⟩
  · rw [is_linked_ok hx]
    cases b with
    | mk pv nx => cases pv <;> cases nx <;> simp

theorem C14_unlink_clears_whole_links_witness :
    abc.base (.conn 1) = some ⟨some (.conn 2), some (.conn 0)⟩ ∧
    ((∃ st', list_base.unlink (.conn 1) abc = .ok st' ∧ st'.base (.conn 1) = some ⟨none, none⟩ ∧
      list_base.is_linked (.conn 1) st' = .ok false) ∧
    (list_base.is_linked (.conn 1) abc = .ok true ↔
      ¬((some (Ptr.conn 2) : Option Ptr) = none ∧ (some (Ptr.conn 0) : Option Ptr) = none))) :=
  ⟨by decide, C14_unlink_clears_whole_links abc (.conn 1) ⟨some (.conn 2), some (.conn 0)⟩
    (by decide) (Or.inr ⟨.conn 2, .conn 0, rfl, rfl, by decide, by decide⟩)⟩

/-- C14, as the claim has it, fails: `link` is a public operation, and after
`a.link(&b)` on two default-constructed links `a` has a successor and no
predecessor; `a.unlink()` then changes nothing and `a.is_linked()` is true. -/
theorem C14_half_linked_stays_linked :
    ∃ st1 st2, list_base.link (some (.conn 0)) (some (.conn 1)) two_links = .ok st1 ∧
      list_base.unlink (.conn 0) st1 = .ok st2 ∧
      st2.base (.conn 0) = some ⟨none, some (.conn 1)⟩ ∧
      list_base.is_linked (.conn 0) st2 = .ok true :=
  ⟨_, _, rfl, rfl, by decide, by decide⟩
/-! ## Cursors and `disconnect` -/

/-- C15, as the claim has it, fails: when connection `k` of the list of `s` is
disconnected while a cursor `H` of that signal designates it as next to visit,
`disconnect` succeeds and takes `k` out of the list, but the cursor is left as it
was: it still designates `k`, now with both neighbour references null, and not
the former successor of `k`. -/
theorem C15_disconnect_leaves_cursor_behind (st : State) (s k H : Nat)
    (pre post hs : List Nat) (sg : signal) (cn : connection) (hd0 : iterator_holder)
    (hr : Ring st s (pre ++ k :: post)) (hcn : st.conns[k]? = some cn)
    (hsig : cn.sig = some s) (hsg : st.sigs[s]? = some sg) (ha : sg.alive = true)
    (hch : Chain st sg.tail hs) (hH : st.holders[H]? = some hd0)
    (hcur : hd0.current = some (.conn k)) :
    ∃ st', connection.disconnect k st = .ok st' ∧ Ring st' s (pre ++ post) ∧
      st'.holders[H]? = some hd0 ∧ st'.base (.conn k) = some ⟨none, none⟩ ∧
      k ∉ pre ++ post ∧ hd0.current ≠ some (hd post (.fake s)) := by
  obtain ⟨h1, h2⟩ := disconnect_ok hr hcn hsig hsg ha hch
  have hk : k ∉ pre ++ post := by
    have := List.nodup_append.mp hr.2
    simp only [List.mem_append, not_or]
    exact ⟨fun hm => this.2.2 hm (List.mem_cons_self _ _), (List.nodup_cons.mp this.2.1).1⟩
  refine ⟨_, h1, h2, ?_, base_disconnected hr.1.base_mem, hk, ?_⟩
  · rw [holders_disconnected]
    exact hH
  · rw [hcur]
    intro e
    have e := Option.some.inj e
    cases post with
    | nil => simp [hd] at e
    | cons y ys =>
      simp only [hd, Ptr.conn.injEq] at e
      subst e
      exact hk (by simp)

theorem C15_disconnect_leaves_cursor_behind_witness :
    Ring abc_nested 0 ([2, 1] ++ 0 :: []) ∧
    ∃ st', connection.disconnect 0 abc_nested = .ok st' ∧ Ring st' 0 ([2, 1] ++ []) ∧
      st'.holders[1]? = some ⟨some 0, some (.conn 0), some 0⟩ ∧
      st'.base (.conn 0) = some ⟨none, none⟩ ∧
      0 ∉ [2, 1] ++ [] ∧
      (iterator_holder.mk (some 0) (some (.conn 0)) (some 0)).current ≠
        some (hd [] (.fake 0)) :=
  ⟨by decide, C15_disconnect_leaves_cursor_behind abc_nested 0 0 1 [2, 1] [] [1, 0]
    ⟨⟨some (.conn 0), some (.conn 2)⟩, some 1, true⟩
    ⟨⟨some (.conn 1), some (.fake 0)⟩, some 0, some 10⟩ ⟨some 0, some (.conn 0), some 0⟩
    (by decide) rfl rfl rfl rfl (by decide) rfl rfl⟩
/-! ## The cursor stack across a dispatch -/

theorem Keeps.of_parts {st st' : State}
    (hsig : ∀ (z : Nat) (sg' : signal), st'.sigs[z]? = some sg' →
      ∃ sg : signal, st.sigs[z]? = some sg ∧ sg.alive = sg'.alive)
    (hh : ∀ (i : Nat) (hd : iterator_holder), i < st'.holders.length →
      st.holders[i]? = some hd →
      ∃ hd' : iterator_holder, st'.holders[i]? = some hd' ∧ hd'.sig = hd.sig) :
    Keeps st st' := by
  intro z sg' h1 h2
  obtain ⟨sg, e1, e2⟩ := hsig z sg' h1
  refine ⟨⟨sg, e1, e2.trans h2⟩, ?_⟩
  intro i hd hlt h3 h4
  obtain ⟨hd', e3, e4⟩ := hh i hd hlt h3
  exact ⟨hd', e3, e4.trans h4⟩

theorem Keeps.unchanged (st : State) : Keeps st st :=
  Keeps.of_parts (fun _ sg h => ⟨sg, h, rfl⟩) (fun _ hd _ h => ⟨hd, h, rfl⟩)

theorem Keeps.and_then {a b c : State} (h1 : Keeps a b) (h2 : Keeps b c)
    (hlen : c.holders.length ≤ b.holders.length) : Keeps a c := by
  intro z sg' e1 e2
  obtain ⟨⟨sgb, e3, e4⟩, k2⟩ := h2 z sg' e1 e2
  obtain ⟨⟨sga, e5, e6⟩, k1⟩ := h1 z sgb e3 e4
  refine ⟨⟨sga, e5, e6⟩, ?_⟩
  intro i hd hlt e7 e8
  obtain ⟨hdb, m1, m2⟩ := k1 i hd (by omega) e7 e8
  exact k2 i hdb hlt m1 m2

theorem Keeps.by_skel {st st' : State} (h : st'.skel = st.skel) : Keeps st st' := by
  refine Keeps.of_parts ?_ ?_
  · intro z sg' e
    obtain ⟨sg, e1, _, e3⟩ := skel_sig h.symm e
    exact ⟨sg, e1, e3⟩
  · intro i hd _ e
    obtain ⟨hd', e1, e2, _⟩ := skel_holder h e
    exact ⟨hd', e1, e2⟩

theorem Keeps.on_log (st : State) (e : Event) : Keeps st (st.log e) :=
  Keeps.of_parts (fun _ sg h => ⟨sg, h, rfl⟩) (fun _ hd _ h => ⟨hd, h, rfl⟩)

theorem Keeps.on_enter (st : State) (s : Nat) (q : Option Ptr) (t : Option Nat) :
    Keeps st (st.enter s q t) := by
  refine Keeps.of_parts ?_ ?_
  · intro z sg' e
    simp only [State.enter, State.setSig, getElem?_upd] at e
    split at e
    · cases hz : st.sigs[z]? with
      | none => simp [hz] at e
      | some g =>
        simp only [hz, Option.map_some', Option.some.injEq] at e
        exact ⟨g, rfl, by rw [← e]⟩
    · exact ⟨sg', e, rfl⟩
  · intro i hd _ e
    exact ⟨hd, by rw [holders_enter_lt (holder_lt e)]; exact e, rfl⟩

/-- What `~signal` does to the dispatch machinery: the cursors of the chain of
the signal lose their signal reference, every other cursor and every other signal
is as before, and the signal is dead. -/
theorem dtor_effect {st st' : State} {s : Nat} (hi : Coherent st)
    (h : signal.dtor s st = .ok st') :
    ∃ hs : List Nat,
      (∀ i : Nat, i ∈ hs ↔ ∃ hd : iterator_holder, st.holders[i]? = some hd ∧ hd.sig = some s) ∧
      (∀ (i : Nat) (hd : iterator_holder), st.holders[i]? = some hd →
        ∃ hd' : iterator_holder, st'.holders[i]? = some hd' ∧ hd'.prev = hd.prev ∧
          hd'.sig = if i ∈ hs then none else hd.sig) ∧
      (∀ (z : Nat) (g : signal), z ≠ s → st'.sigs[z]? = some g →
        ∃ g0 : signal, st.sigs[z]? = some g0 ∧ g0.tail = g.tail ∧ g0.alive = g.alive) ∧
      (∀ g : signal, st'.sigs[s]? = some g → g.alive = false) := by
  unfold signal.dtor at h
  obtain ⟨r, hr, k1⟩ := bind_ok h
  clear h
  obtain ⟨e0, hsg, ha⟩ := derefSig_inv hr
  obtain ⟨st1, h1, k2⟩ := bind_ok k1
  clear k1
  dsimp only at k2
  obtain ⟨st3, h3, k3⟩ := bind_ok k2
  clear k2
  obtain ⟨st4, h4, k4⟩ := bind_ok k3
  clear k3
  have hst' : st' = State.setSig st4 r.1 fun sg => { sg with alive := false } := by
    simp only [pure, Except.pure, Except.ok.injEq] at k4
    exact k4.symm
  subst hst'
  clear k4
  have hs_eq : s = r.1 := Option.some.inj e0
  subst hs_eq
  obtain ⟨hs, c1, c2, c3⟩ := hi.chain r.1 r.2 hsg ha
  obtain ⟨d1, d2, d3, d4⟩ := dtor_loop_inv hs _ _ _ _ c1 h1
  have hsk : st4.skel = (st1.log (.destroyed r.1)).skel :=
    (skel_unlink h4).trans (skel_clear _ _ _ _ h3)
  refine ⟨hs, c3, ?_, ?_, ?_⟩
  · intro i hd hh
    obtain ⟨hd1, e1, e2, e3⟩ := d4 i hd hh
    obtain ⟨hd4, e4, e5, e6⟩ := skel_holder hsk (show (st1.log _).holders[i]? = some hd1 from e1)
    exact ⟨hd4, e4, e6.trans e2, e5.trans e3⟩
  · intro z g hz hg
    simp only [State.setSig, getElem?_upd, Ne.symm hz, if_false] at hg
    obtain ⟨g0, e1, e2, e3⟩ := skel_sig hsk.symm hg
    exact ⟨g0, by rw [← d1]; exact e1, e2, e3⟩
  · intro g hg
    simp only [State.setSig, getElem?_upd, if_true] at hg
    cases h4' : st4.sigs[r.1]? with
    | none => simp [h4'] at hg
    | some g4 =>
      simp only [h4', Option.map_some', Option.some.injEq] at hg
      rw [← hg]

theorem Keeps.on_destroy {st st' : State} {s : Nat} (hi : Coherent st)
    (h : signal.dtor s st = .ok st') : Keeps st st' := by
  obtain ⟨hs, c3, hhold, hF1, hF3⟩ := dtor_effect hi h
  intro z g hz hga
  have hzs : z ≠ s := by
    rintro rfl
    have := hF3 g hz
    rw [hga] at this
    cases this
  obtain ⟨g0, e1, _, e3⟩ := hF1 z g hzs hz
  refine ⟨⟨g0, e1, e3.trans hga⟩, ?_⟩
  intro i hd _ hh hsig
  obtain ⟨hd', m1, _, m3⟩ := hhold i hd hh
  have him : i ∉ hs := by
    intro hm
    obtain ⟨x, x1, x2⟩ := (c3 i).mp hm
    rw [hh] at x1
    cases x1
    rw [hsig] at x2
    exact hzs (Option.some.inj x2)
  rw [if_neg him] at m3
  exact ⟨hd', m1, m3.trans hsig⟩

theorem run_keeps {emit : Nat → State → Res State} (he : GoodEmit emit)
    (hk : ∀ (s : Nat) (st st' : State), Coherent st → emit s st = .ok st' → Keeps st st') :
    ∀ (a : Action) (st st' : State), Coherent st → a.run emit st = .ok st' → Keeps st st' := by
  intro a
  induction a with
  | disconnect c =>
    intro st st' _ h
    exact Keeps.by_skel (skel_disconnect (show connection.disconnect c st = .ok st' from h))
  | emit s =>
    intro st st' hi h
    exact hk s st st' hi h
  | destroy s =>
    intro st st' hi h
    exact Keeps.on_destroy hi (show signal.dtor s st = .ok st' from h)
  | move b =>
    intro st st' _ h
    simp only [Action.run] at h
    obtain ⟨r, h1, h2⟩ := bind_ok h
    have e : st' = r.2 := by
      simp only [pure, Except.pure, Except.ok.injEq] at h2
      exact h2.symm
    subst e
    exact Keeps.by_skel (skel_move_ctor h1)
  | move_assign a b =>
    intro st st' _ h
    exact Keeps.by_skel (skel_move_assign (show connection.move_assign a b st = .ok st' from h))
  | connect s f =>
    intro st st' _ h
    simp only [Action.run] at h
    obtain ⟨r, h1, h2⟩ := bind_ok h
    have e : st' = r.2 := by
      simp only [pure, Except.pure, Except.ok.injEq] at h2
      exact h2.symm
    subst e
    exact Keeps.by_skel (skel_connect h1)
  | once g a ih =>
    intro st st' hi h
    have hgood := run_good he (.once g a) st st' hi h
    simp only [Action.run] at h
    split at h
    · cases h
      exact Keeps.unchanged _
    · have hsk : State.skel { st with fired := g :: st.fired } = st.skel := rfl
      refine (Keeps.by_skel hsk).and_then (ih _ st' (hi.of_skel hsk) h) ?_
      exact le_of_eq hgood.2.1

theorem body_keeps {emit : Nat → State → Res State} (he : GoodEmit emit)
    (hk : ∀ (s : Nat) (st st' : State), Coherent st → emit s st = .ok st' → Keeps st st') :
    ∀ (body : List Action) (st st' : State), Coherent st → runBody emit body st = .ok st' →
      Keeps st st' := by
  intro body
  induction body with
  | nil =>
    intro st st' _ h
    cases h
    exact Keeps.unchanged _
  | cons a as ih =>
    intro st st' hi h
    simp only [runBody] at h
    obtain ⟨s1, h1, h2⟩ := bind_ok h
    obtain ⟨i1, _⟩ := run_good he a st s1 hi h1
    obtain ⟨_, m2⟩ := body_good he as s1 st' i1 h2
    exact (run_keeps he hk a st s1 hi h1).and_then (ih s1 st' i1 h2) (le_of_eq m2.1)

/-- The destructor of the top cursor keeps every live signal and the cursors
below. -/
theorem exit_keeps {st st' : State} {H : Nat} {hd : iterator_holder} (hi : Coherent st)
    (hlen : st.holders.length = H + 1) (hh : st.holders[H]? = some hd)
    (h : iterator_holder.dtor H st = .ok st') : Keeps st st' := by
  obtain ⟨h1, h2⟩ := holders_split hlen hh
  have low : ∀ (i : Nat) (x : iterator_holder), i < st.holders.dropLast.length →
      st.holders[i]? = some x → st.holders.dropLast[i]? = some x := by
    intro i x hlt hx
    rw [h1, List.getElem?_append_left hlt] at hx
    exact hx
  cases hsig : hd.sig with
  | none =>
    obtain ⟨x1, _, _⟩ := exit_none hi hlen hh hsig
    rw [x1] at h
    cases h
    exact Keeps.of_parts (fun _ sg e => ⟨sg, e, rfl⟩) (fun i x hlt e => ⟨x, low i x hlt e, rfl⟩)
  | some s =>
    obtain ⟨sg, hsg, ha, ht, _⟩ := hi.pop_some h1 hsig
    have := dtor_top sg st.holders.dropLast hd h1 hsig hsg ha ht
    rw [h2, h] at this
    cases this
    refine Keeps.of_parts ?_ (fun i x hlt e => ⟨x, low i x hlt e, rfl⟩)
    intro z sg' e
    simp only [getElem?_upd] at e
    split at e
    · cases hz : st.sigs[z]? with
      | none => simp [hz] at e
      | some g =>
        simp only [hz, Option.map_some', Option.some.injEq] at e
        exact ⟨g, rfl, by rw [← e]⟩
    · exact ⟨sg', e, rfl⟩

theorem loop_keeps (prog : Prog) {emit : Nat → State → Res State} (he : GoodEmit emit)
    (hk : ∀ (s : Nat) (st st' : State), Coherent st → emit s st = .ok st' → Keeps st st')
    (s H : Nat) : ∀ (fuel : Nat) (st st' : State), Coherent st →
      st.holders.length = H + 1 →
      (∃ hd : iterator_holder, st.holders[H]? = some hd ∧ hd.sig = some s) →
      signal.loop prog emit s H fuel st = .ok st' → Keeps st st' := by
  intro fuel
  induction fuel with
  | zero => intro st st' _ _ _ h; cases h
  | succ n ih =>
    intro st st' hi hlen hhd h
    obtain ⟨hd, hh, hsig⟩ := hhd
    unfold signal.loop at h
    obtain ⟨hd0, e0, k1⟩ := bind_ok h
    clear h
    have := derefHolder_inv e0
    rw [hh] at this
    cases this
    split at k1
    · dsimp only at k1
      obtain ⟨nx, _, k2⟩ := bind_ok k1
      clear k1
      obtain ⟨stb, hcall, k3⟩ := bind_ok k2
      clear k2
      obtain ⟨hdb, eb, k4⟩ := bind_ok k3
      clear k3
      have hska : (st.setHolder H fun h => { h with current := nx }).skel = st.skel :=
        skel_setHolder _ _ _ (fun _ => ⟨rfl, rfl⟩)
      have hia := hi.of_skel hska
      obtain ⟨sg, hsg, ha⟩ := hi.live H hd s hh hsig
      obtain ⟨sga, hsga, _, haa⟩ := skel_sig hska hsg
      unfold connection.call at hcall
      obtain ⟨r, _, k5⟩ := bind_ok hcall
      clear hcall
      dsimp only at k5
      split at k5
      · cases k5
      · rename_i f hf
        have hil := hia.log_invoked hsga (haa.trans ha) r.1 f
        obtain ⟨ib, mb⟩ := body_good he _ _ _ hil k5
        have kb := body_keeps he hk _ _ _ hil k5
        have lenb : stb.holders.length = st.holders.length :=
          mb.1.trans (skel_length hska : _ = st.holders.length)
        have kab : Keeps st stb :=
          ((Keeps.by_skel hska).and_then (Keeps.on_log _ _) (le_refl _)).and_then kb (le_of_eq mb.1)
        have hlenb : stb.holders.length = H + 1 := lenb.trans hlen
        have hhb := derefHolder_inv eb
        split at k4
        · exact kab.and_then (exit_keeps ib hlenb hhb k4) (by
            obtain ⟨x1, _, x3⟩ := exit_none ib hlenb hhb (by assumption)
            rw [x1] at k4
            cases k4
            simp)
        · rename_i hsome
          have mab : Mono st stb := (Mono.same_skel hska).trans
            (Mono.trans (⟨rfl, fun _ x hx => ⟨x, hx, Or.inl rfl⟩⟩ :
              Mono (st.setHolder H fun h => { h with current := nx })
                ((st.setHolder H fun h => { h with current := nx }).log
                  (.invoked (some s) r.1 f))) mb)
          obtain ⟨x, hx1, hx2⟩ := mab.2 H hd hh
          rw [hhb] at hx1
          cases hx1
          have hs' : hdb.sig = some s := by
            rcases hx2 with e | e
            · exact e.trans hsig
            · exact absurd e hsome
          obtain ⟨_, pm⟩ := loop_good prog he s H n stb st' ib hlenb ⟨hdb, hhb, hs'⟩ k4
          exact kab.and_then (ih stb st' ib hlenb ⟨hdb, hhb, hs'⟩ k4) (by have := pm.1; omega)
    · exact exit_keeps hi hlen hh k1

/-- Every dispatch that returns keeps, for each signal that is still alive, all the
cursors that referred to it. -/
theorem call_keeps (prog : Prog) : ∀ (fuel s : Nat) (st st' : State), Coherent st →
    signal.call prog fuel s st = .ok st' → Keeps st st' := by
  intro fuel
  induction fuel with
  | zero => intro s st st' _ h; cases h
  | succ n ih =>
    intro s st st' hi h
    unfold signal.call at h
    obtain ⟨r, hc, k1⟩ := bind_ok h
    clear h
    have hc' := hc
    unfold iterator_holder.ctor at hc'
    obtain ⟨r0, hr0, _⟩ := bind_ok hc'
    obtain ⟨e0, hsg, ha⟩ := derefSig_inv hr0
    have e1 : s = r0.1 := Option.some.inj e0
    rw [← e1] at hsg
    rw [ctor_ok hsg ha] at hc
    cases hc
    have hent := hi.enter hsg ha r0.2.fake_.next
    obtain ⟨_, pm⟩ := loop_good prog (call_good prog n) s st.holders.length n _ st'
      hent (by simp) ⟨_, holders_enter_top _ _ _ _, rfl⟩ k1
    exact (Keeps.on_enter st s _ _).and_then
      (loop_keeps prog (call_good prog n) (ih) s st.holders.length n _ st'
        hent (by simp) ⟨_, holders_enter_top _ _ _ _, rfl⟩ k1) (by have := pm.1; omega)

theorem sorted_desc_ext {l1 l2 : List Nat} (h1 : l1.Sorted (fun a b => b < a))
    (h2 : l2.Sorted (fun a b => b < a)) (h : ∀ i, i ∈ l1 ↔ i ∈ l2) : l1 = l2 := by
  have s1 : l1.Sorted (· > ·) := h1
  have s2 : l2.Sorted (· > ·) := h2
  exact List.eq_of_perm_of_sorted ((List.perm_ext_iff_of_nodup s1.nodup s2.nodup).mpr h) s1 s2

theorem Chain.head_eq {st st' : State} {t t' : Option Nat} {hs : List Nat}
    (h : Chain st t hs) (h' : Chain st' t' hs) : t = t' := by
  cases hs with
  | nil =>
    cases t <;> cases t' <;> simp_all [Chain]
  | cons x xs =>
    cases t <;> cases t' <;> simp_all [Chain]

theorem Chain.push {st : State} {s : Nat} {t : Option Nat} {hs : List Nat} (q : Option Ptr)
    (h : Chain st t hs) :
    Chain (st.enter s q t) (some st.holders.length) (st.holders.length :: hs) := by
  unfold Chain
  refine ⟨rfl, ?_⟩
  rw [holders_enter_top]
  exact h.of_prev (fun i _ hd hh =>
    ⟨hd, by rw [holders_enter_lt (holder_lt hh)]; exact hh, rfl⟩)

/-- The memory `abc_nested`, with its two dispatches in progress, is coherent. -/
theorem coherent_abc_nested : Coherent abc_nested := by
  refine ⟨?_, ?_, ?_, ?_⟩
  · intro i hd s h1 h2
    have hlt : i < 2 := holder_lt h1
    have hs : s = 0 := by
      interval_cases i <;> simp [abc_nested] at h1 <;> subst h1 <;> simp at h2 <;> exact h2.symm
    subst hs
    exact ⟨_, rfl, rfl⟩
  · intro s sg h1 _
    have hlt : s < 1 := index_lt_of_getElem? h1
    have hs : s = 0 := by omega
    subst hs
    have : sg = ⟨⟨some (.conn 0), some (.conn 2)⟩, some 1, true⟩ := by
      simp [abc_nested] at h1
      exact h1.symm
    subst this
    refine ⟨[1, 0], by decide, by decide, ?_⟩
    intro i
    constructor
    · intro hm
      simp only [List.mem_cons, List.mem_singleton, List.not_mem_nil, or_false] at hm
      rcases hm with rfl | rfl
      · exact ⟨_, rfl, rfl⟩
      · exact ⟨_, rfl, rfl⟩
    · rintro ⟨hd, e1, _⟩
      have hlt : i < 2 := holder_lt e1
      interval_cases i <;> simp
  · intro s sg hm
    cases hm
  · intro pre post s c f h
    cases pre <;> cases h

/-- What a dispatch leaves behind: from a coherent memory, whatever the callables
do and however dispatches nest, the constructor of the cursor pushes one cursor
on top of the chain of `s`; and when the dispatch returns, the stack of cursors
has the height it had, and for every signal that still exists the chain
`tail -> prev -> ...` is the one it was on entry, listing, each once, exactly the
cursors on the stack that refer to the signal. -/
theorem dispatch_exit (prog : Prog) (fuel s : Nat) (st st' : State)
    (hi : Coherent st) (h : signal.call prog fuel s st = .ok st') :
    st'.holders.length = st.holders.length ∧
    (∃ sg : signal, st.sigs[s]? = some sg ∧ sg.alive = true ∧
      iterator_holder.ctor s st =
        .ok (st.holders.length, st.enter s sg.fake_.next sg.tail) ∧
      (st.enter s sg.fake_.next sg.tail).holders.length = st.holders.length + 1 ∧
      ∀ hs : List Nat, Chain st sg.tail hs →
        Chain (st.enter s sg.fake_.next sg.tail) (some st.holders.length)
          (st.holders.length :: hs)) ∧
    ∀ (z : Nat) (sg' : signal), st'.sigs[z]? = some sg' → sg'.alive = true →
      ∃ (sg : signal) (hs : List Nat), st.sigs[z]? = some sg ∧ sg.alive = true ∧
        sg'.tail = sg.tail ∧ Chain st sg.tail hs ∧ Chain st' sg'.tail hs ∧ hs.Nodup ∧
        (∀ i : Nat, i ∈ hs ↔
          ∃ hd : iterator_holder, st.holders[i]? = some hd ∧ hd.sig = some z) ∧
        (∀ i : Nat, i ∈ hs ↔
          ∃ hd : iterator_holder, st'.holders[i]? = some hd ∧ hd.sig = some z) := by
  obtain ⟨hi', hm⟩ := call_good prog fuel s st st' hi h
  have hk := call_keeps prog fuel s st st' hi h
  refine ⟨hm.1, ?_, ?_⟩
  · cases fuel with
    | zero => cases h
    | succ n =>
      unfold signal.call at h
      obtain ⟨r, hc, _⟩ := bind_ok h
      unfold iterator_holder.ctor at hc
      obtain ⟨r0, hr0, _⟩ := bind_ok hc
      obtain ⟨e0, hsg, ha⟩ := derefSig_inv hr0
      have e1 : s = r0.1 := Option.some.inj e0
      rw [← e1] at hsg
      exact ⟨r0.2, hsg, ha, ctor_ok hsg ha, by simp, fun hs hch => hch.push _⟩
  · intro z sg' hz ha'
    obtain ⟨⟨sg, hsg, ha⟩, hkeep⟩ := hk z sg' hz ha'
    obtain ⟨hs, c1, c2, c3⟩ := hi.chain z sg hsg ha
    obtain ⟨hs', d1, d2, d3⟩ := hi'.chain z sg' hz ha'
    have hmem : ∀ i, i ∈ hs ↔ i ∈ hs' := by
      intro i
      rw [c3, d3]
      constructor
      · rintro ⟨hd, e1, e2⟩
        exact hkeep i hd (by rw [hm.1]; exact holder_lt e1) e1 e2
      · rintro ⟨hd', e1, e2⟩
        have hlt : i < st.holders.length := by rw [← hm.1]; exact holder_lt e1
        obtain ⟨x, x1, x2⟩ := hm.2 i _ (List.getElem?_eq_getElem hlt)
        rw [e1] at x1
        cases x1
        refine ⟨_, List.getElem?_eq_getElem hlt, ?_⟩
        rcases x2 with x2 | x2
        · exact x2.symm.trans e2
        · rw [e2] at x2
          cases x2
    have heq := sorted_desc_ext c2 d2 hmem
    subst heq
    have c2' : hs.Sorted (· > ·) := c2
    exact ⟨sg, hs, hsg, ha, (c1.head_eq d1).symm, c1, d1, c2'.nodup, c3, d3⟩
/-! ## The dispatch with its points is the dispatch -/

theorem runH_result {emit : Nat → State → Res State}
    {emitH : Nat → State → List (Nat × State) × Res State}
    (he : ∀ z σ, (emitH z σ).2 = emit z σ) :
    ∀ (a : Action) (st : State), (Action.runH emitH a st).2 = a.run emit st := by
  intro a
  induction a with
  | emit s => intro st; exact he s st
  | once g a ih =>
    intro st
    simp only [Action.runH, Action.run]
    split
    · rfl
    · exact ih _
  | _ => intro st; rfl

theorem runBodyH_result {emit : Nat → State → Res State}
    {emitH : Nat → State → List (Nat × State) × Res State}
    (he : ∀ z σ, (emitH z σ).2 = emit z σ) (d : Nat) :
    ∀ (body : List Action) (st : State), (runBodyH emitH d body st).2 = runBody emit body st := by
  intro body
  induction body with
  | nil => intro st; rfl
  | cons a as ih =>
    intro st
    simp only [runBodyH, runBody, bind, Except.bind]
    rw [← runH_result he a st]
    cases (Action.runH emitH a st).2 with
    | error e => rfl
    | ok st' => exact ih st'

theorem callH_result {emit : Nat → State → Res State}
    {emitH : Nat → State → List (Nat × State) × Res State}
    (he : ∀ z σ, (emitH z σ).2 = emit z σ) (prog : Prog) (d : Nat) (by_sig : Option Nat)
    (copy : Option Ptr) (st : State) :
    (connection.callH prog emitH d by_sig copy st).2 =
      connection.call prog emit by_sig copy st := by
  simp only [connection.callH, connection.call, bind, Except.bind]
  cases derefConn st copy with
  | error e => rfl
  | ok r =>
    obtain ⟨c, cn⟩ := r
    simp only
    cases cn.func with
    | none => rfl
    | some f => exact runBodyH_result he d _ _

theorem loopH_result {emit : Nat → State → Res State}
    {emitH : Nat → State → List (Nat × State) × Res State}
    (he : ∀ z σ, (emitH z σ).2 = emit z σ) (prog : Prog) (d this holder : Nat) :
    ∀ (fuel : Nat) (st : State),
      (signal.loopH prog emitH d this holder fuel st).2 =
        signal.loop prog emit this holder fuel st := by
  intro fuel
  induction fuel with
  | zero => intro st; rfl
  | succ n ih =>
    intro st
    simp only [signal.loopH, signal.loop, bind, Except.bind]
    cases derefHolder st holder with
    | error e => rfl
    | ok hd =>
      simp only
      split
      · cases getNext hd.current st with
        | error e => rfl
        | ok nx =>
          simp only
          rw [← callH_result he prog d (some this) hd.current]
          cases (connection.callH prog emitH d (some this) hd.current
              (st.setHolder holder fun h => { h with current := nx })).2 with
          | error e => rfl
          | ok st' =>
            simp only
            cases derefHolder st' holder with
            | error e => rfl
            | ok hd' =>
              simp only
              split
              · rfl
              · exact ih st'
      · rfl

theorem signal_callH_result (prog : Prog) :
    ∀ (fuel d this : Nat) (st : State),
      (signal.callH prog fuel d this st).2 = signal.call prog fuel this st := by
  intro fuel
  induction fuel with
  | zero => intro d this st; rfl
  | succ n ih =>
    intro d this st
    simp only [signal.callH, signal.call, bind, Except.bind]
    cases iterator_holder.ctor this st with
    | error e => rfl
    | ok r =>
      obtain ⟨holder, st'⟩ := r
      exact loopH_result (fun z σ => ih (d + 1) z σ) prog (d + 1) this holder n st'

/-! ## The cursor stack at every point of a dispatch -/

theorem Later.here (st : State) : Later st st :=
  ⟨fun _ hd h => ⟨hd, h, Or.inl rfl⟩, Keeps.unchanged st⟩

theorem Later.step {a b c : State} (h1 : Later a b) (h2 : Later b c) : Later a c := by
  refine ⟨?_, ?_⟩
  · intro i hd h
    obtain ⟨x, x1, x2⟩ := h1.1 i hd h
    obtain ⟨y, y1, y2⟩ := h2.1 i x x1
    refine ⟨y, y1, ?_⟩
    rcases y2 with y2 | y2
    · rcases x2 with x2 | x2
      · exact Or.inl (y2.trans x2)
      · exact Or.inr (y2.trans x2)
    · exact Or.inr y2
  · intro z sg' e1 e2
    obtain ⟨⟨sgb, e3, e4⟩, k2⟩ := h2.2 z sg' e1 e2
    obtain ⟨⟨sga, e5, e6⟩, k1⟩ := h1.2 z sgb e3 e4
    refine ⟨⟨sga, e5, e6⟩, ?_⟩
    intro i hd hlt e7 e8
    obtain ⟨x, x1, _⟩ := h1.1 i hd e7
    obtain ⟨hdb, m1, m2⟩ := k1 i hd (holder_lt x1) e7 e8
    exact k2 i hdb hlt m1 m2

theorem Later.of_mono {st σ : State} (h1 : Mono st σ) (h2 : Keeps st σ) : Later st σ :=
  ⟨h1.2, h2⟩

theorem Later.of_skel_eq {st σ : State} (h : σ.skel = st.skel) : Later st σ :=
  Later.of_mono (Mono.same_skel h) (Keeps.by_skel h)

theorem Later.after_log (st : State) (e : Event) : Later st (st.log e) :=
  ⟨fun _ hd h => ⟨hd, h, Or.inl rfl⟩, Keeps.on_log st e⟩

theorem Later.after_enter (st : State) (s : Nat) (q : Option Ptr) (t : Option Nat) :
    Later st (st.enter s q t) :=
  ⟨fun i hd h => ⟨hd, by rw [holders_enter_lt (holder_lt h)]; exact h, Or.inl rfl⟩,
    Keeps.on_enter st s q t⟩

theorem Within.start {st : State} (hi : Coherent st) (d : Nat) : Within st d (d, st) :=
  ⟨hi, Later.here st, 0, rfl, rfl⟩

theorem Within.shift {st σ : State} {d j : Nat} {p : Nat × State} (h : Within σ (d + j) p)
    (hl : Later st σ) (hlen : σ.holders.length = st.holders.length + j) : Within st d p := by
  obtain ⟨h1, h2, k, h3, h4⟩ := h
  exact ⟨h1, hl.step h2, j + k, by omega, by omega⟩

theorem runH_points {emitH : Nat → State → List (Nat × State) × Res State} {d : Nat}
    (hp : ∀ z σ, Coherent σ → ∀ p ∈ (emitH z σ).1, Within σ d p ∧ d < p.1) :
    ∀ (a : Action) (st : State), Coherent st →
      ∀ p ∈ (Action.runH emitH a st).1, Within st d p ∧ d < p.1 := by
  intro a
  induction a with
  | emit s => intro st hi p hm; exact hp s st hi p hm
  | once g a ih =>
    intro st hi p hm
    simp only [Action.runH] at hm
    split at hm
    · cases hm
    · have hsk : State.skel { st with fired := g :: st.fired } = st.skel := rfl
      obtain ⟨h1, h2⟩ := ih _ (hi.of_skel hsk) p hm
      exact ⟨Within.shift (j := 0) h1 (Later.of_skel_eq hsk) rfl, h2⟩
  | _ => intro st hi p hm; cases hm

theorem runBodyH_points {emit : Nat → State → Res State}
    {emitH : Nat → State → List (Nat × State) × Res State} {d : Nat}
    (he : ∀ z σ, (emitH z σ).2 = emit z σ) (hg : GoodEmit emit)
    (hk : ∀ (s : Nat) (st st' : State), Coherent st → emit s st = .ok st' → Keeps st st')
    (hp : ∀ z σ, Coherent σ → ∀ p ∈ (emitH z σ).1, Within σ d p ∧ d < p.1) :
    ∀ (body : List Action) (st : State), Coherent st →
      ∀ p ∈ (runBodyH emitH d body st).1, Within st d p := by
  intro body
  induction body with
  | nil =>
    intro st hi p hm
    simp only [runBodyH, List.mem_singleton] at hm
    subst hm
    exact Within.start hi d
  | cons a as ih =>
    intro st hi p hm
    have hpts := runH_points hp a st hi
    simp only [runBodyH] at hm
    cases hr : (Action.runH emitH a st).2 with
    | error e =>
      simp only [hr, List.mem_cons] at hm
      rcases hm with rfl | hm
      · exact Within.start hi d
      · exact (hpts p hm).1
    | ok st' =>
      simp only [hr, List.mem_cons, List.mem_append] at hm
      rcases hm with (rfl | hm) | hm
      · exact Within.start hi d
      · exact (hpts p hm).1
      · have hrun : a.run emit st = .ok st' := by rw [← runH_result he a st, hr]
        obtain ⟨i1, m1⟩ := run_good hg a st st' hi hrun
        have k1 := run_keeps hg hk a st st' hi hrun
        exact Within.shift (j := 0) (ih st' i1 p hm) (Later.of_mono m1 k1) m1.1

theorem loopH_points (prog : Prog) {emit : Nat → State → Res State}
    {emitH : Nat → State → List (Nat × State) × Res State} {d : Nat}
    (he : ∀ z σ, (emitH z σ).2 = emit z σ) (hg : GoodEmit emit)
    (hk : ∀ (s : Nat) (st st' : State), Coherent st → emit s st = .ok st' → Keeps st st')
    (hp : ∀ z σ, Coherent σ → ∀ p ∈ (emitH z σ).1, Within σ d p ∧ d < p.1)
    (s H : Nat) : ∀ (fuel : Nat) (st : State), Coherent st →
      st.holders.length = H + 1 →
      (∃ hd : iterator_holder, st.holders[H]? = some hd ∧ hd.sig = some s) →
      ∀ p ∈ (signal.loopH prog emitH d s H fuel st).1, Within st d p := by
  intro fuel
  induction fuel with
  | zero => intro st _ _ _ p hm; cases hm
  | succ n ih =>
    intro st hi hlen hhd p hm
    obtain ⟨hd, hh, hsig⟩ := hhd
    simp only [signal.loopH] at hm
    cases e0 : derefHolder st H with
    | error e =>
      simp only [e0] at hm
      cases hm
    | ok hd0 =>
      have := derefHolder_inv e0
      rw [hh] at this
      cases this
      simp only [e0] at hm
      split at hm
      swap
      · cases hm
      cases e1 : getNext hd.current st with
      | error e =>
        simp only [e1] at hm
        cases hm
      | ok nx =>
        simp only [e1] at hm
        -- the memory in which the connection is called
        have hska : (st.setHolder H fun h => { h with current := nx }).skel = st.skel :=
          skel_setHolder _ _ _ (fun _ => ⟨rfl, rfl⟩)
        have hia := hi.of_skel hska
        obtain ⟨sg, hsg, ha⟩ := hi.live H hd s hh hsig
        obtain ⟨sga, hsga, _, haa⟩ := skel_sig hska hsg
        generalize hsa : (st.setHolder H fun h => { h with current := nx }) = sa at hm hska hia hsga
        have hlena : sa.holders.length = st.holders.length := skel_length hska
        -- the points of the callable
        have hbody : ∀ p ∈ (connection.callH prog emitH d (some s) hd.current sa).1,
            Within st d p := by
          intro p hm
          simp only [connection.callH] at hm
          cases e2 : derefConn sa hd.current with
          | error e =>
            simp only [e2] at hm
            cases hm
          | ok r =>
            obtain ⟨c, cn⟩ := r
            simp only [e2] at hm
            cases e3 : cn.func with
            | none =>
              simp only [e3] at hm
              cases hm
            | some f =>
              simp only [e3] at hm
              have hil := hia.log_invoked hsga (haa.trans ha) c f
              exact Within.shift (j := 0) (runBodyH_points he hg hk hp _ _ hil p hm)
                ((Later.of_skel_eq hska).step (Later.after_log _ _)) hlena
        cases e4 : (connection.callH prog emitH d (some s) hd.current sa).2 with
        | error e =>
          simp only [e4] at hm
          exact hbody p hm
        | ok stb =>
          simp only [e4] at hm
          cases e5 : derefHolder stb H with
          | error e =>
            simp only [e5] at hm
            exact hbody p hm
          | ok hdb =>
            simp only [e5] at hm
            split at hm
            · exact hbody p hm
            · rename_i hsome
              rcases List.mem_append.mp hm with hm | hm
              · exact hbody p hm
              -- the memory in which the callable has returned
              have hcall : connection.call prog emit (some s) hd.current sa = .ok stb := by
                rw [← callH_result he prog d (some s) hd.current sa, e4]
              unfold connection.call at hcall
              obtain ⟨r, _, k5⟩ := bind_ok hcall
              dsimp only at k5
              split at k5
              · cases k5
              · rename_i f hf
                have hil := hia.log_invoked hsga (haa.trans ha) r.1 f
                obtain ⟨ib, mb⟩ := body_good hg _ _ _ hil k5
                have kb := body_keeps hg hk _ _ _ hil k5
                have lab : Later st stb :=
                  ((Later.of_skel_eq hska).step (Later.after_log _ _)).step (Later.of_mono mb kb)
                have lenb : stb.holders.length = st.holders.length := mb.1.trans hlena
                have hhb := derefHolder_inv e5
                obtain ⟨x, hx1, hx2⟩ := lab.1 H hd hh
                rw [hhb] at hx1
                cases hx1
                have hs' : hdb.sig = some s := by
                  rcases hx2 with e | e
                  · exact e.trans hsig
                  · exact absurd e hsome
                exact Within.shift (j := 0)
                  (ih stb ib (lenb.trans hlen) ⟨hdb, hhb, hs'⟩ p hm) lab lenb

theorem callH_points (prog : Prog) : ∀ (fuel d s : Nat) (st : State), Coherent st →
    ∀ p ∈ (signal.callH prog fuel d s st).1, Within st d p ∧ d < p.1 := by
  intro fuel
  induction fuel with
  | zero => intro d s st _ p hm; cases hm
  | succ n ih =>
    intro d s st hi p hm
    simp only [signal.callH] at hm
    cases hc : iterator_holder.ctor s st with
    | error e =>
      simp only [hc] at hm
      cases hm
    | ok r =>
      obtain ⟨H, st1⟩ := r
      simp only [hc] at hm
      have hc' := hc
      unfold iterator_holder.ctor at hc'
      obtain ⟨r0, hr0, _⟩ := bind_ok hc'
      obtain ⟨e0, hsg, ha⟩ := derefSig_inv hr0
      have e1 : s = r0.1 := Option.some.inj e0
      rw [← e1] at hsg
      rw [ctor_ok hsg ha] at hc
      cases hc
      have hw := loopH_points prog (fun z σ => signal_callH_result prog n (d + 1) z σ)
        (call_good prog n) (call_keeps prog n) (fun z σ hσ => ih (d + 1) z σ hσ)
        s st.holders.length n _ (hi.enter hsg ha _) (by simp)
        ⟨_, holders_enter_top _ _ _ _, rfl⟩ p hm
      refine ⟨Within.shift (j := 1) hw (Later.after_enter _ _ _ _) (by simp), ?_⟩
      obtain ⟨_, _, k, hk1, _⟩ := hw
      omega
theorem countP_indices {α : Type} (q : α → Bool) : ∀ l : List α,
    ((List.range l.length).filter fun i => (l[i]?).any q).length = l.countP q
  | [] => rfl
  | a :: l => by
    have ih := countP_indices q l
    rw [List.length_cons, List.range_succ_eq_map, List.filter_cons, List.filter_map,
      List.countP_cons]
    have e : ((fun i => ((a :: l)[i]?).any q) ∘ Nat.succ) = fun i => (l[i]?).any q := by
      funext i
      simp
    rw [e]
    by_cases ha : q a = true
    · simp [ha, ih]
    · simp [ha, ih]

/-- A list without repetition of exactly the cursors that refer to `z` has as
many elements as there are frames of `z` in progress. -/
theorem length_eq_frames {σ : State} {z : Nat} {hs : List Nat} (hnd : hs.Nodup)
    (hm : ∀ i : Nat, i ∈ hs ↔
      ∃ hd : iterator_holder, σ.holders[i]? = some hd ∧ hd.sig = some z) :
    hs.length = σ.frames z := by
  unfold State.frames
  rw [← countP_indices]
  apply List.Perm.length_eq
  rw [List.perm_ext_iff_of_nodup hnd ((List.nodup_range _).filter _)]
  intro i
  rw [hm, List.mem_filter, List.mem_range]
  constructor
  · rintro ⟨hd, e1, e2⟩
    exact ⟨holder_lt e1, by simp [e1, e2]⟩
  · rintro ⟨hlt, e⟩
    rw [List.getElem?_eq_getElem hlt] at e
    exact ⟨_, List.getElem?_eq_getElem hlt, by simpa using e⟩

/-- At every point of a dispatch of `s`, the cursor that the dispatch pushed on
entry is on the stack, at the height the stack had on entry; it refers to `s`, or
to none once `s` is destroyed. -/
theorem callH_own (prog : Prog) (fuel d s : Nat) (st : State) (hi : Coherent st) :
    ∀ p ∈ (signal.callH prog fuel d s st).1,
      ∃ hd : iterator_holder, p.2.holders[st.holders.length]? = some hd ∧
        (hd.sig = some s ∨ hd.sig = none) ∧
        ∀ sg' : signal, p.2.sigs[s]? = some sg' → sg'.alive = true → hd.sig = some s := by
  intro p hm
  cases fuel with
  | zero => cases hm
  | succ n =>
    simp only [signal.callH] at hm
    cases hc : iterator_holder.ctor s st with
    | error e =>
      simp only [hc] at hm
      cases hm
    | ok r =>
      obtain ⟨H, st1⟩ := r
      simp only [hc] at hm
      have hc' := hc
      unfold iterator_holder.ctor at hc'
      obtain ⟨r0, hr0, _⟩ := bind_ok hc'
      obtain ⟨e0, hsg, ha⟩ := derefSig_inv hr0
      have e1 : s = r0.1 := Option.some.inj e0
      rw [← e1] at hsg
      rw [ctor_ok hsg ha] at hc
      cases hc
      obtain ⟨_, hl, k, _, hk2⟩ := loopH_points prog
        (fun z σ => signal_callH_result prog n (d + 1) z σ)
        (call_good prog n) (call_keeps prog n) (fun z σ hσ => callH_points prog n (d + 1) z σ hσ)
        s st.holders.length n _ (hi.enter hsg ha _) (by simp)
        ⟨_, holders_enter_top _ _ _ _, rfl⟩ p hm
      obtain ⟨hd, h1, h2⟩ := hl.1 _ _ (holders_enter_top st s r0.2.fake_.next r0.2.tail)
      refine ⟨hd, h1, h2, ?_⟩
      intro sg' hs' ha'
      obtain ⟨hd', x1, x2⟩ := (hl.2 s sg' hs' ha').2 _ _ (holder_lt h1)
        (holders_enter_top st s r0.2.fake_.next r0.2.tail) rfl
      rw [h1] at x1
      cases x1
      exact x2

/-- C16: take the dispatch `signal::operator()` of `s` together with the points
it goes through (every memory in which an action of a callable starts or a
callable returns, in this dispatch and in every dispatch nested in it); its result
is that of the dispatch.  From a coherent memory, whatever the callables do and
however the dispatches nest, at every such point: the stack of cursors is higher
than on entry by exactly the number of dispatches in progress since; the cursor
this dispatch pushed is on it, referring to `s` as long as `s` exists; and for
every signal that exists, the chain `tail -> prev -> ...` lists, each once,
exactly the cursors on the stack that refer to the signal, so that its length is
the number of frames of that signal in progress, those below the entry height
being the ones that were there on entry.  And when the dispatch returns, the stack has the height it had on
entry and the chain of every signal that still exists (`s` included, unless it was
destroyed) is the one it was on entry, head and order included. -/
theorem C16_cursor_stack_invariant (prog : Prog) (fuel s : Nat) (st : State)
    (hi : Coherent st) :
    (signal.callH prog fuel 0 s st).2 = signal.call prog fuel s st ∧
    (∀ p ∈ (signal.callH prog fuel 0 s st).1,
      1 ≤ p.1 ∧ p.2.holders.length = st.holders.length + p.1 ∧
      (∃ hd : iterator_holder, p.2.holders[st.holders.length]? = some hd ∧
        (hd.sig = some s ∨ hd.sig = none) ∧
        ∀ sg' : signal, p.2.sigs[s]? = some sg' → sg'.alive = true → hd.sig = some s) ∧
      ∀ (z : Nat) (sg' : signal), p.2.sigs[z]? = some sg' → sg'.alive = true →
        ∃ hs : List Nat, Chain p.2 sg'.tail hs ∧ hs.Nodup ∧ hs.length = p.2.frames z ∧
          (∀ i : Nat, i ∈ hs ↔
            ∃ hd : iterator_holder, p.2.holders[i]? = some hd ∧ hd.sig = some z) ∧
          ∀ i : Nat, i < st.holders.length →
            (i ∈ hs ↔ ∃ hd : iterator_holder, st.holders[i]? = some hd ∧ hd.sig = some z)) ∧
    ∀ st' : State, signal.call prog fuel s st = .ok st' →
      st'.holders.length = st.holders.length ∧
      ∀ (z : Nat) (sg' : signal), st'.sigs[z]? = some sg' → sg'.alive = true →
        ∃ (sg : signal) (hs : List Nat), st.sigs[z]? = some sg ∧ sg.alive = true ∧
          sg'.tail = sg.tail ∧ Chain st sg.tail hs ∧ Chain st' sg'.tail hs ∧ hs.Nodup ∧
          hs.length = st.frames z ∧ hs.length = st'.frames z ∧
          (∀ i : Nat, i ∈ hs ↔
            ∃ hd : iterator_holder, st.holders[i]? = some hd ∧ hd.sig = some z) ∧
          (∀ i : Nat, i ∈ hs ↔
            ∃ hd : iterator_holder, st'.holders[i]? = some hd ∧ hd.sig = some z) := by
  refine ⟨signal_callH_result prog fuel 0 s st, ?_, ?_⟩
  · intro p hm
    obtain ⟨⟨hco, hl, k, hk1, hk2⟩, hlt⟩ := callH_points prog fuel 0 s st hi p hm
    refine ⟨hlt, by omega, callH_own prog fuel 0 s st hi p hm, ?_⟩
    intro z sg' hz ha'
    obtain ⟨hs, c1, c2, c3⟩ := hco.chain z sg' hz ha'
    have c2' : hs.Sorted (· > ·) := c2
    refine ⟨hs, c1, c2'.nodup, length_eq_frames c2'.nodup c3, c3, ?_⟩
    intro i hlt'
    rw [c3]
    constructor
    · rintro ⟨hd', e1, e2⟩
      obtain ⟨x, x1, x2⟩ := hl.1 i _ (List.getElem?_eq_getElem hlt')
      rw [e1] at x1
      cases x1
      refine ⟨_, List.getElem?_eq_getElem hlt', ?_⟩
      rcases x2 with x2 | x2
      · exact x2.symm.trans e2
      · rw [e2] at x2
        cases x2
    · rintro ⟨hd, e1, e2⟩
      exact (hl.2 z sg' hz ha').2 i hd (by omega) e1 e2
  · intro st' h
    obtain ⟨h1, _, h3⟩ := dispatch_exit prog fuel s st st' hi h
    refine ⟨h1, ?_⟩
    intro z sg' hz ha'
    obtain ⟨sg, hs, x1, x2, x3, x4, x5, x6, x7, x8⟩ := h3 z sg' hz ha'
    exact ⟨sg, hs, x1, x2, x3, x4, x5, x6, length_eq_frames x6 x7, length_eq_frames x6 x8,
      x7, x8⟩

theorem C16_cursor_stack_invariant_witness :
    ((signal.callH (fun f => if f = 12 then [.once 0 (.emit 0)] else []) 6 0 0 abc_nested).1.map
      fun p => (p.1, p.2.holders.length, p.2.frames 0, (p.2.sigs[0]?).bind fun g => g.tail)) =
      [(1, 3, 3, some 2), (2, 4, 4, some 3), (2, 4, 4, some 3), (2, 4, 4, some 3),
        (2, 4, 4, some 3), (1, 3, 3, some 2), (1, 3, 3, some 2), (1, 3, 3, some 2)] ∧
    (∀ p ∈ (signal.callH (fun f => if f = 12 then [.once 0 (.emit 0)] else [])
        6 0 0 abc_nested).1,
      1 ≤ p.1 ∧ p.2.holders.length = abc_nested.holders.length + p.1) ∧
    ∃ st', signal.call (fun f => if f = 12 then [.once 0 (.emit 0)] else []) 6 0 abc_nested =
        .ok st' ∧ st'.holders = abc_nested.holders :=
  ⟨by decide,
    fun p hp =>
      ⟨((C16_cursor_stack_invariant (fun f => if f = 12 then [.once 0 (.emit 0)] else [])
          6 0 abc_nested coherent_abc_nested).2.1 p hp).1,
        ((C16_cursor_stack_invariant (fun f => if f = 12 then [.once 0 (.emit 0)] else [])
          6 0 abc_nested coherent_abc_nested).2.1 p hp).2.1⟩,
    ⟨_, rfl, by decide⟩⟩
/-! ## Move assignment from an unlinked connection; destruction at the end of the list -/

/-- C17, as the claim has it, fails: with `B` linked in the list `C, B, A` of the
memory `abc_d` and `D` default-constructed, the move assignment `B = std::move(D)`
takes the empty callable and the null back-reference of `D` and leaves `B` where
it was in the list.  The next dispatch runs `C`, reaches `B` and calls its empty
callable; and `B.disconnect()` follows the null back-reference. -/
theorem C17_move_assign_from_unlinked_keeps_link :
    Ring abc_d 0 [2, 1, 0] ∧ list_base.is_linked (.conn 3) abc_d = .ok false ∧
    ∃ st', connection.move_assign 1 3 abc_d = .ok st' ∧ Ring st' 0 [2, 1, 0] ∧
      list_base.is_linked (.conn 1) st' = .ok true ∧
      st'.conns[1]? = some ⟨⟨some (.conn 2), some (.conn 0)⟩, none, none⟩ ∧
      signal.call (fun _ => []) 10 0 st' =
        .error ⟨.bad_function_call, [.invoked (some 0) 2 12]⟩ ∧
      connection.disconnect 1 st' = .error ⟨.null_deref, []⟩ :=
  ⟨by decide, by decide, _, rfl, by decide, by decide, by decide, by decide, by decide⟩

/-- C18, as the claim has it, fails: in the memory `abc` let the callable of `A`,
the last connection of the list, destroy the signal.  The dispatch runs `C`, `B`
and `A`; its cursor was advanced to the end of the list before `A` was called, so
the destructor's `(*it->current).func = {}` addresses the sentinel, which is not
a connection.  The same holds for the destructor alone, started with a cursor on
the end of the list. -/
theorem C18_destroy_in_last_callable_hits_sentinel :
    signal.call (fun f => if f = 10 then [.destroy 0] else []) 10 0 abc =
      .error ⟨.not_a_connection,
        [.invoked (some 0) 2 12, .invoked (some 0) 1 11, .invoked (some 0) 0 10]⟩ ∧
    signal.dtor 0 (abc.enter 0 (some (.fake 0)) none) = .error ⟨.not_a_connection, []⟩ :=
  ⟨by decide, by decide⟩
/-! ## `connect` during a dispatch -/

theorem holders_connected (st : State) (s f : Nat) (q : Ptr) :
    (st.connected s f q).holders = st.holders :=
  (rest_holders (rest_connected st s f q) :
    _ = (st.alloc ⟨⟨none, none⟩, some s, some f⟩).holders)

theorem trace_connected (st : State) (s f : Nat) (q : Ptr) :
    (st.connected s f q).trace = st.trace :=
  (rest_trace (rest_connected st s f q) :
    _ = (st.alloc ⟨⟨none, none⟩, some s, some f⟩).trace)

theorem fired_connected (st : State) (s f : Nat) (q : Ptr) :
    (st.connected s f q).fired = st.fired :=
  (rest_fired (rest_connected st s f q) :
    _ = (st.alloc ⟨⟨none, none⟩, some s, some f⟩).fired)

theorem sigs_connected {st : State} (s f : Nat) (q : Ptr) {z : Nat} {sg : signal}
    (hs : st.sigs[z]? = some sg) :
    ∃ sg', (st.connected s f q).sigs[z]? = some sg' ∧ sg'.alive = sg.alive ∧
      sg'.tail = sg.tail :=
  rest_sigs (rest_connected st s f q)
    (show (st.alloc ⟨⟨none, none⟩, some s, some f⟩).sigs[z]? = some sg from hs)

/-- A dispatch over the ring `pre ++ k :: post` in which the callable of `k`
connects a new callable `f` to the same signal and the other callables do
nothing: every connection of the ring runs once, in order; the new connection
does not run, and is the first element of the ring afterwards. -/
theorem call_connect (prog : Prog) (F : Nat → Nat) (st : State) (s k f : Nat)
    (pre post : List Nat) (sg : signal)
    (hsg : st.sigs[s]? = some sg) (ha : sg.alive = true)
    (hr : Ring st s (pre ++ k :: post))
    (hF : ∀ y ∈ pre ++ k :: post, st.funcOf y = some (F y))
    (hk : prog (F k) = [.connect s f])
    (hq : ∀ y ∈ pre ++ post, prog (F y) = [])
    (fuel : Nat) (hfuel : (pre ++ k :: post).length + 2 ≤ fuel) :
    ∃ (st' : State) (sg' : signal), signal.call prog fuel s st = .ok st' ∧
      st'.trace = st.trace ++ invokedAll s F (pre ++ k :: post) ∧
      Ring st' s (st.conns.length :: (pre ++ k :: post)) ∧ st'.holders = st.holders ∧
      (∀ y, st'.funcOf y = if y = st.conns.length then some f else st.funcOf y) ∧
      st'.conns.length = st.conns.length + 1 ∧ st'.fired = st.fired ∧
      st'.sigs[s]? = some sg' ∧ sg'.alive = true ∧ sg'.tail = sg.tail := by
  simp only [List.length_append, List.length_cons] at hfuel
  obtain ⟨n, rfl⟩ : ∃ n, fuel = ((n + 1) + post.length + 1 + pre.length) + 1 :=
    ⟨fuel - pre.length - post.length - 3, by omega⟩
  obtain ⟨hseg, hnd⟩ := hr
  obtain ⟨hseg1, hseg2⟩ := (seg_append _ _ _ _ _ _).mp hseg
  have hnext : sg.fake_.next = some (hd pre (.conn k)) := by
    have := hseg.link_first.1
    simpa [State.nextOf, base_fake hsg ha, hd_append] using this
  rw [signal.call]
  simp only [ctor_ok hsg ha, bind, Except.bind, hnext]
  -- the connections before `k`
  have hh1 : (st.enter s (some (hd pre (.conn k))) sg.tail).holders[st.holders.length]? =
      some ⟨some s, some (hd pre (.conn k)), sg.tail⟩ := by simp
  rw [loop_quiet' prog _ s _ _ F pre (.conn k) _ _ hh1 rfl (by simp)
    (fun y ys e => by
      subst e
      exact hseg1.2.same (by simp))
    (fun y hy => by
      refine ⟨by simpa using hF y (List.mem_append_left _ hy), ?_⟩
      rw [hq y (List.mem_append_left _ hy)]
      simp)]
  -- the connection `k`
  have hb : st.base (.conn k) = some ⟨some (lst (.fake s) pre), some (hd post (.fake s))⟩ :=
    hseg.base_mem
  obtain ⟨cn, hcn, hFk⟩ : ∃ cn, st.conns[k]? = some cn ∧ cn.func = some (F k) := by
    have := hF k (by simp)
    simp only [State.funcOf] at this
    cases hc : st.conns[k]? with
    | none => simp [hc] at this
    | some cn => exact ⟨cn, rfl, by simpa [hc] using this⟩
  rw [loop_step prog _ s _ _ (holders_visit hh1 _ _) rfl (by simpa using hb)
    (by simpa using hcn) hFk, visit_visit, hk]
  have hr3 : Ring ((st.enter s (some (hd pre (.conn k))) sg.tail).visit st.holders.length
      (some (hd post (.fake s))) (invokedAll s F pre ++ [Event.invoked (some s) k (F k)])) s
      (pre ++ k :: post) := Ring.same_base ⟨hseg, hnd⟩ (by simp)
  have hsg3 : ((st.enter s (some (hd pre (.conn k))) sg.tail).visit st.holders.length
      (some (hd post (.fake s)))
      (invokedAll s F pre ++ [Event.invoked (some s) k (F k)])).sigs[s]? =
      some { sg with tail := some st.holders.length } := by
    simpa using sigs_enter hsg _ _
  obtain ⟨hc1, hc2⟩ := connect_ok f hsg3 ha hr3
  simp only [runBody, Action.run, hc1, bind, Except.bind, pure, Except.pure]
  -- the state after the connection
  obtain ⟨sg4, hsg4, ha4, ht4⟩ := sigs_connected s f (hd (pre ++ k :: post) (.fake s)) hsg3
  generalize hst4 : ((st.enter s (some (hd pre (.conn k))) sg.tail).visit st.holders.length
      (some (hd post (.fake s)))
      (invokedAll s F pre ++ [Event.invoked (some s) k (F k)])).connected s f
      (hd (pre ++ k :: post) (.fake s)) = st4 at hc2 hsg4 ⊢
  have hhold4 : st4.holders = st.holders ++ [⟨some s, some (hd post (.fake s)), sg.tail⟩] := by
    rw [← hst4, holders_connected]
    simp [State.visit, upd_append_last]
  have htrace4 : st4.trace =
      st.trace ++ (invokedAll s F pre ++ [Event.invoked (some s) k (F k)]) := by
    rw [← hst4, trace_connected]; rfl
  have hfired4 : st4.fired = st.fired := by
    rw [← hst4, fired_connected]; rfl
  have hfunc4 : ∀ y, st4.funcOf y = if y = st.conns.length then some f else st.funcOf y := by
    intro y
    rw [← hst4, funcOf_connected]; rfl
  have hlen4 : st4.conns.length = st.conns.length + 1 := by
    rw [← hst4, length_connected]; rfl
  have hh4 : st4.holders[st.holders.length]? =
      some ⟨some s, some (hd post (.fake s)), sg.tail⟩ := by simp [hhold4]
  simp only [derefHolder, hh4, pure, Except.pure]
  rw [if_neg (by simp)]
  have hnew : ∀ y ∈ pre ++ k :: post, y ≠ st.conns.length := by
    intro y hy e
    have := hseg.lt_length hy
    omega
  have hseg4 := (seg_append _ _ _ _ _ _).mp
    (show Seg st4 (.fake s) ((st.conns.length :: pre) ++ k :: post) (.fake s) from hc2.1)
  -- the connections after `k`
  rw [loop_quiet' prog _ s _ _ F post (.fake s) _ _ hh4 rfl (by simp)
    (fun y ys e => by
      subst e
      exact hseg4.2.2)
    (fun y hy => by
      have hm : y ∈ pre ++ k :: post := by simp [hy]
      refine ⟨by rw [hfunc4, if_neg (hnew y hm)]; exact hF y hm, ?_⟩
      rw [hq y (List.mem_append_right _ hy)]
      simp)]
  rw [loop_end prog _ s _ n _ (holders_visit hh4 _ _) rfl]
  rw [dtor_top sg4 st.holders ⟨some s, some (.fake s), sg.tail⟩
    (by simp [State.visit, hhold4, upd_append_last]) rfl (by simpa using hsg4)
    (ha4.trans ha) ht4]
  refine ⟨_, { sg4 with tail := sg.tail }, rfl, ?_, ?_, rfl, ?_, hlen4, hfired4, ?_, ha4.trans ha,
    rfl⟩
  · simp [htrace4, invokedAll]
  · refine hc2.same_base ?_
    intro u
    rw [base_holders]
    exact (base_setTail _ s sg.tail u).trans (base_visit _ _ _ _ u)
  · intro y
    exact hfunc4 y
  · simp [getElem?_upd, hsg4]

/-- C19: let the callable of `k`, in the ring `pre ++ k :: post` of `s`, connect a
new callable `f` to `s`, the other callables (and `f`) doing nothing.  A dispatch
of `s` succeeds and runs `pre`, `k`, `post`, each once: the new connection, which
is the first element of the ring afterwards, does not run.  The next dispatch
runs the new connection first, then `pre`, `k`, `post`.  And in any memory in
which a cursor of some frame in progress designates an element of the ring or the
end, `connect` leaves every cursor as it is and puts the new connection before
the whole ring: resumed, that frame runs what was left for it to run, to the end
of the list, and the new connection is not part of it. -/
theorem C19_connect_during_dispatch (prog : Prog) (F : Nat → Nat) (st : State) (s k f : Nat)
    (pre post : List Nat) (sg : signal)
    (hsg : st.sigs[s]? = some sg) (ha : sg.alive = true)
    (hr : Ring st s (pre ++ k :: post))
    (hF : ∀ y ∈ pre ++ k :: post, st.funcOf y = some (F y))
    (hk : prog (F k) = [.connect s f])
    (hq : ∀ y ∈ pre ++ post, prog (F y) = [])
    (hf : prog f = [])
    (fuel : Nat) (hfuel : (pre ++ k :: post).length + 3 ≤ fuel) :
    (∃ st1 st2 : State, signal.call prog fuel s st = .ok st1 ∧
      st1.trace = st.trace ++ invokedAll s F (pre ++ k :: post) ∧
      (∀ g, Event.invoked (some s) st.conns.length g ∉ invokedAll s F (pre ++ k :: post)) ∧
      Ring st1 s (st.conns.length :: (pre ++ k :: post)) ∧
      st1.funcOf st.conns.length = some f ∧ st1.holders = st.holders ∧
      signal.call prog fuel s st1 = .ok st2 ∧
      st2.trace = st1.trace ++
        Event.invoked (some s) st.conns.length f :: invokedAll s F (pre ++ k :: post)) ∧
    ∀ (st0 : State) (sg0 : signal) (pre0 post0 : List Nat) (H : Nat) (hd0 : iterator_holder),
      st0.sigs[s]? = some sg0 → sg0.alive = true → Ring st0 s (pre0 ++ post0) →
      st0.holders[H]? = some hd0 → hd0.current = some (hd post0 (.fake s)) → hd0.sig ≠ none →
      (∀ y ∈ post0, st0.funcOf y = some (F y) ∧ ∀ a ∈ prog (F y), a.idle st0.fired) →
      ∃ stc : State, signal.connect s f st0 = .ok (st0.conns.length, stc) ∧
        Ring stc s (st0.conns.length :: (pre0 ++ post0)) ∧ stc.holders = st0.holders ∧
        st0.conns.length ∉ post0 ∧
        ∀ (emit : Nat → State → Res State) (j : Nat),
          signal.loop prog emit s H (j + post0.length) stc =
            signal.loop prog emit s H j
              (stc.visit H (some (.fake s)) (invokedAll s F post0)) := by
  have hnew : ∀ y ∈ pre ++ k :: post, y ≠ st.conns.length := by
    intro y hy e
    have := hr.1.lt_length hy
    omega
  constructor
  · obtain ⟨st1, sg1, h1, h2, h3, h4, h5, h6, h7, h8, h9, _⟩ :=
      call_connect prog F st s k f pre post sg hsg ha hr hF hk hq fuel (by omega)
    have hr1 : Ring st1 s ((st.conns.length :: pre) ++ k :: post) := h3
    have hF1 : ∀ y ∈ (st.conns.length :: pre) ++ k :: post,
        st1.funcOf y = some ((fun y => if y = st.conns.length then f else F y) y) := by
      intro y hy
      rw [h5]
      by_cases e : y = st.conns.length
      · simp [e]
      · have hm : y ∈ pre ++ k :: post := by
          simpa [e] using hy
        simp only [e, if_false]
        exact hF y hm
    obtain ⟨st2, _, k1, k2, _⟩ :=
      call_connect prog (fun y => if y = st.conns.length then f else F y) st1 s k f
        (st.conns.length :: pre) post sg1 h8 h9 hr1 hF1
        (by simp only [hnew k (by simp), if_false]; exact hk)
        (by
          intro y hy
          by_cases e : y = st.conns.length
          · simp only [e, if_true]
            exact hf
          · simp only [e, if_false]
            exact hq y (by simpa [e] using hy))
        fuel (by simp only [List.length_append, List.length_cons] at hfuel ⊢; omega)
    refine ⟨st1, st2, h1, h2, ?_, h3, by rw [h5]; simp, h4, k1, ?_⟩
    · intro g hm
      simp only [invokedAll, List.mem_map, Event.invoked.injEq] at hm
      obtain ⟨y, hy, _, e, _⟩ := hm
      exact hnew y hy e
    · rw [k2]
      congr 1
      simp only [invokedAll, List.cons_append, List.map_cons, if_true]
      congr 1
      apply List.map_congr_left
      intro y hy
      rw [if_neg (hnew y hy)]
  · intro st0 sg0 pre0 post0 H hd0 hsg0 ha0 hr0 hH hcur hsig hidle
    obtain ⟨c1, c2⟩ := connect_ok f hsg0 ha0 hr0
    have hn0 : st0.conns.length ∉ post0 := by
      intro hm
      have := hr0.1.lt_length (List.mem_append_right pre0 hm)
      omega
    refine ⟨_, c1, c2, holders_connected _ _ _ _, hn0, ?_⟩
    intro emit j
    have hseg := (Seg.split
      (show Seg (st0.connected s f (hd (pre0 ++ post0) (.fake s))) (.fake s)
        ((st0.conns.length :: pre0) ++ post0) (.fake s) from c2.1)).2.2
    refine loop_quiet' prog emit s H j F post0 (.fake s) _ hd0
      (by rw [holders_connected]; exact hH) hcur hsig hseg ?_
    intro y hy
    obtain ⟨e1, e2⟩ := hidle y hy
    have hne : y ≠ st0.conns.length := fun e => hn0 (e ▸ hy)
    refine ⟨by rw [funcOf_connected, if_neg hne]; exact e1, ?_⟩
    rw [fired_connected]
    exact e2

theorem C19_connect_during_dispatch_witness :
    Ring abc 0 ([2] ++ 1 :: [0]) ∧
    ∃ st1 st2 : State,
      signal.call (fun g => if g = 11 then [.connect 0 13] else []) 6 0 abc = .ok st1 ∧
      st1.trace = abc.trace ++ invokedAll 0 (fun y => y + 10) ([2] ++ 1 :: [0]) ∧
      (∀ g, Event.invoked (some 0) abc.conns.length g ∉
        invokedAll 0 (fun y => y + 10) ([2] ++ 1 :: [0])) ∧
      Ring st1 0 (abc.conns.length :: ([2] ++ 1 :: [0])) ∧
      st1.funcOf abc.conns.length = some 13 ∧ st1.holders = abc.holders ∧
      signal.call (fun g => if g = 11 then [.connect 0 13] else []) 6 0 st1 = .ok st2 ∧
      st2.trace = st1.trace ++
        Event.invoked (some 0) abc.conns.length 13 ::
          invokedAll 0 (fun y => y + 10) ([2] ++ 1 :: [0]) :=
  ⟨by decide, (C19_connect_during_dispatch (fun g => if g = 11 then [.connect 0 13] else [])
    (fun y => y + 10) abc 0 1 13 [2] [0] ⟨⟨some (.conn 0), some (.conn 2)⟩, none, true⟩
    rfl rfl (by decide) (by decide) rfl (by decide) rfl 6 (by decide)).1⟩
/-! ## Exchanging references -/

theorem setPrev_spec {st : State} {p : Ptr} {b : list_base} (h : st.base p = some b)
    (v : Option Ptr) :
    ∃ st', setPrev (some p) v st = .ok st' ∧
      (∀ u, st'.prevOf u = if u = p then v else st.prevOf u) ∧
      (∀ u, st'.nextOf u = st.nextOf u) ∧ st'.rest = st.rest ∧
      ∀ u, (st'.base u).isSome = (st.base u).isSome := by
  refine ⟨_, setPrev_ok h v, ?_, ?_, rest_setBase _ _ _, ?_⟩
  · intro u
    simp only [State.prevOf, base_setBase]
    by_cases e : p = u
    · subst e
      simp [h]
    · rw [if_neg e, if_neg (Ne.symm e)]
  · intro u
    simp only [State.nextOf, base_setBase]
    by_cases e : p = u
    · subst e
      simp [h]
    · rw [if_neg e]
  · intro u
    rw [base_setBase]
    split
    · simp
    · rfl

theorem setNext_spec {st : State} {p : Ptr} {b : list_base} (h : st.base p = some b)
    (v : Option Ptr) :
    ∃ st', setNext (some p) v st = .ok st' ∧
      (∀ u, st'.nextOf u = if u = p then v else st.nextOf u) ∧
      (∀ u, st'.prevOf u = st.prevOf u) ∧ st'.rest = st.rest ∧
      ∀ u, (st'.base u).isSome = (st.base u).isSome := by
  refine ⟨_, setNext_ok h v, ?_, ?_, rest_setBase _ _ _, ?_⟩
  · intro u
    simp only [State.nextOf, base_setBase]
    by_cases e : p = u
    · subst e
      simp [h]
    · rw [if_neg e, if_neg (Ne.symm e)]
  · intro u
    simp only [State.prevOf, base_setBase]
    by_cases e : p = u
    · subst e
      simp [h]
    · rw [if_neg e]
  · intro u
    rw [base_setBase]
    split
    · simp
    · rfl

theorem base_of_isSome {st : State} {p : Ptr} (h : (st.base p).isSome = true) :
    ∃ b, st.base p = some b := Option.isSome_iff_exists.mp h

theorem prevOf_eq_of_base {st : State} {p : Ptr} {b : list_base} (h : st.base p = some b) :
    st.prevOf p = b.prev := by simp [State.prevOf, h]

theorem nextOf_eq_of_base {st : State} {p : Ptr} {b : list_base} (h : st.base p = some b) :
    st.nextOf p = b.next := by simp [State.nextOf, h]

/-- The effect of `std::swap(p->prev, q->prev)`. -/
theorem swap_prev_spec {st : State} {p q : Ptr} (hp : (st.base p).isSome = true)
    (hq : (st.base q).isSome = true) :
    ∃ st', swap_prev (some p) (some q) st = .ok st' ∧
      (∀ u, st'.prevOf u =
        if u = q then st.prevOf p else if u = p then st.prevOf q else st.prevOf u) ∧
      (∀ u, st'.nextOf u = st.nextOf u) ∧ st'.rest = st.rest ∧
      ∀ u, (st'.base u).isSome = (st.base u).isSome := by
  obtain ⟨bp, hbp⟩ := base_of_isSome hp
  obtain ⟨bq, hbq⟩ := base_of_isSome hq
  obtain ⟨s1, a1, a2, a3, a4, a5⟩ := setPrev_spec hbp bq.prev
  obtain ⟨bq1, hbq1⟩ := base_of_isSome (show (s1.base q).isSome = true by rw [a5]; exact hq)
  obtain ⟨s2, c1, c2, c3, c4, c5⟩ := setPrev_spec hbq1 bp.prev
  refine ⟨s2, ?_, ?_, ?_, c4.trans a4, ?_⟩
  · simp only [swap_prev, getPrev_ok hbp, getPrev_ok hbq, a1, c1, bind, Except.bind]
  · intro u
    rw [c2, a2, prevOf_eq_of_base hbp, prevOf_eq_of_base hbq]
  · intro u
    rw [c3, a3]
  · intro u
    rw [c5, a5]

/-- The effect of `std::swap(p->next, q->next)`. -/
theorem swap_next_spec {st : State} {p q : Ptr} (hp : (st.base p).isSome = true)
    (hq : (st.base q).isSome = true) :
    ∃ st', swap_next (some p) (some q) st = .ok st' ∧
      (∀ u, st'.nextOf u =
        if u = q then st.nextOf p else if u = p then st.nextOf q else st.nextOf u) ∧
      (∀ u, st'.prevOf u = st.prevOf u) ∧ st'.rest = st.rest ∧
      ∀ u, (st'.base u).isSome = (st.base u).isSome := by
  obtain ⟨bp, hbp⟩ := base_of_isSome hp
  obtain ⟨bq, hbq⟩ := base_of_isSome hq
  obtain ⟨s1, a1, a2, a3, a4, a5⟩ := setNext_spec hbp bq.next
  obtain ⟨bq1, hbq1⟩ := base_of_isSome (show (s1.base q).isSome = true by rw [a5]; exact hq)
  obtain ⟨s2, c1, c2, c3, c4, c5⟩ := setNext_spec hbq1 bp.next
  refine ⟨s2, ?_, ?_, ?_, c4.trans a4, ?_⟩
  · simp only [swap_next, getNext_ok hbp, getNext_ok hbq, a1, c1, bind, Except.bind]
  · intro u
    rw [c2, a2, nextOf_eq_of_base hbp, nextOf_eq_of_base hbq]
  · intro u
    rw [c3, a3]
  · intro u
    rw [c5, a5]

theorem setBase_same {st : State} {p : Ptr} {b : list_base} (h : st.base p = some b)
    (f : list_base → list_base) (hf : f b = b) : st.setBase p f = st := by
  cases p with
  | fake s =>
    simp only [State.base] at h
    cases hs : st.sigs[s]? with
    | none => simp [hs] at h
    | some sg =>
      simp only [hs, Option.some_bind] at h
      split at h
      · cases h
        simp only [State.setBase, State.setSig]
        rw [upd_same _ _ _ hs (by rw [hf])]
      · cases h
  | conn c =>
    simp only [State.base] at h
    cases hc : st.conns[c]? with
    | none => simp [hc] at h
    | some cn =>
      simp only [hc, Option.map_some', Option.some.injEq] at h
      subst h
      simp only [State.setBase, State.setConn]
      rw [upd_same _ _ _ hc (by rw [hf])]

theorem swap_prev_self {st : State} {p : Ptr} (hp : (st.base p).isSome = true) :
    swap_prev (some p) (some p) st = .ok st := by
  obtain ⟨b, hb⟩ := base_of_isSome hp
  have e : st.setBase p (fun b0 => { b0 with prev := b.prev }) = st := setBase_same hb _ rfl
  simp only [swap_prev, getPrev_ok hb, setPrev_ok hb, e, bind, Except.bind]

theorem swap_next_self {st : State} {p : Ptr} (hp : (st.base p).isSome = true) :
    swap_next (some p) (some p) st = .ok st := by
  obtain ⟨b, hb⟩ := base_of_isSome hp
  have e : st.setBase p (fun b0 => { b0 with next := b.next }) = st := setBase_same hb _ rfl
  simp only [swap_next, getNext_ok hb, setNext_ok hb, e, bind, Except.bind]

theorem getNext_of_nextOf {st : State} {p q : Ptr} (h : st.nextOf p = some q) :
    getNext (some p) st = .ok (some q) := by
  obtain ⟨b, hb⟩ := base_isSome_of_nextOf h
  rw [getNext_ok hb, ← nextOf_eq_of_base hb, h]

theorem getPrev_of_prevOf {st : State} {p q : Ptr} (h : st.prevOf p = some q) :
    getPrev (some p) st = .ok (some q) := by
  obtain ⟨b, hb⟩ := base_isSome_of_prevOf h
  rw [getPrev_ok hb, ← prevOf_eq_of_base hb, h]

theorem isSome_of_nextOf {st : State} {p q : Ptr} (h : st.nextOf p = some q) :
    (st.base p).isSome = true := by
  obtain ⟨b, hb⟩ := base_isSome_of_nextOf h
  simp [hb]

theorem isSome_of_prevOf {st : State} {p q : Ptr} (h : st.prevOf p = some q) :
    (st.base p).isSome = true := by
  obtain ⟨b, hb⟩ := base_isSome_of_prevOf h
  simp [hb]

/-- Swapping a list with itself changes nothing. -/
theorem swap_self {st : State} {x : Nat} {xs : List Nat} (h : Ring st x xs) :
    list.swap x x st = .ok st := by
  have h1 := h.1.link_first
  have h2 := h.1.link_last
  simp only [list.swap, getNext_of_nextOf h1.1, getPrev_of_prevOf h2.2, bind, Except.bind,
    swap_prev_self (isSome_of_prevOf h1.2), swap_next_self (isSome_of_nextOf h1.1),
    swap_next_self (isSome_of_nextOf h2.1), swap_prev_self (isSome_of_prevOf h2.2)]

theorem lst_of_ne_nil (p q : Ptr) {xs : List Nat} (h : xs ≠ []) : lst p xs = lst q xs := by
  cases xs with
  | nil => exact absurd rfl h
  | cons a l => rfl

theorem hd_of_ne_nil (p q : Ptr) {xs : List Nat} (h : xs ≠ []) : hd xs p = hd xs q := by
  cases xs with
  | nil => exact absurd rfl h
  | cons a l => rfl

/-- The neighbour references after `x.swap(y)` on two well-formed lists. -/
theorem list_swap_spec {st : State} {x y : Nat} {xs ys : List Nat} (hx : Ring st x xs)
    (hy : Ring st y ys) (hne : x ≠ y) :
    ∃ st', list.swap x y st = .ok st' ∧
      (∀ u, st'.nextOf u =
        if u = lst (.fake x) ys then some (.fake x)
        else if u = lst (.fake y) xs then some (.fake y)
        else if u = .fake y then some (hd xs (.fake x))
        else if u = .fake x then some (hd ys (.fake y))
        else st.nextOf u) ∧
      (∀ u, st'.prevOf u =
        if u = .fake y then some (lst (.fake y) xs)
        else if u = .fake x then some (lst (.fake x) ys)
        else if u = hd ys (.fake y) then some (.fake x)
        else if u = hd xs (.fake x) then some (.fake y)
        else st.prevOf u) ∧
      st'.rest = st.rest := by
  have hx1 := hx.1.link_first
  have hx2 := hx.1.link_last
  have hy1 := hy.1.link_first
  have hy2 := hy.1.link_last
  have hfxy : Ptr.fake x ≠ Ptr.fake y := fun e => hne (Ptr.fake.inj e)
  have hfyx : Ptr.fake y ≠ Ptr.fake x := fun e => hne (Ptr.fake.inj e).symm
  -- std::swap(fake_.next->prev, other.fake_.next->prev)
  obtain ⟨s1, a1, a2, a3, a4, a5⟩ :=
    swap_prev_spec (isSome_of_prevOf hx1.2) (isSome_of_prevOf hy1.2)
  rw [hx1.2, hy1.2] at a2
  -- std::swap(fake_.next, other.fake_.next)
  obtain ⟨s2, b1, b2, b3, b4, b5⟩ := swap_next_spec
    (show (s1.base (.fake x)).isSome = true by rw [a5]; exact isSome_of_nextOf hx1.1)
    (show (s1.base (.fake y)).isSome = true by rw [a5]; exact isSome_of_nextOf hy1.1)
  rw [a3, a3, hx1.1, hy1.1] at b2
  -- std::swap(fake_.prev->next, other.fake_.prev->next)
  have p3 : s2.prevOf (.fake x) = some (lst (.fake y) xs) := by
    rw [b3, a2, hx2.2]
    cases xs <;> cases ys <;> simp [hd, lst, hfxy]
  have q3 : s2.prevOf (.fake y) = some (lst (.fake x) ys) := by
    rw [b3, a2, hy2.2]
    cases xs <;> cases ys <;> simp [hd, lst, hfyx]
  have hp3 : (s2.base (lst (.fake y) xs)).isSome = true := by
    rw [b5, a5]
    cases xs with
    | nil => exact isSome_of_nextOf hy1.1
    | cons a l => exact isSome_of_nextOf hx2.1
  have hq3 : (s2.base (lst (.fake x) ys)).isSome = true := by
    rw [b5, a5]
    cases ys with
    | nil => exact isSome_of_nextOf hx1.1
    | cons a l => exact isSome_of_nextOf hy2.1
  obtain ⟨s3, c1, c2, c3, c4, c5⟩ := swap_next_spec hp3 hq3
  have n3p : s2.nextOf (lst (.fake y) xs) = some (.fake x) := by
    rw [b2]
    cases xs with
    | nil => simp [lst, hd]
    | cons a l =>
      have : lst (.fake y) (a :: l) = lst (.fake x) (a :: l) := rfl
      rw [this, if_neg, if_neg, a3, hx2.1]
      · intro e
        have := lst_mem (.fake x) (a :: l) (by simp)
        rw [e] at this
        simp at this
      · intro e
        have := lst_mem (.fake x) (a :: l) (by simp)
        rw [e] at this
        simp at this
  have n3q : s2.nextOf (lst (.fake x) ys) = some (.fake y) := by
    rw [b2]
    cases ys with
    | nil => simp [lst, hd, hfxy]
    | cons a l =>
      have : lst (.fake x) (a :: l) = lst (.fake y) (a :: l) := rfl
      rw [this, if_neg, if_neg, a3, hy2.1]
      · intro e
        have := lst_mem (.fake y) (a :: l) (by simp)
        rw [e] at this
        simp at this
      · intro e
        have := lst_mem (.fake y) (a :: l) (by simp)
        rw [e] at this
        simp at this
  rw [n3p, n3q] at c2
  -- std::swap(fake_.prev, other.fake_.prev)
  obtain ⟨s4, d1, d2, d3, d4, d5⟩ := swap_prev_spec
    (show (s3.base (.fake x)).isSome = true by
      rw [c5, b5, a5]; exact isSome_of_nextOf hx1.1)
    (show (s3.base (.fake y)).isSome = true by
      rw [c5, b5, a5]; exact isSome_of_nextOf hy1.1)
  rw [c3, c3, p3, q3] at d2
  refine ⟨s4, ?_, ?_, ?_, d4.trans (c4.trans (b4.trans a4))⟩
  · simp only [list.swap, getNext_of_nextOf hx1.1, getNext_of_nextOf hy1.1, a1, b1,
      getPrev_of_prevOf p3, getPrev_of_prevOf q3, c1, d1, bind, Except.bind]
  · intro u
    rw [d3, c2, b2, a3]
  · intro u
    rw [d2, c3, b3, a2]

/-- A ring whose elements keep their inner links, and whose two ends are attached
to the sentinel of `a`, is the ring of `a`. -/
theorem Ring.transplant {st st' : State} {a b : Nat} {ys : List Nat} (h : Ring st b ys)
    (h1 : st'.nextOf (.fake a) = some (hd ys (.fake a)))
    (h2 : st'.prevOf (.fake a) = some (lst (.fake a) ys))
    (h3 : ∀ y ∈ ys, st'.nextOf (.conn y) =
      if Ptr.conn y = lst (.fake b) ys then some (.fake a) else st.nextOf (.conn y))
    (h4 : ∀ y ∈ ys, st'.prevOf (.conn y) =
      if Ptr.conn y = hd ys (.fake b) then some (.fake a) else st.prevOf (.conn y)) :
    Ring st' a ys := by
  refine ⟨?_, h.2⟩
  cases ys with
  | nil => exact ⟨h1, h2⟩
  | cons y1 l =>
    have hnd := List.nodup_cons.mp h.2
    refine ⟨⟨h1, ?_⟩, ?_⟩
    · rw [h4 y1 (by simp)]
      simp [hd]
    · refine h.1.2.retarget ?_ ?_ ?_ h2
      · exact (h.2).map (fun _ _ e => Ptr.conn.inj e)
      · intro u hu
        simp only [List.mem_cons, List.mem_map] at hu
        have : ∃ y, y ∈ y1 :: l ∧ Ptr.conn y = u := by
          rcases hu with rfl | ⟨y, hy, rfl⟩
          · exact ⟨y1, by simp, rfl⟩
          · exact ⟨y, by simp [hy], rfl⟩
        obtain ⟨y, hy, rfl⟩ := this
        exact h3 y hy
      · intro v hv
        simp only [List.mem_map] at hv
        obtain ⟨y, hy, rfl⟩ := hv
        rw [h4 y (by simp [hy]), if_neg]
        simp only [hd, Ptr.conn.injEq]
        rintro rfl
        exact hnd.1 hy

theorem lst_mem_or (p : Ptr) (xs : List Nat) : lst p xs = p ∨ ∃ x ∈ xs, lst p xs = .conn x := by
  cases xs with
  | nil => exact Or.inl rfl
  | cons a l =>
    have := lst_mem p (a :: l) (by simp)
    simp only [List.mem_map] at this
    obtain ⟨x, hx, e⟩ := this
    exact Or.inr ⟨x, hx, e.symm⟩

theorem hd_mem_or (p : Ptr) (xs : List Nat) : hd xs p = p ∨ ∃ x ∈ xs, hd xs p = .conn x := by
  cases xs with
  | nil => exact Or.inl rfl
  | cons a l => exact Or.inr ⟨a, by simp, rfl⟩

/-- C20: for two well-formed lists, of signals `x` and `y`, `x.swap(y)` succeeds;
afterwards the list of `x` is a well-formed ring holding the former elements of
`y` in their order, and the list of `y` one holding the former elements of `x`;
every other well-formed list is as it was and only neighbour references have
changed.  And `x.swap(x)` leaves the memory as it is. -/
theorem C20_swap_exchanges_lists (st : State) (x y : Nat) (xs ys : List Nat)
    (hx : Ring st x xs) (hy : Ring st y ys) :
    (x ≠ y → ∃ st', list.swap x y st = .ok st' ∧ Ring st' x ys ∧ Ring st' y xs ∧
      (∀ t zs, t ≠ x → t ≠ y → Ring st t zs → Ring st' t zs) ∧ st'.rest = st.rest) ∧
    list.swap x x st = .ok st := by
  refine ⟨?_, swap_self hx⟩
  intro hne
  obtain ⟨st', e1, hN, hP, hrest⟩ := list_swap_spec hx hy hne
  have hfxy : Ptr.fake x ≠ Ptr.fake y := fun e => hne (Ptr.fake.inj e)
  have hfyx : Ptr.fake y ≠ Ptr.fake x := fun e => hne (Ptr.fake.inj e).symm
  have hdis : ∀ u ∈ xs, u ∉ ys := hx.disjoint_of_ne hy hne
  have A1 : lst (.fake x) ys ≠ .fake y := by
    rcases lst_mem_or (.fake x) ys with e | ⟨_, _, e⟩ <;> rw [e]
    · exact hfxy
    · simp
  have A2 : lst (.fake y) xs ≠ .fake x := by
    rcases lst_mem_or (.fake y) xs with e | ⟨_, _, e⟩ <;> rw [e]
    · exact hfyx
    · simp
  have A3 : hd ys (.fake y) ≠ .fake x := by
    rcases hd_mem_or (.fake y) ys with e | ⟨_, _, e⟩ <;> rw [e]
    · exact hfyx
    · simp
  have A4 : ∀ yy ∈ ys, Ptr.conn yy ≠ lst (.fake y) xs ∧ Ptr.conn yy ≠ hd xs (.fake x) := by
    intro yy hyy
    constructor
    · rcases lst_mem_or (.fake y) xs with e | ⟨u, hu, e⟩ <;> rw [e]
      · simp
      · simp only [ne_eq, Ptr.conn.injEq]
        rintro rfl
        exact hdis _ hu hyy
    · rcases hd_mem_or (.fake x) xs with e | ⟨u, hu, e⟩ <;> rw [e]
      · simp
      · simp only [ne_eq, Ptr.conn.injEq]
        rintro rfl
        exact hdis _ hu hyy
  have A5 : ∀ xx ∈ xs, Ptr.conn xx ≠ lst (.fake x) ys ∧ Ptr.conn xx ≠ hd ys (.fake y) := by
    intro xx hxx
    constructor
    · rcases lst_mem_or (.fake x) ys with e | ⟨u, hu, e⟩ <;> rw [e]
      · simp
      · simp only [ne_eq, Ptr.conn.injEq]
        rintro rfl
        exact hdis _ hxx hu
    · rcases hd_mem_or (.fake y) ys with e | ⟨u, hu, e⟩ <;> rw [e]
      · simp
      · simp only [ne_eq, Ptr.conn.injEq]
        rintro rfl
        exact hdis _ hxx hu
  refine ⟨st', e1, ?_, ?_, ?_, hrest⟩
  · -- the list of `x` holds the elements of `ys`
    refine hy.transplant ?_ ?_ ?_ ?_
    · rw [hN]
      cases ys with
      | nil => simp [lst, hd]
      | cons a l =>
        have k1 : Ptr.fake x ≠ lst (.fake x) (a :: l) := by
          rcases lst_mem_or (.fake x) (a :: l) with e | ⟨_, _, e⟩
          · exact absurd e (by
              have := lst_mem (.fake x) (a :: l) (by simp)
              intro e'
              rw [e'] at this
              simp at this)
          · rw [e]; simp
        rw [if_neg k1, if_neg (Ne.symm A2), if_neg hfxy, if_pos rfl]
        rfl
    · rw [hP, if_neg hfxy, if_pos rfl]
    · intro yy hyy
      rw [hN, lst_of_ne_nil (.fake x) (.fake y) (List.ne_nil_of_mem hyy)]
      split
      · rfl
      · rw [if_neg (A4 yy hyy).1, if_neg (by simp), if_neg (by simp)]
    · intro yy hyy
      rw [hP, if_neg (by simp), if_neg (by simp)]
      split
      · rfl
      · rw [if_neg (A4 yy hyy).2]
  · -- the list of `y` holds the elements of `xs`
    refine hx.transplant ?_ ?_ ?_ ?_
    · rw [hN, if_neg (Ne.symm A1)]
      cases xs with
      | nil => simp [lst, hd]
      | cons a l =>
        have k1 : Ptr.fake y ≠ lst (.fake y) (a :: l) := by
          have := lst_mem (.fake y) (a :: l) (by simp)
          intro e'
          rw [← e'] at this
          simp at this
        rw [if_neg k1, if_pos rfl]
        rfl
    · rw [hP, if_pos rfl]
    · intro xx hxx
      rw [hN, if_neg (A5 xx hxx).1,
        lst_of_ne_nil (.fake y) (.fake x) (List.ne_nil_of_mem hxx)]
      split
      · rfl
      · rw [if_neg (by simp), if_neg (by simp)]
    · intro xx hxx
      rw [hP, if_neg (by simp), if_neg (by simp), if_neg (A5 xx hxx).2]
  · -- the other lists
    intro t zs htx hty hz
    have B : ∀ u ∈ Ptr.fake t :: zs.map Ptr.conn,
        u ≠ lst (.fake x) ys ∧ u ≠ lst (.fake y) xs ∧ u ≠ .fake y ∧ u ≠ .fake x ∧
        u ≠ hd ys (.fake y) ∧ u ≠ hd xs (.fake x) := by
      intro u hu
      have nx : ∀ w ∈ Ptr.fake x :: xs.map Ptr.conn, u ≠ w :=
        fun w hw => (hx.node_ne hz (Ne.symm htx) w u hw hu).symm
      have ny : ∀ w ∈ Ptr.fake y :: ys.map Ptr.conn, u ≠ w :=
        fun w hw => (hy.node_ne hz (Ne.symm hty) w u hw hu).symm
      have mx : ∀ w, (w = Ptr.fake x ∨ ∃ v ∈ xs, w = Ptr.conn v) →
          w ∈ Ptr.fake x :: xs.map Ptr.conn := by
        rintro w (rfl | ⟨v, hv, rfl⟩) <;> simp [*]
      have my : ∀ w, (w = Ptr.fake y ∨ ∃ v ∈ ys, w = Ptr.conn v) →
          w ∈ Ptr.fake y :: ys.map Ptr.conn := by
        rintro w (rfl | ⟨v, hv, rfl⟩) <;> simp [*]
      refine ⟨?_, ?_, ny _ (by simp), nx _ (by simp), ny _ (my _ (hd_mem_or _ _)),
        nx _ (mx _ (hd_mem_or _ _))⟩
      · rcases lst_mem_or (.fake x) ys with e | ⟨v, hv, e⟩ <;> rw [e]
        · exact nx _ (by simp)
        · exact ny _ (my _ (Or.inr ⟨v, hv, rfl⟩))
      · rcases lst_mem_or (.fake y) xs with e | ⟨v, hv, e⟩ <;> rw [e]
        · exact ny _ (by simp)
        · exact nx _ (mx _ (Or.inr ⟨v, hv, rfl⟩))
    refine ⟨hz.1.frame ?_ ?_, hz.2⟩
    · intro u hu
      obtain ⟨b1, b2, b3, b4, _, _⟩ := B u hu
      rw [hN, if_neg b1, if_neg b2, if_neg b3, if_neg b4]
    · intro v hv
      obtain ⟨_, _, b3, b4, b5, b6⟩ := B v (mem_cons_of_mem_append_end hv)
      rw [hP, if_neg b3, if_neg b4, if_neg b5, if_neg b6]

theorem C20_swap_exchanges_lists_witness :
    Ring two_rings 0 [2, 1, 0] ∧ Ring two_rings 1 [3] ∧
    ((0 ≠ 1 → ∃ st', list.swap 0 1 two_rings = .ok st' ∧ Ring st' 0 [3] ∧
      Ring st' 1 [2, 1, 0] ∧
      (∀ t zs, t ≠ 0 → t ≠ 1 → Ring two_rings t zs → Ring st' t zs) ∧
      st'.rest = two_rings.rest) ∧
    list.swap 0 0 two_rings = .ok two_rings) :=
  ⟨by decide, by decide,
    C20_swap_exchanges_lists two_rings 0 1 [2, 1, 0] [3] (by decide) (by decide)⟩


end signals
